import Mathlib

/-!
# Tic-tac-toe engine (`engine.go`): board state, game-tree search, move selector

Shallow embedding of `engine.go`.

* Go `int` is the 64-bit two's complement integer.  A value of it is an `Int`
  in `[-2^63, 2^63)` (`isInt`), and every `+`, `-` and `*` of the source is
  followed by `wrap`, the reduction of the exact result to that interval.
* The arrays `[3]int`, `[2]int` and `[3][3]int` are functions on `Fin 3` and
  `Fin 2`; a coordinate `[2]int` used as an index pair is a pair of `Fin 3`
  (Go panics on any other index; `Board.moveRaw` is `move` on an unchecked pair
  of `int`, as `main` calls it on the parsed moves).
* A method with a pointer receiver that mutates the receiver (`move`) returns
  the receiver's new value; `copy` returns the fresh board.  Where it matters
  which board a pointer refers to (`copy`, and what `calculateBestMoves` does
  to its caller's board), the boards live in a `Heap` and a `*Board` is an
  address in it.
* The recursion of `calculateScore` is driven by an explicit `fuel` argument,
  and running out of it is reported as `Fault.outOfFuel`; Go run-time panics
  are reported as `Fault.panic`.
-/

namespace TicTacToe

/-! ## The engine -/

/-- Index pair into the 3x3 grid: `coordinates[0]` is the row, `coordinates[1]` the column. -/
abbrev Coord := Fin 3 × Fin 3

/-- Reasons for which a call yields no value. -/
inductive Fault where
  | outOfFuel
  | panic
  deriving DecidableEq, Repr

/-- Outcome of a call that may fail to yield a value. -/
abbrev Result (α : Type) := Except Fault α

deriving instance DecidableEq for Except

/-- The values of Go's `int`: the integers from `-2^63` up to `2^63 - 1`. -/
def isInt (x : Int) : Prop :=
  -9223372036854775808 ≤ x ∧ x < 9223372036854775808

instance (x : Int) : Decidable (isInt x) := by
  unfold isInt
  infer_instance

/-- The two's complement wrap-around of an exact result to 64 bits. -/
def wrap (x : Int) : Int :=
  (x + 9223372036854775808) % 18446744073709551616 - 9223372036854775808

/-- The indices visited by `for i := 0; i < 3; i++`. -/
def idx3 : List (Fin 3) := [0, 1, 2]

/-- The indices visited by `for i := 0; i < 2; i++`. -/
def idx2 : List (Fin 2) := [0, 1]

/-- Array store `a[i] = v`. -/
def setArr {n : Nat} (a : Fin n → Int) (i : Fin n) (v : Int) : Fin n → Int :=
  fun k => if k = i then v else a k

/-- The struct `Board`. -/
structure Board where
  fields : Fin 3 → Fin 3 → Int
  rowSums : Fin 3 → Int
  columnSums : Fin 3 → Int
  diagonalSums : Fin 2 → Int
  turn : Int

/-- The function `newBoard`. -/
def newBoard : Board :=
  { fields := fun _ _ => 0
    rowSums := fun _ => 0
    columnSums := fun _ => 0
    diagonalSums := fun _ => 0
    turn := 0 }

/-- The method `copy`: a new board built from the receiver's five fields. -/
def Board.copy (b : Board) : Board :=
  { fields := b.fields
    rowSums := b.rowSums
    columnSums := b.columnSums
    diagonalSums := b.diagonalSums
    turn := b.turn }

/-- The method `getFields`. -/
def Board.getFields (b : Board) : Fin 3 → Fin 3 → Int := b.fields

/-- The method `getRowSums`. -/
def Board.getRowSums (b : Board) : Fin 3 → Int := b.rowSums

/-- The method `getColumnSums`. -/
def Board.getColumnSums (b : Board) : Fin 3 → Int := b.columnSums

/-- The method `getDiagonalSums`. -/
def Board.getDiagonalSums (b : Board) : Fin 2 → Int := b.diagonalSums

/-- The loop of `move` over `i = 0, 1, 2` that updates `diagonalSums[1]`; `2 - i` and
`0 + i` stay within `0..2`. -/
def antiDiagonalLoop (player : Int) (coordinates : Coord) (ds : Fin 2 → Int) : Fin 2 → Int :=
  idx3.foldl
    (fun acc i =>
      if ((coordinates.1.val : Int) = 2 - (i.val : Int)) ∧ ((coordinates.2.val : Int) = 0 + (i.val : Int))
      then setArr acc 1 (wrap (acc 1 + player)) else acc)
    ds

/-- The method `move`; the result is the receiver after the call. -/
def Board.move (b : Board) (player : Int) (coordinates : Coord) : Board :=
  let fields : Fin 3 → Fin 3 → Int :=
    fun i j => if i = coordinates.1 ∧ j = coordinates.2 then player else b.fields i j
  let turn := wrap (b.turn + 1)
  let rowSums := setArr b.rowSums coordinates.1 (wrap (b.rowSums coordinates.1 + player))
  let columnSums := setArr b.columnSums coordinates.2 (wrap (b.columnSums coordinates.2 + player))
  let diag0 :=
    if coordinates.1 = coordinates.2 then
      setArr b.diagonalSums 0 (wrap (b.diagonalSums 0 + player))
    else b.diagonalSums
  { fields := fields
    rowSums := rowSums
    columnSums := columnSums
    diagonalSums := antiDiagonalLoop player coordinates diag0
    turn := turn }

/-- The method `asses`. -/
def Board.asses (b : Board) (player : Int) : Int :=
  if idx3.any (fun i => decide (b.rowSums i = wrap (player * 3))
      || decide (b.columnSums i = wrap (player * 3))) then 100
  else if idx2.any (fun i => decide (b.diagonalSums i = wrap (player * 3))) then 100
  else 0

/-- The struct `Move`. -/
structure Move where
  score : Int
  coordinates : Coord
  deriving DecidableEq

/-- The struct `UpdatedMove`. -/
structure UpdatedMove where
  updatedScore : Int
  move : Move
  deriving DecidableEq

/-- The function `findAvailableCoordinates`. -/
def findAvailableCoordinates (board : Board) : List Coord :=
  idx3.foldl
    (fun coordinates i =>
      idx3.foldl
        (fun coordinates j =>
          if board.getFields i j = 0 then coordinates ++ [(i, j)] else coordinates)
        coordinates)
    []

/-- The function `min`; `slice[0]` panics on an empty slice. -/
def min (slice : List Int) : Result Int :=
  match slice with
  | [] => .error .panic
  | x :: _ => .ok (slice.foldl (fun smallest v => if v < smallest then v else smallest) x)

/-- The function `max`; `slice[0]` panics on an empty slice. -/
def max (slice : List Int) : Result Int :=
  match slice with
  | [] => .error .panic
  | x :: _ => .ok (slice.foldl (fun largest v => if v > largest then v else largest) x)

/-- Running a loop body over a list and appending each value to a slice:
the first failing body stops the loop. -/
def collect {α β : Type} (f : α → Result β) : List α → Result (List β)
  | [] => .ok []
  | a :: as =>
    match f a with
    | .error e => .error e
    | .ok v =>
      match collect f as with
      | .error e => .error e
      | .ok vs => .ok (v :: vs)

/-- The function `calculateScore`, with `fuel` bounding the depth of the recursion. -/
def calculateScore : Nat → Int → Int → Coord → Board → Int → Result Int
  | 0, _, _, _, _, _ => .error .outOfFuel
  | fuel + 1, player, currentPlayer, coordinates, board, depth =>
    let boardCopy := (board.copy).move currentPlayer coordinates
    let score := boardCopy.asses currentPlayer
    if score ≠ 0 then
      if player = currentPlayer then .ok (wrap (score - depth))
      else .ok (wrap (wrap ((-1) * score) + depth))
    else
      let availableCoordinates := findAvailableCoordinates boardCopy
      if availableCoordinates.length = 0 then .ok 0
      else
        match collect
            (fun c => calculateScore fuel player (wrap ((-1) * currentPlayer)) c boardCopy
              (wrap (depth + 1)))
            availableCoordinates with
        | .error e => .error e
        | .ok scores => if player = currentPlayer then min scores else max scores

/-- The method `asses` in state-passing form: the value returned together with the
receiver after the call.  The body of `asses` assigns to no field of the receiver. -/
def Board.assesRun (b : Board) (player : Int) : Int × Board :=
  (b.asses player, b)

/-- The two inner loops of `calculateBestMoves`: `currentScore` plus the positive row,
column and diagonal sums of `boardCopy`, on which the move has been played. -/
def tieBreakScore (currentScore : Int) (boardCopy : Board) : Int :=
  let rowSums := boardCopy.getRowSums
  let columnSums := boardCopy.getColumnSums
  let diagonalSums := boardCopy.getDiagonalSums
  let currentScore :=
    idx3.foldl
      (fun currentScore i =>
        let currentScore :=
          if rowSums i > 0 then wrap (currentScore + rowSums i) else currentScore
        if columnSums i > 0 then wrap (currentScore + columnSums i) else currentScore)
      currentScore
  idx2.foldl
    (fun currentScore i =>
      if diagonalSums i > 0 then wrap (currentScore + diagonalSums i) else currentScore)
    currentScore

/-- The score that the first loop of `calculateBestMoves` computes for one move:
the move's score plus the positive row, column and diagonal sums of a copy of
the board on which the move has been played. -/
def candidateScore (player : Int) (board : Board) (m : Move) : Int :=
  let currentScore := m.score
  let boardCopy := (board.copy).move player m.coordinates
  tieBreakScore currentScore boardCopy

/-- The first loop of `calculateBestMoves`.  The state is the caller's board, `maxScore`
and `updatedMoves`; the body plays the move on `boardCopy` and leaves `board` alone. -/
def updateLoop (player : Int) (moves : List Move) (board : Board) :
    Board × Int × List UpdatedMove :=
  moves.foldl
    (fun st m =>
      let board := st.1
      let maxScore := st.2.1
      let updatedMoves := st.2.2
      let currentScore := candidateScore player board m
      let maxScore := if currentScore > maxScore then currentScore else maxScore
      (board, maxScore, updatedMoves ++ [{ updatedScore := currentScore, move := m }]))
    (board, -999, [])

/-- The function `calculateBestMoves` in state-passing form: the slice returned together
with the caller's board after the call. -/
def calculateBestMovesRun (player : Int) (board : Board) (moves : List Move) :
    List Move × Board :=
  let st := updateLoop player moves board
  let maxScore := st.2.1
  let updatedMoves := st.2.2
  let resultMoves :=
    updatedMoves.foldl
      (fun resultMoves um =>
        if um.updatedScore = maxScore then resultMoves ++ [um.move] else resultMoves)
      []
  (resultMoves, st.1)

/-- The function `calculateBestMoves`. -/
def calculateBestMoves (player : Int) (board : Board) (moves : List Move) : List Move :=
  (calculateBestMovesRun player board moves).1

/-- The function `calculateRandomMove`.  The value `rnd` stands for the state of the
random source: `rand.Intn(n)` panics for `n = 0` and otherwise yields an index below `n`. -/
def calculateRandomMove (moves : List Move) (rnd : Nat) : Result Move :=
  if moves.length = 0 then .error .panic
  else
    match moves[rnd % moves.length]? with
    | some m => .ok m
    | none => .error .panic

/-- The first loop of the selector in `main`: scores every available coordinate,
recording the moves and the running maximum. -/
def scoreLoop (fuel : Nat) (player : Int) (board : Board) :
    List Coord → Int × List Move → Result (Int × List Move)
  | [], st => .ok st
  | c :: cs, (maxScore, availableMoves) =>
    match calculateScore fuel player player c board 0 with
    | .error e => .error e
    | .ok score =>
      scoreLoop fuel player board cs
        (if score > maxScore then score else maxScore, availableMoves ++ [{ score := score, coordinates := c }])

/-- The second loop of the selector in `main`: the moves whose score is `maxScore`. -/
def potentialMovesOf (maxScore : Int) (availableMoves : List Move) : List Move :=
  availableMoves.foldl
    (fun potentialMoves m => if m.score = maxScore then potentialMoves ++ [m] else potentialMoves)
    []

/-- The slice `bestMoves` of `main`: the candidates left after both filtering steps. -/
def bestMovesOf (fuel : Nat) (player : Int) (board : Board) : Result (List Move) :=
  match scoreLoop fuel player board (findAvailableCoordinates board) (-999, []) with
  | .error e => .error e
  | .ok (maxScore, availableMoves) =>
    .ok (calculateBestMoves player board (potentialMovesOf maxScore availableMoves))

/-- The selector of `main`, from the replayed board on: the result is the move printed. -/
def selectMove (fuel : Nat) (player : Int) (board : Board) (rnd : Nat) : Result Move :=
  match bestMovesOf fuel player board with
  | .error e => .error e
  | .ok bestMoves => calculateRandomMove bestMoves rnd

/-! ## Notions used to state the properties -/

/-- Number of empty cells of a board. -/
def countEmpty (b : Board) : Nat :=
  (findAvailableCoordinates b).length

/-- The nine coordinates in row-major order. -/
def allCoords : List Coord :=
  [(0, 0), (0, 1), (0, 2), (1, 0), (1, 1), (1, 2), (2, 0), (2, 1), (2, 2)]

/-- Some row, column or diagonal sum equals `3 * player`. -/
def hasWinningSum (b : Board) (player : Int) : Prop :=
  (∃ i, b.rowSums i = wrap (player * 3)) ∨ (∃ j, b.columnSums j = wrap (player * 3))
    ∨ (∃ k, b.diagonalSums k = wrap (player * 3))

/-- Every row, column and diagonal sum lies in `[-B, B]`. -/
def sumsWithin (B : Int) (b : Board) : Prop :=
  (∀ i, -B ≤ b.rowSums i ∧ b.rowSums i ≤ B)
    ∧ (∀ j, -B ≤ b.columnSums j ∧ b.columnSums j ≤ B)
    ∧ (∀ k, -B ≤ b.diagonalSums k ∧ b.diagonalSums k ≤ B)

instance (B : Int) (b : Board) : Decidable (sumsWithin B b) := by
  unfold sumsWithin
  infer_instance

/-- Every row, column and diagonal sum lies in `[-2^58, 2^58]`, far enough from the ends
of `int` for the tie-break score of `calculateBestMoves` not to wrap around. -/
def sumsBounded (b : Board) : Prop :=
  sumsWithin 288230376151711744 b

instance (b : Board) : Decidable (sumsBounded b) := by
  unfold sumsBounded
  infer_instance

/-- The sum `x + y + z` of three `int` values as Go computes it: each addition wraps. -/
def sum3 (x y z : Int) : Int := wrap (wrap (x + y) + z)

/-- Each row, column and diagonal sum equals the sum of its cells as Go computes it, in
wrapping 64-bit arithmetic. -/
def sumsMatch (b : Board) : Prop :=
  (∀ i, b.rowSums i = sum3 (b.fields i 0) (b.fields i 1) (b.fields i 2))
    ∧ (∀ j, b.columnSums j = sum3 (b.fields 0 j) (b.fields 1 j) (b.fields 2 j))
    ∧ b.diagonalSums 0 = sum3 (b.fields 0 0) (b.fields 1 1) (b.fields 2 2)
    ∧ b.diagonalSums 1 = sum3 (b.fields 2 0) (b.fields 1 1) (b.fields 0 2)

instance (b : Board) : Decidable (sumsMatch b) := by
  unfold sumsMatch
  infer_instance

/-- The positive part of a sum: what the tie-break adds for one line. -/
def positivePart (x : Int) : Int := if x > 0 then x else 0

/-- The tie-break score as the specification words it: the move's score plus the positive
row sums, the positive column sums and the positive diagonal sums of the position reached. -/
def specCandidateScore (player : Int) (board : Board) (m : Move) : Int :=
  let after := (board.copy).move player m.coordinates
  m.score
    + (positivePart (after.rowSums 0) + positivePart (after.rowSums 1) + positivePart (after.rowSums 2))
    + (positivePart (after.columnSums 0) + positivePart (after.columnSums 1)
        + positivePart (after.columnSums 2))
    + (positivePart (after.diagonalSums 0) + positivePart (after.diagonalSums 1))

/-- The running maximum kept by the loops, started at `-999`. -/
def runningMax (init : Int) (scores : List Int) : Int :=
  scores.foldl (fun maxScore s => if s > maxScore then s else maxScore) init

/-- The value of the root search for one coordinate (`0` when the search yields none). -/
def scoreOf (fuel : Nat) (player : Int) (board : Board) (c : Coord) : Int :=
  match calculateScore fuel player player c board 0 with
  | .ok v => v
  | .error _ => 0

/-- The position `[-1,-1,0 / 1,1,0 / 0,0,0]`, built as `main` builds it: the non-zero
cells are replayed on `newBoard` in row-major order. -/
def scenarioOwnRow : Board :=
  (((newBoard.move (-1) (0, 0)).move (-1) (0, 1)).move 1 (1, 0)).move 1 (1, 1)

/-- The position `[1,1,0 / -1,-1,0 / 0,0,0]`, replayed on `newBoard` in row-major order. -/
def scenarioSecondRow : Board :=
  (((newBoard.move 1 (0, 0)).move 1 (0, 1)).move (-1) (1, 0)).move (-1) (1, 1)

/-- The position `[-1,1,-1 / -1,1,1 / 1,-1,0]`: one empty cell, no line possible. -/
def scenarioLastCell : Board :=
  (((((((newBoard.move (-1) (0, 0)).move 1 (0, 1)).move (-1) (0, 2)).move (-1) (1, 0)).move 1
    (1, 1)).move 1 (1, 2)).move 1 (2, 0)).move (-1) (2, 1)

/-- The board with every cell value, and hence every row, column and diagonal sum,
negated; the turn counter is kept. -/
def Board.negate (b : Board) : Board :=
  { fields := fun i j => -b.fields i j
    rowSums := fun i => -b.rowSums i
    columnSums := fun j => -b.columnSums j
    diagonalSums := fun k => -b.diagonalSums k
    turn := b.turn }

/-- A grid of cell values. -/
abbrev Grid := Fin 3 → Fin 3 → Int

/-- The grid with the mark `q` placed at `c`. -/
def place (f : Grid) (q : Int) (c : Coord) : Grid :=
  fun i j => if i = c.1 ∧ j = c.2 then q else f i j

/-- Some row, column or diagonal of the grid holds three marks of `q`. -/
def hasLine (f : Grid) (q : Int) : Prop :=
  (∃ i, f i 0 = q ∧ f i 1 = q ∧ f i 2 = q) ∨ (∃ j, f 0 j = q ∧ f 1 j = q ∧ f 2 j = q)
    ∨ (f 0 0 = q ∧ f 1 1 = q ∧ f 2 2 = q) ∨ (f 2 0 = q ∧ f 1 1 = q ∧ f 0 2 = q)

instance (f : Grid) (q : Int) : Decidable (hasLine f q) := by
  unfold hasLine
  infer_instance

/-- Every cell holds `-1`, `0` or `1`. -/
def cellsInRange (b : Board) : Prop :=
  ∀ i j, b.fields i j = -1 ∨ b.fields i j = 0 ∨ b.fields i j = 1

instance (b : Board) : Decidable (cellsInRange b) := by
  unfold cellsInRange
  infer_instance

/-- Two sums that are negatives of each other, exactly or in the arithmetic of `int`. -/
def mirrorSum (s t : Int) : Prop :=
  t = -s ∨ (isInt s ∧ isInt t ∧ (s + t) % 18446744073709551616 = 0)

/-- Two boards whose cells are negatives of each other and whose sums are negatives of
each other, exactly or in the arithmetic of `int`. -/
def Mirror (a b : Board) : Prop :=
  (∀ i j, b.fields i j = -a.fields i j)
    ∧ (∀ i, mirrorSum (a.rowSums i) (b.rowSums i))
    ∧ (∀ j, mirrorSum (a.columnSums j) (b.columnSums j))
    ∧ (∀ k, mirrorSum (a.diagonalSums k) (b.diagonalSums k))

/-- Each row, column and diagonal sum equals the sum of its cells. -/
def sumsConsistent (b : Board) : Prop :=
  (∀ i, b.rowSums i = b.fields i 0 + b.fields i 1 + b.fields i 2)
    ∧ (∀ j, b.columnSums j = b.fields 0 j + b.fields 1 j + b.fields 2 j)
    ∧ b.diagonalSums 0 = b.fields 0 0 + b.fields 1 1 + b.fields 2 2
    ∧ b.diagonalSums 1 = b.fields 2 0 + b.fields 1 1 + b.fields 0 2

instance (b : Board) : Decidable (sumsConsistent b) := by
  unfold sumsConsistent
  infer_instance

/-- The player `q` can force a win on the grid `f`.  The flag says who is to move: with
`true` it is `q`, who wins by completing a line now or by moving to a grid from which the
win is forced; with `false` it is the opponent `-q`, who has a move, and each of whose
moves completes no line and leads to a grid from which `q` forces the win. -/
inductive ForcesWin (q : Int) : Bool → Grid → Prop where
  | win (f : Grid) (c : Coord) :
      f c.1 c.2 = 0 → hasLine (place f q c) q → ForcesWin q true f
  | step (f : Grid) (c : Coord) :
      f c.1 c.2 = 0 → ForcesWin q false (place f q c) → ForcesWin q true f
  | reply (f : Grid) :
      (∃ c : Coord, f c.1 c.2 = 0) →
      (∀ c : Coord, f c.1 c.2 = 0 → ¬ hasLine (place f (-q) c) (-q)) →
      (∀ c : Coord, f c.1 c.2 = 0 → ForcesWin q true (place f (-q) c)) →
      ForcesWin q false f

/-- A position of the game in progress: cells in range, sums consistent, no line yet. -/
def inPlay (b : Board) : Prop :=
  cellsInRange b ∧ sumsConsistent b ∧ ¬ hasLine b.fields 1 ∧ ¬ hasLine b.fields (-1)

/-- The sign of a search value, for the mover `cur` being the root player `p` or the
opponent `-p`, in terms of forced wins on the grid reached by the move. -/
def signSpec (p cur : Int) (f : Grid) (v : Int) : Prop :=
  (cur = p →
      (0 < v ↔ (hasLine f p ∨ ForcesWin p false f))
        ∧ (v < 0 ↔ (¬ hasLine f p ∧ ForcesWin (-p) true f)))
    ∧ (cur = -p →
      (0 < v ↔ (¬ hasLine f (-p) ∧ ForcesWin p true f))
        ∧ (v < 0 ↔ (hasLine f (-p) ∨ ForcesWin (-p) false f)))

/-! ## Certificate checker on bit boards

The search from the empty board visits several hundred thousand positions.  The two
functions below check a lower and an upper bound of a search value on a compact
representation and prune every reply that is not needed for the bound; they are proved
sound against `calculateScore` further down. -/

/-- Evaluate a number before it is used. -/
def forceNat {α : Type} (t : Nat) (f : Nat → α) : α :=
  match t with
  | 0 => f 0
  | n + 1 => f (n + 1)

/-- Evaluate a flag before it is used. -/
def forceBool {α : Type} (t : Bool) (f : Bool → α) : α :=
  match t with
  | true => f true
  | false => f false

/-- Cell indices in the order in which the certificate tries replies. -/
def cellOrder : List Nat := [4, 0, 2, 6, 8, 1, 3, 5, 7]

/-- The eight lines as bit masks over the cell indices `3 * row + column`. -/
def lineMasks : List Nat := [7, 56, 448, 73, 146, 292, 273, 84]

/-- Some line mask is covered by the bits of `marks`. -/
def hasLineBits (marks : Nat) : Bool :=
  lineMasks.any (fun m => marks &&& m == m)

/-- Certificate check on bit boards that a search value is at least `0`.  The marks of
`-1` and of `1` are the bit sets `x` and `o` over the cell indices, `k` is the index of
the cell played, `rootMoves` says that the mover is the root player and `xMoves` that the
mover is `-1`.  Where the root player replies, one good reply is enough. -/
def fastGe : Nat → Bool → Bool → Nat → Nat → Nat → Bool
  | 0, _, _, _, _, _ => false
  | fuel + 1, rootMoves, xMoves, k, x, o =>
    forceNat (if xMoves then x ||| 2 ^ k else x) fun x' =>
    forceNat (if xMoves then o else o ||| 2 ^ k) fun o' =>
    forceNat (x' ||| o') fun occ =>
    forceBool (!rootMoves) fun rootNext =>
    forceBool (!xMoves) fun xNext =>
    if hasLineBits (if xMoves then x' else o') then rootMoves
    else if cellOrder.all (fun k' => occ.testBit k') then true
    else if rootMoves then
      cellOrder.all (fun k' => occ.testBit k' || fastGe fuel rootNext xNext k' x' o')
    else
      cellOrder.any (fun k' => !occ.testBit k' && fastGe fuel rootNext xNext k' x' o')

/-- Certificate check on bit boards that a search value is at most `0`; where the opponent
replies, one good reply is enough. -/
def fastLe : Nat → Bool → Bool → Nat → Nat → Nat → Bool
  | 0, _, _, _, _, _ => false
  | fuel + 1, rootMoves, xMoves, k, x, o =>
    forceNat (if xMoves then x ||| 2 ^ k else x) fun x' =>
    forceNat (if xMoves then o else o ||| 2 ^ k) fun o' =>
    forceNat (x' ||| o') fun occ =>
    forceBool (!rootMoves) fun rootNext =>
    forceBool (!xMoves) fun xNext =>
    if hasLineBits (if xMoves then x' else o') then !rootMoves
    else if cellOrder.all (fun k' => occ.testBit k') then true
    else if rootMoves then
      cellOrder.any (fun k' => !occ.testBit k' && fastLe fuel rootNext xNext k' x' o')
    else
      cellOrder.all (fun k' => occ.testBit k' || fastLe fuel rootNext xNext k' x' o')

/-- Index of a cell in row-major order. -/
def cellIndex (c : Coord) : Nat := 3 * c.1.val + c.2.val

/-- The bit sets `x` and `o` hold the marks `-1` and `1` of a board whose cells are in
range and whose sums are consistent. -/
def Rep (b : Board) (x o : Nat) : Prop :=
  cellsInRange b ∧ sumsConsistent b
    ∧ (∀ c : Coord, x.testBit (cellIndex c) = true ↔ b.fields c.1 c.2 = -1)
    ∧ (∀ c : Coord, o.testBit (cellIndex c) = true ↔ b.fields c.1 c.2 = 1)

/-! ## Sequences of moves, unchecked coordinates and the replay of `main` -/

/-- A sequence of `move` calls applied to a board, first call first. -/
def playAll (ms : List (Int × Coord)) (b : Board) : Board :=
  ms.foldl (fun board m => board.move m.1 m.2) b

/-- Each call of the sequence targets a cell that is empty at that moment. -/
def targetsEmpty : List (Int × Coord) → Board → Prop
  | [], _ => True
  | m :: ms, b => b.fields m.2.1 m.2.2 = 0 ∧ targetsEmpty ms (b.move m.1 m.2)

instance targetsEmptyDecidable :
    (ms : List (Int × Coord)) → (b : Board) → Decidable (targetsEmpty ms b)
  | [], _ => isTrue trivial
  | m :: ms, b =>
    @instDecidableAnd _ _ _ (targetsEmptyDecidable ms (b.move m.1 m.2))

/-- Each call of the sequence places `-1` or `1` on a cell that is empty at that moment,
and no call is made on a board on which `asses(-1)` or `asses(1)` is 100. -/
def stopsAtWin : List (Int × Coord) → Board → Prop
  | [], _ => True
  | m :: ms, b =>
    (m.1 = -1 ∨ m.1 = 1) ∧ b.fields m.2.1 m.2.2 = 0 ∧ b.asses (-1) ≠ 100 ∧ b.asses 1 ≠ 100
      ∧ stopsAtWin ms (b.move m.1 m.2)

instance stopsAtWinDecidable :
    (ms : List (Int × Coord)) → (b : Board) → Decidable (stopsAtWin ms b)
  | [], _ => isTrue trivial
  | m :: ms, b =>
    @instDecidableAnd _ _ _
      (@instDecidableAnd _ _ _
        (@instDecidableAnd _ _ _
          (@instDecidableAnd _ _ _ (stopsAtWinDecidable ms (b.move m.1 m.2)))))

/-- At most one player has a completed line, on a board with cells in range and
consistent sums. -/
def oneWinnerAtMost (b : Board) : Prop :=
  cellsInRange b ∧ sumsConsistent b ∧ ¬ (hasLine b.fields (-1) ∧ hasLine b.fields 1)

/-- The struct `ParsedMove`. -/
structure ParsedMove where
  player : Int
  coordinates : Int × Int

/-- An `int` used as index into a `[3]int`: outside `0..2` the access panics. -/
def toIndex (x : Int) : Option (Fin 3) :=
  if h : 0 ≤ x ∧ x < 3 then some ⟨x.toNat, by omega⟩ else none

/-- The method `move` called with a `[2]int` that need not be in range: the receiver after
the call, or the index panic. -/
def Board.moveRaw (b : Board) (player : Int) (coordinates : Int × Int) : Result Board :=
  match toIndex coordinates.1, toIndex coordinates.2 with
  | some r, some c => .ok (b.move player (r, c))
  | _, _ => .error .panic

/-- The position `[-1,1,-1 / -1,1,1 / 1,-1,-1]`: no empty cell, no line. -/
def scenarioFull : Board :=
  scenarioLastCell.move (-1) (2, 2)

/-- The position `[-1,0,0 / 0,0,0 / 0,0,0]`. -/
def scenarioCorner : Board :=
  newBoard.move (-1) (0, 0)

/-- The position `[2^62,0,0 / 0,0,0 / 0,0,0]`. -/
def scenarioHugeCorner : Board :=
  newBoard.move 4611686018427387904 (0, 0)

/-- The position `[2^62,-1,-1 / 1,1,0 / -1,0,0]`, replayed on `newBoard` in row-major
order. -/
def scenarioHugeWin : Board :=
  (((((newBoard.move 4611686018427387904 (0, 0)).move (-1) (0, 1)).move (-1) (0, 2)).move 1
    (1, 0)).move 1 (1, 1)).move (-1) (2, 0)

/-- The position `[2^62,1,-1 / -1,1,1 / 1,-1,0]`, replayed on `newBoard` in row-major
order. -/
def scenarioHugeLastCell : Board :=
  (((((((newBoard.move 4611686018427387904 (0, 0)).move 1 (0, 1)).move (-1) (0, 2)).move (-1)
    (1, 0)).move 1 (1, 1)).move 1 (1, 2)).move 1 (2, 0)).move (-1) (2, 1)

/-- The function `parseMoves`, on the arguments already converted by `strconv.Atoi`. -/
def parseMoves (arguments : List Int) : List ParsedMove :=
  (List.range arguments.length).foldl
    (fun parsedMoves i =>
      let player := arguments.getD i 0
      if player ≠ 0 then
        let x : Int := (i : Int) / 3
        let y : Int := (i : Int) % 3
        parsedMoves ++ [{ player := player, coordinates := (x, y) }]
      else parsedMoves)
    []

/-- The loop of `main` that replays the parsed moves on the board. -/
def replay : List ParsedMove → Board → Result Board
  | [], board => .ok board
  | m :: ms, board =>
    match board.moveRaw m.player m.coordinates with
    | .error e => .error e
    | .ok b => replay ms b

/-- The function `main` on parsed arguments: the move printed. -/
def main (fuel : Nat) (player : Int) (arguments : List Int) (rnd : Nat) : Result Move :=
  match replay (parseMoves arguments) newBoard with
  | .error e => .error e
  | .ok board => selectMove fuel player board rnd

/-- The moves `parseMoves` produces from the first `n` arguments. -/
def parsedPrefix (arguments : List Int) (n : Nat) : List ParsedMove :=
  ((List.range n).filter (fun i => decide (arguments.getD i 0 ≠ 0))).map
    (fun i => { player := arguments.getD i 0, coordinates := ((i : Int) / 3, (i : Int) % 3) })

/-! ## Boards behind pointers -/

/-- The boards allocated so far; a `*Board` is an index into this list. -/
abbrev Heap := List Board

/-- The method `copy` called through the pointer `r`: a new `Board` is allocated from the
values of the five fields of the receiver, and its address is returned.  A nil or
dangling receiver panics. -/
def Heap.copy (h : Heap) (r : Nat) : Option (Heap × Nat) :=
  match h[r]? with
  | some b => some (h ++ [b.copy], h.length)
  | none => none

/-- The method `move` called through the pointer `r`: the board at `r` is updated in
place. -/
def Heap.move (h : Heap) (r : Nat) (player : Int) (coordinates : Coord) : Option Heap :=
  match h[r]? with
  | some b => some (h.set r (b.move player coordinates))
  | none => none

/-- The first loop of `calculateBestMoves` on a board behind the pointer `board`: each
round allocates `boardCopy`, plays the move on it through its pointer and reads its
sums. -/
def Heap.updateLoop (player : Int) (board : Nat) :
    List Move → Heap × Int × List UpdatedMove → Option (Heap × Int × List UpdatedMove)
  | [], st => some st
  | m :: ms, (h, maxScore, updatedMoves) =>
    match Heap.copy h board with
    | none => none
    | some (h1, boardCopy) =>
      match Heap.move h1 boardCopy player m.coordinates with
      | none => none
      | some h2 =>
        match h2[boardCopy]? with
        | none => none
        | some played =>
          let currentScore := tieBreakScore m.score played
          let maxScore := if currentScore > maxScore then currentScore else maxScore
          Heap.updateLoop player board ms
            (h2, maxScore, updatedMoves ++ [{ updatedScore := currentScore, move := m }])

/-- The function `calculateBestMoves` on a board behind the pointer `board`: the slice
returned together with the heap after the call. -/
def Heap.calculateBestMoves (h : Heap) (board : Nat) (player : Int) (moves : List Move) :
    Option (List Move × Heap) :=
  match Heap.updateLoop player board moves (h, -999, []) with
  | none => none
  | some (h1, maxScore, updatedMoves) =>
    some (updatedMoves.foldl
      (fun resultMoves um =>
        if um.updatedScore = maxScore then resultMoves ++ [um.move] else resultMoves)
      [], h1)

/-- A sequence of `move` calls through the pointer `r`. -/
def Heap.playAll : List (Int × Coord) → Heap → Nat → Option Heap
  | [], h, _ => some h
  | m :: ms, h, r =>
    match Heap.move h r m.1 m.2 with
    | some h1 => Heap.playAll ms h1 r
    | none => none

/-! ## Basic facts about the embedding -/

@[simp] theorem Board.copy_eq (b : Board) : b.copy = b := rfl

theorem foldl_append_if {α β : Type} (p : α → Prop) [DecidablePred p] (g : α → β) (l : List α) (init : List β) :
    l.foldl (fun acc a => if p a then acc ++ [g a] else acc) init = init ++ (l.filter (fun a => decide (p a))).map g := by
  induction l generalizing init with
  | nil => simp
  | cons a l ih =>
    simp only [List.foldl_cons, ih]
    by_cases h : p a <;> simp [h, List.filter_cons]


theorem allCoords_eq :
    allCoords = idx3.map (fun j => ((0 : Fin 3), j)) ++ (idx3.map (fun j => ((1 : Fin 3), j)) ++ idx3.map (fun j => ((2 : Fin 3), j))) := rfl

theorem findAvailableCoordinates_eq (b : Board) :
    findAvailableCoordinates b = allCoords.filter (fun c => decide (b.fields c.1 c.2 = 0)) := by
  unfold findAvailableCoordinates
  have inner : ∀ (i : Fin 3) (acc : List Coord),
      idx3.foldl (fun coordinates j => if b.getFields i j = 0 then coordinates ++ [(i, j)] else coordinates) acc
        = acc ++ (idx3.filter (fun j => decide (b.fields i j = 0))).map (fun j => (i, j)) := by
    intro i acc
    exact foldl_append_if (fun j => b.fields i j = 0) (fun j => (i, j)) idx3 acc
  simp only [inner]
  rw [allCoords_eq]
  simp only [List.filter_append, List.filter_map]
  simp [idx3, Function.comp_def]

theorem mem_allCoords (c : Coord) : c ∈ allCoords := by
  rcases c with ⟨i, j⟩
  fin_cases i <;> fin_cases j <;> simp [allCoords]

theorem allCoords_nodup : allCoords.Nodup := by decide

theorem mem_findAvailableCoordinates (b : Board) (c : Coord) :
    c ∈ findAvailableCoordinates b ↔ b.fields c.1 c.2 = 0 := by
  simp [findAvailableCoordinates_eq, mem_allCoords]

theorem findAvailableCoordinates_nodup (b : Board) : (findAvailableCoordinates b).Nodup := by
  rw [findAvailableCoordinates_eq]
  exact allCoords_nodup.filter _

/-! ## Wrapping arithmetic -/

theorem wrap_of_isInt (x : Int) (h : isInt x) : wrap x = x := by
  unfold isInt at h
  unfold wrap
  omega

theorem isInt_wrap (x : Int) : isInt (wrap x) := by
  unfold isInt wrap
  omega

theorem wrap_wrap_add (x y : Int) : wrap (wrap x + y) = wrap (x + y) := by
  unfold wrap
  omega

theorem wrap_small (x : Int) (h1 : -9223372036854775808 ≤ x) (h2 : x < 9223372036854775808) :
    wrap x = x :=
  wrap_of_isInt x ⟨h1, h2⟩

theorem wrap_player_three (q : Int) (hq : q = -1 ∨ q = 1) : wrap (q * 3) = q * 3 := by
  rcases hq with rfl | rfl <;> decide

theorem wrap_neg_ne_zero (q : Int) (hq : isInt q) (h0 : q ≠ 0) :
    isInt (wrap ((-1) * q)) ∧ wrap ((-1) * q) ≠ 0 := by
  refine ⟨isInt_wrap _, ?_⟩
  unfold isInt at hq
  unfold wrap
  omega

/-! ## `move` and `asses` -/

theorem antiDiagonalLoop_eq (player : Int) (c : Coord) (ds : Fin 2 → Int) :
    antiDiagonalLoop player c ds
      = if c.1.val + c.2.val = 2 then setArr ds 1 (wrap (ds 1 + player)) else ds := by
  rcases c with ⟨i, j⟩
  fin_cases i <;> fin_cases j <;> simp [antiDiagonalLoop, idx3]

@[simp] theorem move_fields (b : Board) (player : Int) (c : Coord) (i j : Fin 3) :
    (b.move player c).fields i j = if i = c.1 ∧ j = c.2 then player else b.fields i j := rfl

@[simp] theorem move_turn (b : Board) (player : Int) (c : Coord) :
    (b.move player c).turn = wrap (b.turn + 1) := rfl

@[simp] theorem move_rowSums (b : Board) (player : Int) (c : Coord) (i : Fin 3) :
    (b.move player c).rowSums i
      = if i = c.1 then wrap (b.rowSums i + player) else b.rowSums i := by
  simp only [Board.move, setArr]
  split <;> simp_all

@[simp] theorem move_columnSums (b : Board) (player : Int) (c : Coord) (j : Fin 3) :
    (b.move player c).columnSums j
      = if j = c.2 then wrap (b.columnSums j + player) else b.columnSums j := by
  simp only [Board.move, setArr]
  split <;> simp_all

theorem move_diagonalSums_zero (b : Board) (player : Int) (c : Coord) :
    (b.move player c).diagonalSums 0
      = if c.1 = c.2 then wrap (b.diagonalSums 0 + player) else b.diagonalSums 0 := by
  simp only [Board.move, antiDiagonalLoop_eq]
  split_ifs <;> simp [setArr]

theorem move_diagonalSums_one (b : Board) (player : Int) (c : Coord) :
    (b.move player c).diagonalSums 1
      = if c.1.val + c.2.val = 2 then wrap (b.diagonalSums 1 + player)
        else b.diagonalSums 1 := by
  simp only [Board.move, antiDiagonalLoop_eq]
  split_ifs <;> simp [setArr]


theorem asses_eq_hundred_iff (b : Board) (player : Int) :
    b.asses player = 100 ↔ hasWinningSum b player := by
  unfold Board.asses hasWinningSum
  simp only [idx3, idx2, List.any_cons, List.any_nil, Bool.or_false, Bool.or_eq_true,
    decide_eq_true_eq, Fin.exists_fin_succ, Fin.exists_fin_two, Fin.isValue]
  constructor
  · intro h
    split at h
    · rename_i h1; simp at *; tauto
    · split at h
      · rename_i h1 h2; simp at *; tauto
      · simp at h
  · intro h
    split
    · rfl
    · rename_i h1
      split
      · rfl
      · rename_i h2; simp at *; tauto

theorem asses_eq_zero_or (b : Board) (player : Int) :
    b.asses player = 100 ∨ b.asses player = 0 := by
  unfold Board.asses
  split
  · exact Or.inl rfl
  · split
    · exact Or.inl rfl
    · exact Or.inr rfl

theorem asses_ne_zero_iff (b : Board) (player : Int) :
    b.asses player ≠ 0 ↔ b.asses player = 100 := by
  rcases asses_eq_zero_or b player with h | h <;> simp [h]

/-! ## Loops, `min` and `max` -/

theorem collect_ok_iff {α β : Type} (f : α → Result β) (l : List α) (vs : List β) :
    collect f l = .ok vs ↔ List.Forall₂ (fun a v => f a = .ok v) l vs := by
  induction l generalizing vs with
  | nil =>
    cases vs <;> simp [collect]
  | cons a l ih =>
    unfold collect
    cases hfa : f a with
    | error e =>
      simp only []
      constructor
      · intro h; cases h
      · intro h
        cases h with
        | cons h1 _ => rw [hfa] at h1; cases h1
    | ok v =>
      simp only []
      cases hc : collect f l with
      | error e =>
        simp only []
        constructor
        · intro h; cases h
        · intro h
          cases h with
          | cons h1 h2 =>
            rw [← ih] at h2
            rw [hc] at h2; cases h2
      | ok ws =>
        simp only []
        constructor
        · intro h
          cases h
          exact List.Forall₂.cons hfa ((ih ws).1 hc)
        · intro h
          cases h with
          | cons h1 h2 =>
            rw [hfa] at h1
            cases h1
            rw [← ih] at h2
            rw [hc] at h2
            cases h2
            rfl

theorem collect_ok_of_forall {α β : Type} (f : α → Result β) (l : List α)
    (h : ∀ a ∈ l, ∃ v, f a = .ok v) : ∃ vs, collect f l = .ok vs := by
  induction l with
  | nil => exact ⟨[], rfl⟩
  | cons a l ih =>
    obtain ⟨v, hv⟩ := h a (List.mem_cons_self a l)
    obtain ⟨vs, hvs⟩ := ih (fun x hx => h x (List.mem_cons_of_mem a hx))
    exact ⟨v :: vs, by simp [collect, hv, hvs]⟩

theorem collect_ok_map {α β : Type} (f : α → Result β) (g : α → β) (l : List α)
    (h : ∀ a ∈ l, f a = .ok (g a)) : collect f l = .ok (l.map g) := by
  induction l with
  | nil => rfl
  | cons a l ih =>
    have h1 := h a (List.mem_cons_self a l)
    have h2 := ih (fun x hx => h x (List.mem_cons_of_mem a hx))
    simp [collect, h1, h2]

theorem collect_congr {α β : Type} (f g : α → Result β) (l : List α)
    (h : ∀ a ∈ l, f a = g a) : collect f l = collect g l := by
  induction l with
  | nil => rfl
  | cons a l ih =>
    have h1 := h a (List.mem_cons_self a l)
    have h2 := ih (fun x hx => h x (List.mem_cons_of_mem a hx))
    simp [collect, h1, h2]

theorem foldl_min_le (l : List Int) (x : Int) :
    l.foldl (fun smallest v => if v < smallest then v else smallest) x ≤ x
      ∧ (∀ y ∈ l, l.foldl (fun smallest v => if v < smallest then v else smallest) x ≤ y)
      ∧ (l.foldl (fun smallest v => if v < smallest then v else smallest) x = x
          ∨ l.foldl (fun smallest v => if v < smallest then v else smallest) x ∈ l) := by
  induction l generalizing x with
  | nil => simp
  | cons a l ih =>
    simp only [List.foldl_cons, List.mem_cons, forall_eq_or_imp]
    by_cases h : a < x
    · simp only [h, if_true]
      obtain ⟨h1, h2, h3⟩ := ih a
      refine ⟨by omega, ⟨h1, h2⟩, ?_⟩
      rcases h3 with h3 | h3
      · right; left; exact h3
      · right; right; exact h3
    · simp only [h, if_false]
      obtain ⟨h1, h2, h3⟩ := ih x
      refine ⟨h1, ⟨by omega, h2⟩, ?_⟩
      rcases h3 with h3 | h3
      · left; exact h3
      · right; right; exact h3

theorem foldl_max_ge (l : List Int) (x : Int) :
    x ≤ l.foldl (fun largest v => if v > largest then v else largest) x
      ∧ (∀ y ∈ l, y ≤ l.foldl (fun largest v => if v > largest then v else largest) x)
      ∧ (l.foldl (fun largest v => if v > largest then v else largest) x = x
          ∨ l.foldl (fun largest v => if v > largest then v else largest) x ∈ l) := by
  induction l generalizing x with
  | nil => simp
  | cons a l ih =>
    simp only [List.foldl_cons, List.mem_cons, forall_eq_or_imp]
    by_cases h : a > x
    · simp only [h, if_true]
      obtain ⟨h1, h2, h3⟩ := ih a
      refine ⟨by omega, ⟨h1, h2⟩, ?_⟩
      rcases h3 with h3 | h3
      · right; left; exact h3
      · right; right; exact h3
    · simp only [h, if_false]
      obtain ⟨h1, h2, h3⟩ := ih x
      refine ⟨h1, ⟨by omega, h2⟩, ?_⟩
      rcases h3 with h3 | h3
      · left; exact h3
      · right; right; exact h3

theorem min_ok_iff (l : List Int) (v : Int) :
    min l = .ok v ↔ v ∈ l ∧ ∀ y ∈ l, v ≤ y := by
  cases l with
  | nil => simp [min]
  | cons x l =>
    have h := foldl_min_le (x :: l) x
    simp only [min, Except.ok.injEq]
    obtain ⟨h1, h2, h3⟩ := h
    constructor
    · intro hv
      subst hv
      refine ⟨?_, h2⟩
      rcases h3 with h3 | h3
      · rw [h3]; exact List.mem_cons_self x l
      · exact h3
    · rintro ⟨hm, hle⟩
      have a1 := h2 v hm
      have a2 : v ≤ List.foldl (fun smallest v => if v < smallest then v else smallest) x (x :: l) := by
        rcases h3 with h3 | h3
        · rw [h3]; exact hle x (List.mem_cons_self x l)
        · exact hle _ h3
      omega

theorem max_ok_iff (l : List Int) (v : Int) :
    max l = .ok v ↔ v ∈ l ∧ ∀ y ∈ l, y ≤ v := by
  cases l with
  | nil => simp [max]
  | cons x l =>
    have h := foldl_max_ge (x :: l) x
    simp only [max, Except.ok.injEq]
    obtain ⟨h1, h2, h3⟩ := h
    constructor
    · intro hv
      subst hv
      refine ⟨?_, h2⟩
      rcases h3 with h3 | h3
      · rw [h3]; exact List.mem_cons_self x l
      · exact h3
    · rintro ⟨hm, hle⟩
      have a1 := h2 v hm
      have a2 : List.foldl (fun largest v => if v > largest then v else largest) x (x :: l) ≤ v := by
        rcases h3 with h3 | h3
        · rw [h3]; exact hle x (List.mem_cons_self x l)
        · exact hle _ h3
      omega

theorem min_ok_of_ne_nil (l : List Int) (h : l ≠ []) : ∃ v, min l = .ok v := by
  cases l with
  | nil => exact absurd rfl h
  | cons x l => exact ⟨_, rfl⟩

theorem max_ok_of_ne_nil (l : List Int) (h : l ≠ []) : ∃ v, max l = .ok v := by
  cases l with
  | nil => exact absurd rfl h
  | cons x l => exact ⟨_, rfl⟩

/-! ## `calculateScore`: unfolding, fuel, termination, range -/

theorem calculateScore_succ (fuel : Nat) (player currentPlayer : Int) (c : Coord) (b : Board) (depth : Int) :
    calculateScore (fuel + 1) player currentPlayer c b depth
      = if (b.move currentPlayer c).asses currentPlayer ≠ 0 then
          (if player = currentPlayer then
            .ok (wrap ((b.move currentPlayer c).asses currentPlayer - depth))
           else .ok (wrap (wrap ((-1) * (b.move currentPlayer c).asses currentPlayer) + depth)))
        else if (findAvailableCoordinates (b.move currentPlayer c)).length = 0 then .ok 0
        else
          match collect
              (fun c' => calculateScore fuel player (wrap ((-1) * currentPlayer)) c' (b.move currentPlayer c) (wrap (depth + 1)))
              (findAvailableCoordinates (b.move currentPlayer c)) with
          | .error e => .error e
          | .ok scores => if player = currentPlayer then min scores else max scores := by
  rfl

theorem calculateScore_win (fuel : Nat) (player currentPlayer : Int) (c : Coord) (b : Board) (depth : Int)
    (h : (b.move currentPlayer c).asses currentPlayer ≠ 0) :
    calculateScore (fuel + 1) player currentPlayer c b depth
      = if player = currentPlayer then .ok (wrap (100 - depth))
        else .ok (wrap (-100 + depth)) := by
  rw [calculateScore_succ, if_pos h]
  have h100 := (asses_ne_zero_iff _ _).1 h
  have hneg : wrap ((-1) * 100) = -100 := by decide
  rw [h100, hneg]

theorem calculateScore_full (fuel : Nat) (player currentPlayer : Int) (c : Coord) (b : Board) (depth : Int)
    (h : (b.move currentPlayer c).asses currentPlayer = 0)
    (hfull : findAvailableCoordinates (b.move currentPlayer c) = []) :
    calculateScore (fuel + 1) player currentPlayer c b depth = .ok 0 := by
  rw [calculateScore_succ]
  simp [h, hfull]

theorem calculateScore_rec (fuel : Nat) (player currentPlayer : Int) (c : Coord) (b : Board) (depth : Int)
    (h : (b.move currentPlayer c).asses currentPlayer = 0)
    (hne : findAvailableCoordinates (b.move currentPlayer c) ≠ []) :
    calculateScore (fuel + 1) player currentPlayer c b depth
      = match collect
            (fun c' => calculateScore fuel player (wrap ((-1) * currentPlayer)) c' (b.move currentPlayer c) (wrap (depth + 1)))
            (findAvailableCoordinates (b.move currentPlayer c)) with
        | .error e => .error e
        | .ok scores => if player = currentPlayer then min scores else max scores := by
  rw [calculateScore_succ]
  simp [h, hne]

/-- More fuel does not change a value already obtained. -/
theorem calculateScore_mono (fuel : Nat) :
    ∀ (player currentPlayer : Int) (c : Coord) (b : Board) (depth v : Int),
      calculateScore fuel player currentPlayer c b depth = .ok v →
      calculateScore (fuel + 1) player currentPlayer c b depth = .ok v := by
  induction fuel with
  | zero => intro _ _ _ _ _ _ h; cases h
  | succ n ih =>
    intro player currentPlayer c b depth v h
    by_cases hw : (b.move currentPlayer c).asses currentPlayer ≠ 0
    · rw [calculateScore_win _ _ _ _ _ _ hw] at h ⊢
      exact h
    · have hw0 : (b.move currentPlayer c).asses currentPlayer = 0 := by
        by_contra hh; exact hw hh
      by_cases hfull : findAvailableCoordinates (b.move currentPlayer c) = []
      · rw [calculateScore_full _ _ _ _ _ _ hw0 hfull] at h ⊢
        exact h
      · rw [calculateScore_rec _ _ _ _ _ _ hw0 hfull] at h ⊢
        cases hc : collect
            (fun c' => calculateScore n player (wrap ((-1) * currentPlayer)) c' (b.move currentPlayer c) (wrap (depth + 1)))
            (findAvailableCoordinates (b.move currentPlayer c)) with
        | error e => rw [hc] at h; cases h
        | ok scores =>
          rw [hc] at h
          have hc2 : collect
              (fun c' => calculateScore (n + 1) player (wrap ((-1) * currentPlayer)) c' (b.move currentPlayer c) (wrap (depth + 1)))
              (findAvailableCoordinates (b.move currentPlayer c)) = .ok scores := by
            rw [collect_ok_iff] at hc ⊢
            exact hc.imp (fun _ _ hab => ih _ _ _ _ _ _ hab)
          rw [hc2]
          exact h

theorem calculateScore_mono_le (fuel fuel2 : Nat) (hle : fuel ≤ fuel2)
    (player currentPlayer : Int) (c : Coord) (b : Board) (depth v : Int)
    (h : calculateScore fuel player currentPlayer c b depth = .ok v) :
    calculateScore fuel2 player currentPlayer c b depth = .ok v := by
  induction hle with
  | refl => exact h
  | step _ ih => exact calculateScore_mono _ _ _ _ _ _ _ ih

theorem findAvailableCoordinates_move (b : Board) (player : Int) (c : Coord) (hp : player ≠ 0) :
    findAvailableCoordinates (b.move player c)
      = (findAvailableCoordinates b).filter (fun c' => decide (c' ≠ c)) := by
  rw [findAvailableCoordinates_eq, findAvailableCoordinates_eq, List.filter_filter]
  apply List.filter_congr
  intro c' _
  rcases c with ⟨i, j⟩
  rcases c' with ⟨i', j'⟩
  simp only [move_fields, Prod.mk.injEq, ne_eq]
  by_cases h : i' = i ∧ j' = j
  · simp [h, hp]
  · simp [h]

theorem countEmpty_move_le (b : Board) (player : Int) (c : Coord) (hp : player ≠ 0) :
    countEmpty (b.move player c) ≤ countEmpty b := by
  unfold countEmpty
  rw [findAvailableCoordinates_move b player c hp]
  exact List.length_filter_le _ _

theorem countEmpty_move_lt (b : Board) (player : Int) (c : Coord) (hp : player ≠ 0)
    (hc : b.fields c.1 c.2 = 0) :
    countEmpty (b.move player c) < countEmpty b := by
  unfold countEmpty
  rw [findAvailableCoordinates_move b player c hp]
  have hmem : c ∈ findAvailableCoordinates b := (mem_findAvailableCoordinates b c).2 hc
  have hsub : ((findAvailableCoordinates b).filter (fun c' => decide (c' ≠ c))).Sublist
      (findAvailableCoordinates b) := List.filter_sublist _
  rcases Nat.lt_or_ge (((findAvailableCoordinates b).filter (fun c' => decide (c' ≠ c))).length)
      (findAvailableCoordinates b).length with h | h
  · exact h
  · exfalso
    have heq := hsub.eq_of_length_le h
    rw [← heq] at hmem
    simp at hmem

theorem countEmpty_le_nine (b : Board) : countEmpty b ≤ 9 := by
  unfold countEmpty
  rw [findAvailableCoordinates_eq]
  exact (List.length_filter_le _ _).trans (by decide)

theorem forall₂_exists_left {α β : Type} {R : α → β → Prop} {l : List α} {vs : List β}
    (h : List.Forall₂ R l vs) {v : β} (hv : v ∈ vs) : ∃ a ∈ l, R a v := by
  induction h with
  | nil => cases hv
  | cons hab _ ih =>
    rcases List.mem_cons.1 hv with h1 | h1
    · subst h1; exact ⟨_, List.mem_cons_self _ _, hab⟩
    · obtain ⟨a, ha, hr⟩ := ih h1
      exact ⟨a, List.mem_cons_of_mem _ ha, hr⟩

theorem forall₂_exists_right {α β : Type} {R : α → β → Prop} {l : List α} {vs : List β}
    (h : List.Forall₂ R l vs) {a : α} (ha : a ∈ l) : ∃ v ∈ vs, R a v := by
  induction h with
  | nil => cases ha
  | cons hab _ ih =>
    rcases List.mem_cons.1 ha with h1 | h1
    · subst h1; exact ⟨_, List.mem_cons_self _ _, hab⟩
    · obtain ⟨v, hv, hr⟩ := ih h1
      exact ⟨v, List.mem_cons_of_mem _ hv, hr⟩

theorem calculateScore_rec_ok (fuel : Nat) (player currentPlayer : Int) (c : Coord) (b : Board)
    (depth : Int) (scores : List Int)
    (h : (b.move currentPlayer c).asses currentPlayer = 0)
    (hne : findAvailableCoordinates (b.move currentPlayer c) ≠ [])
    (hc : collect
        (fun c' => calculateScore fuel player (wrap ((-1) * currentPlayer)) c' (b.move currentPlayer c) (wrap (depth + 1)))
        (findAvailableCoordinates (b.move currentPlayer c)) = .ok scores) :
    calculateScore (fuel + 1) player currentPlayer c b depth
      = if player = currentPlayer then min scores else max scores := by
  rw [calculateScore_rec _ _ _ _ _ _ h hne, hc]

theorem calculateScore_rec_error (fuel : Nat) (player currentPlayer : Int) (c : Coord) (b : Board)
    (depth : Int) (e : Fault)
    (h : (b.move currentPlayer c).asses currentPlayer = 0)
    (hne : findAvailableCoordinates (b.move currentPlayer c) ≠ [])
    (hc : collect
        (fun c' => calculateScore fuel player (wrap ((-1) * currentPlayer)) c' (b.move currentPlayer c) (wrap (depth + 1)))
        (findAvailableCoordinates (b.move currentPlayer c)) = .error e) :
    calculateScore (fuel + 1) player currentPlayer c b depth = .error e := by
  rw [calculateScore_rec _ _ _ _ _ _ h hne, hc]

theorem wrap_play (cur d : Int) (hcur : cur = -1 ∨ cur = 1) (h0 : 0 ≤ d) (h1 : d ≤ 100) :
    wrap ((-1) * cur) = (-1) * cur ∧ wrap (d + 1) = d + 1 ∧ wrap (100 - d) = 100 - d
      ∧ wrap (-100 + d) = -100 + d := by
  refine ⟨?_, wrap_small _ (by omega) (by omega), wrap_small _ (by omega) (by omega),
    wrap_small _ (by omega) (by omega)⟩
  rcases hcur with rfl | rfl <;> decide

/-- The unfolding lemmas for the game proper, where the players are `-1` and `1` and the
depth stays within `0..100`: no operation of the search wraps around. -/
theorem calculateScore_win_play (fuel : Nat) (player currentPlayer : Int) (c : Coord) (b : Board)
    (depth : Int) (hcur : currentPlayer = -1 ∨ currentPlayer = 1) (h0 : 0 ≤ depth)
    (h1 : depth ≤ 100) (h : (b.move currentPlayer c).asses currentPlayer ≠ 0) :
    calculateScore (fuel + 1) player currentPlayer c b depth
      = if player = currentPlayer then .ok (100 - depth) else .ok (-100 + depth) := by
  obtain ⟨_, _, e3, e4⟩ := wrap_play currentPlayer depth hcur h0 h1
  rw [calculateScore_win _ _ _ _ _ _ h, e3, e4]

theorem calculateScore_rec_ok_play (fuel : Nat) (player currentPlayer : Int) (c : Coord)
    (b : Board) (depth : Int) (scores : List Int)
    (hcur : currentPlayer = -1 ∨ currentPlayer = 1) (h0 : 0 ≤ depth) (h1 : depth ≤ 100)
    (h : (b.move currentPlayer c).asses currentPlayer = 0)
    (hne : findAvailableCoordinates (b.move currentPlayer c) ≠ [])
    (hc : collect
        (fun c' => calculateScore fuel player ((-1) * currentPlayer) c' (b.move currentPlayer c) (depth + 1))
        (findAvailableCoordinates (b.move currentPlayer c)) = .ok scores) :
    calculateScore (fuel + 1) player currentPlayer c b depth
      = if player = currentPlayer then min scores else max scores := by
  obtain ⟨e1, e2, _, _⟩ := wrap_play currentPlayer depth hcur h0 h1
  rw [← e1, ← e2] at hc
  exact calculateScore_rec_ok _ _ _ _ _ _ _ h hne hc

theorem calculateScore_rec_error_play (fuel : Nat) (player currentPlayer : Int) (c : Coord)
    (b : Board) (depth : Int) (e : Fault)
    (hcur : currentPlayer = -1 ∨ currentPlayer = 1) (h0 : 0 ≤ depth) (h1 : depth ≤ 100)
    (h : (b.move currentPlayer c).asses currentPlayer = 0)
    (hne : findAvailableCoordinates (b.move currentPlayer c) ≠ [])
    (hc : collect
        (fun c' => calculateScore fuel player ((-1) * currentPlayer) c' (b.move currentPlayer c) (depth + 1))
        (findAvailableCoordinates (b.move currentPlayer c)) = .error e) :
    calculateScore (fuel + 1) player currentPlayer c b depth = .error e := by
  obtain ⟨e1, e2, _, _⟩ := wrap_play currentPlayer depth hcur h0 h1
  rw [← e1, ← e2] at hc
  exact calculateScore_rec_error _ _ _ _ _ _ _ h hne hc

theorem collect_ne_nil {α β : Type} (f : α → Result β) (l : List α) (vs : List β)
    (h : collect f l = .ok vs) (hl : l ≠ []) : vs ≠ [] := by
  have hlen := ((collect_ok_iff _ _ _).1 h).length_eq
  intro h0
  rw [h0] at hlen
  exact hl (List.length_eq_zero.1 hlen)

/-- With a non-zero mark and fuel above the number of cells left empty by the move,
the search yields a value. -/
theorem calculateScore_total (fuel : Nat) :
    ∀ (player currentPlayer : Int) (c : Coord) (b : Board) (depth : Int),
      currentPlayer ≠ 0 → isInt currentPlayer → countEmpty (b.move currentPlayer c) < fuel →
      ∃ v, calculateScore fuel player currentPlayer c b depth = .ok v := by
  induction fuel with
  | zero => intro _ _ _ _ _ _ _ h; omega
  | succ n ih =>
    intro player currentPlayer c b depth hcur hint hfuel
    by_cases hw : (b.move currentPlayer c).asses currentPlayer ≠ 0
    · rw [calculateScore_win _ _ _ _ _ _ hw]
      split <;> exact ⟨_, rfl⟩
    · have hw0 : (b.move currentPlayer c).asses currentPlayer = 0 := by
        by_contra hh; exact hw hh
      by_cases hfull : findAvailableCoordinates (b.move currentPlayer c) = []
      · exact ⟨0, calculateScore_full _ _ _ _ _ _ hw0 hfull⟩
      · obtain ⟨hint', hneg⟩ := wrap_neg_ne_zero currentPlayer hint hcur
        obtain ⟨scores, hs⟩ := collect_ok_of_forall
          (fun c' => calculateScore n player (wrap ((-1) * currentPlayer)) c' (b.move currentPlayer c) (wrap (depth + 1)))
          (findAvailableCoordinates (b.move currentPlayer c))
          (fun c' hc' => ih player _ c' _ _ hneg hint' (by
            have := countEmpty_move_lt (b.move currentPlayer c) (wrap ((-1) * currentPlayer)) c' hneg
              ((mem_findAvailableCoordinates _ _).1 hc')
            omega))
        rw [calculateScore_rec_ok _ _ _ _ _ _ _ hw0 hfull hs]
        have hsne : scores ≠ [] := collect_ne_nil _ _ _ hs hfull
        split
        · exact min_ok_of_ne_nil _ hsne
        · exact max_ok_of_ne_nil _ hsne

/-- Scores at depth `depth` stay within `100 - depth` of zero. -/
theorem calculateScore_bound (fuel : Nat) :
    ∀ (player currentPlayer : Int) (c : Coord) (b : Board) (depth v : Int),
      0 ≤ depth → depth + fuel ≤ 101 →
      calculateScore fuel player currentPlayer c b depth = .ok v →
      -(100 - depth) ≤ v ∧ v ≤ 100 - depth := by
  induction fuel with
  | zero => intro _ _ _ _ _ _ _ _ h; cases h
  | succ n ih =>
    intro player currentPlayer c b depth v hd hdf h
    have hd100 : depth ≤ 100 := by push_cast at hdf; omega
    have hw1 : wrap (100 - depth) = 100 - depth := wrap_small _ (by omega) (by omega)
    have hw2 : wrap (-100 + depth) = -100 + depth := wrap_small _ (by omega) (by omega)
    have hwd : wrap (depth + 1) = depth + 1 := wrap_small _ (by omega) (by omega)
    by_cases hw : (b.move currentPlayer c).asses currentPlayer ≠ 0
    · rw [calculateScore_win _ _ _ _ _ _ hw, hw1, hw2] at h
      split at h <;> cases h <;> constructor <;> omega
    · have hw0 : (b.move currentPlayer c).asses currentPlayer = 0 := by
        by_contra hh; exact hw hh
      by_cases hfull : findAvailableCoordinates (b.move currentPlayer c) = []
      · rw [calculateScore_full _ _ _ _ _ _ hw0 hfull] at h
        cases h
        constructor <;> omega
      · cases hc : collect
            (fun c' => calculateScore n player (wrap ((-1) * currentPlayer)) c' (b.move currentPlayer c) (wrap (depth + 1)))
            (findAvailableCoordinates (b.move currentPlayer c)) with
        | error e => rw [calculateScore_rec_error _ _ _ _ _ _ _ hw0 hfull hc] at h; cases h
        | ok scores =>
          rw [calculateScore_rec_ok _ _ _ _ _ _ _ hw0 hfull hc] at h
          have hall : ∀ s ∈ scores, -(100 - (depth + 1)) ≤ s ∧ s ≤ 100 - (depth + 1) := by
            intro s hs
            have hf := (collect_ok_iff _ _ _).1 hc
            obtain ⟨c', _, hc'⟩ := forall₂_exists_left hf hs
            rw [hwd] at hc'
            exact ih _ _ _ _ _ _ (by omega) (by push_cast at hdf ⊢; omega) hc'
          have hv : v ∈ scores := by
            split at h
            · exact ((min_ok_iff _ _).1 h).1
            · exact ((max_ok_iff _ _).1 h).1
          have := hall v hv
          constructor <;> omega

/-! ## `calculateBestMoves` -/

theorem positivePart_nonneg (x : Int) : 0 ≤ positivePart x := by
  unfold positivePart
  split <;> omega

theorem positivePart_le (x B : Int) (h : x ≤ B) (hB : 0 ≤ B) : positivePart x ≤ B := by
  unfold positivePart
  split <;> omega

theorem add_positivePart_wrap (s x : Int) (h : isInt (s + positivePart x)) :
    (if x > 0 then wrap (s + x) else s) = s + positivePart x := by
  unfold positivePart at h ⊢
  split
  · rename_i hx
    rw [if_pos hx] at h
    exact wrap_of_isInt _ h
  · simp

theorem sumsWithin_move (b : Board) (player : Int) (c : Coord) (hb : sumsBounded b)
    (hp : -288230376151711744 ≤ player ∧ player ≤ 288230376151711744) :
    sumsWithin 576460752303423488 (b.move player c) := by
  obtain ⟨h1, h2, h3⟩ := hb
  refine ⟨?_, ?_, ?_⟩
  · intro i
    have := h1 i
    rw [move_rowSums]
    split
    · rw [wrap_small _ (by omega) (by omega)]
      omega
    · omega
  · intro j
    have := h2 j
    rw [move_columnSums]
    split
    · rw [wrap_small _ (by omega) (by omega)]
      omega
    · omega
  · intro k
    have a0 := h3 0
    have a1 := h3 1
    fin_cases k
    · show _ ≤ (b.move player c).diagonalSums 0 ∧ (b.move player c).diagonalSums 0 ≤ _
      rw [move_diagonalSums_zero]
      split
      · rw [wrap_small _ (by omega) (by omega)]
        omega
      · omega
    · show _ ≤ (b.move player c).diagonalSums 1 ∧ (b.move player c).diagonalSums 1 ≤ _
      rw [move_diagonalSums_one]
      split
      · rw [wrap_small _ (by omega) (by omega)]
        omega
      · omega

/-- Without wrap-around the tie-break score is the one the specification words. -/
theorem candidateScore_eq_spec (player : Int) (board : Board) (m : Move)
    (hs : -100 ≤ m.score ∧ m.score ≤ 100)
    (ha : sumsWithin 576460752303423488 ((board.copy).move player m.coordinates)) :
    candidateScore player board m = specCandidateScore player board m := by
  obtain ⟨h1, h2, h3⟩ := ha
  have r0 := positivePart_le _ _ (h1 0).2 (by norm_num)
  have r1 := positivePart_le _ _ (h1 1).2 (by norm_num)
  have r2 := positivePart_le _ _ (h1 2).2 (by norm_num)
  have c0 := positivePart_le _ _ (h2 0).2 (by norm_num)
  have c1 := positivePart_le _ _ (h2 1).2 (by norm_num)
  have c2 := positivePart_le _ _ (h2 2).2 (by norm_num)
  have d0 := positivePart_le _ _ (h3 0).2 (by norm_num)
  have d1 := positivePart_le _ _ (h3 1).2 (by norm_num)
  have n0 := positivePart_nonneg (((board.copy).move player m.coordinates).rowSums 0)
  have n1 := positivePart_nonneg (((board.copy).move player m.coordinates).rowSums 1)
  have n2 := positivePart_nonneg (((board.copy).move player m.coordinates).rowSums 2)
  have n3 := positivePart_nonneg (((board.copy).move player m.coordinates).columnSums 0)
  have n4 := positivePart_nonneg (((board.copy).move player m.coordinates).columnSums 1)
  have n5 := positivePart_nonneg (((board.copy).move player m.coordinates).columnSums 2)
  have n6 := positivePart_nonneg (((board.copy).move player m.coordinates).diagonalSums 0)
  have n7 := positivePart_nonneg (((board.copy).move player m.coordinates).diagonalSums 1)
  unfold candidateScore tieBreakScore specCandidateScore
  simp only [idx3, idx2, List.foldl_cons, List.foldl_nil, Board.getRowSums, Board.getColumnSums,
    Board.getDiagonalSums]
  rw [add_positivePart_wrap m.score _ (by unfold isInt; omega)]
  rw [add_positivePart_wrap (m.score + _) (((board.copy).move player m.coordinates).columnSums 0)
    (by unfold isInt; omega)]
  rw [add_positivePart_wrap (m.score + _ + _) (((board.copy).move player m.coordinates).rowSums 1)
    (by unfold isInt; omega)]
  rw [add_positivePart_wrap (m.score + _ + _ + _)
    (((board.copy).move player m.coordinates).columnSums 1) (by unfold isInt; omega)]
  rw [add_positivePart_wrap (m.score + _ + _ + _ + _)
    (((board.copy).move player m.coordinates).rowSums 2) (by unfold isInt; omega)]
  rw [add_positivePart_wrap (m.score + _ + _ + _ + _ + _)
    (((board.copy).move player m.coordinates).columnSums 2) (by unfold isInt; omega)]
  rw [add_positivePart_wrap (m.score + _ + _ + _ + _ + _ + _)
    (((board.copy).move player m.coordinates).diagonalSums 0) (by unfold isInt; omega)]
  rw [add_positivePart_wrap (m.score + _ + _ + _ + _ + _ + _ + _)
    (((board.copy).move player m.coordinates).diagonalSums 1) (by unfold isInt; omega)]
  ring

theorem specCandidateScore_ge (player : Int) (board : Board) (m : Move) :
    m.score ≤ specCandidateScore player board m := by
  unfold specCandidateScore
  have h1 := positivePart_nonneg (((board.copy).move player m.coordinates).rowSums 0)
  have h2 := positivePart_nonneg (((board.copy).move player m.coordinates).rowSums 1)
  have h3 := positivePart_nonneg (((board.copy).move player m.coordinates).rowSums 2)
  have h4 := positivePart_nonneg (((board.copy).move player m.coordinates).columnSums 0)
  have h5 := positivePart_nonneg (((board.copy).move player m.coordinates).columnSums 1)
  have h6 := positivePart_nonneg (((board.copy).move player m.coordinates).columnSums 2)
  have h7 := positivePart_nonneg (((board.copy).move player m.coordinates).diagonalSums 0)
  have h8 := positivePart_nonneg (((board.copy).move player m.coordinates).diagonalSums 1)
  simp only []
  omega

theorem candidateScore_ge (player : Int) (board : Board) (m : Move)
    (hs : -100 ≤ m.score ∧ m.score ≤ 100)
    (ha : sumsWithin 576460752303423488 ((board.copy).move player m.coordinates)) :
    m.score ≤ candidateScore player board m := by
  rw [candidateScore_eq_spec player board m hs ha]
  exact specCandidateScore_ge player board m

theorem runningMax_spec (scores : List Int) (init : Int) :
    init ≤ runningMax init scores ∧ (∀ s ∈ scores, s ≤ runningMax init scores)
      ∧ (runningMax init scores = init ∨ runningMax init scores ∈ scores) := by
  exact foldl_max_ge scores init

theorem runningMax_mem (scores : List Int) (init : Int) (h : ∃ s ∈ scores, init < s) :
    runningMax init scores ∈ scores := by
  obtain ⟨h1, h2, h3⟩ := runningMax_spec scores init
  rcases h3 with h3 | h3
  · obtain ⟨s, hs, hlt⟩ := h
    have := h2 s hs
    omega
  · exact h3

theorem updateLoop_aux (player : Int) (board : Board) (moves : List Move) (mx : Int)
    (acc : List UpdatedMove) :
    moves.foldl
      (fun (st : Board × Int × List UpdatedMove) m =>
        let board := st.1
        let maxScore := st.2.1
        let updatedMoves := st.2.2
        let currentScore := candidateScore player board m
        let maxScore := if currentScore > maxScore then currentScore else maxScore
        (board, maxScore, updatedMoves ++ [{ updatedScore := currentScore, move := m }]))
      (board, mx, acc)
    = (board, runningMax mx (moves.map (candidateScore player board)),
        acc ++ moves.map (fun m => { updatedScore := candidateScore player board m, move := m })) := by
  induction moves generalizing mx acc with
  | nil => simp [runningMax]
  | cons m ms ih =>
    simp only [List.foldl_cons, List.map_cons]
    rw [ih]
    simp [runningMax]

theorem updateLoop_eq (player : Int) (board : Board) (moves : List Move) :
    updateLoop player moves board
      = (board, runningMax (-999) (moves.map (candidateScore player board)),
          moves.map (fun m => { updatedScore := candidateScore player board m, move := m })) := by
  unfold updateLoop
  rw [updateLoop_aux]
  simp

theorem calculateBestMoves_eq (player : Int) (board : Board) (moves : List Move) :
    calculateBestMoves player board moves
      = moves.filter (fun m => decide (candidateScore player board m
          = runningMax (-999) (moves.map (candidateScore player board)))) := by
  unfold calculateBestMoves calculateBestMovesRun
  simp only [updateLoop_eq]
  rw [foldl_append_if (fun um : UpdatedMove => um.updatedScore
      = runningMax (-999) (moves.map (candidateScore player board))) (fun um => um.move)]
  simp [List.filter_map, Function.comp_def]

theorem calculateBestMoves_sublist (player : Int) (board : Board) (moves : List Move) :
    (calculateBestMoves player board moves).Sublist moves := by
  rw [calculateBestMoves_eq]
  exact List.filter_sublist _

theorem runningMax_candidate (player : Int) (board : Board) (moves : List Move)
    (hne : moves ≠ []) (hlow : ∀ m ∈ moves, -100 ≤ m.score ∧ m.score ≤ 100)
    (hb : sumsBounded board)
    (hp : -288230376151711744 ≤ player ∧ player ≤ 288230376151711744) :
    ∃ m ∈ moves, candidateScore player board m
        = runningMax (-999) (moves.map (candidateScore player board)) := by
  have hmem : runningMax (-999) (moves.map (candidateScore player board))
      ∈ moves.map (candidateScore player board) := by
    apply runningMax_mem
    cases moves with
    | nil => exact absurd rfl hne
    | cons m ms =>
      refine ⟨candidateScore player board m, by simp, ?_⟩
      have := hlow m (List.mem_cons_self m ms)
      have := candidateScore_ge player board m this (sumsWithin_move _ _ _ hb hp)
      omega
  obtain ⟨m, hm, hmeq⟩ := List.mem_map.1 hmem
  exact ⟨m, hm, hmeq⟩

theorem calculateBestMoves_maximal (player : Int) (board : Board) (moves : List Move)
    (hlow : ∀ m ∈ moves, -100 ≤ m.score ∧ m.score ≤ 100) (hb : sumsBounded board)
    (hp : -288230376151711744 ≤ player ∧ player ≤ 288230376151711744) :
    calculateBestMoves player board moves
      = moves.filter (fun m => decide (∀ m' ∈ moves,
          candidateScore player board m' ≤ candidateScore player board m)) := by
  rw [calculateBestMoves_eq]
  apply List.filter_congr
  intro m hm
  have hne : moves ≠ [] := List.ne_nil_of_mem hm
  obtain ⟨m0, hm0, hm0eq⟩ := runningMax_candidate player board moves hne hlow hb hp
  obtain ⟨_, h2, _⟩ := runningMax_spec (moves.map (candidateScore player board)) (-999)
  simp only [decide_eq_decide]
  constructor
  · intro h m' hm'
    rw [h]
    exact h2 _ (List.mem_map_of_mem _ hm')
  · intro h
    have a1 := h m0 hm0
    have a2 := h2 _ (List.mem_map_of_mem (candidateScore player board) hm)
    omega

theorem calculateBestMoves_ne_nil (player : Int) (board : Board) (moves : List Move)
    (hne : moves ≠ []) (hlow : ∀ m ∈ moves, -100 ≤ m.score ∧ m.score ≤ 100)
    (hb : sumsBounded board)
    (hp : -288230376151711744 ≤ player ∧ player ≤ 288230376151711744) :
    calculateBestMoves player board moves ≠ [] := by
  obtain ⟨m0, hm0, hm0eq⟩ := runningMax_candidate player board moves hne hlow hb hp
  rw [calculateBestMoves_eq]
  intro h
  have : m0 ∈ moves.filter (fun m => decide (candidateScore player board m
          = runningMax (-999) (moves.map (candidateScore player board)))) := by
    simp [List.mem_filter, hm0, hm0eq]
  rw [h] at this
  cases this

/-! ## Boards behind pointers: `copy`, `move` and `calculateBestMoves` -/

theorem playAll_cons (m : Int × Coord) (ms : List (Int × Coord)) (b : Board) :
    playAll (m :: ms) b = playAll ms (b.move m.1 m.2) := rfl

theorem set_getElem_same {α : Type} (l : List α) (r : Nat) (h : r < l.length) :
    l.set r l[r] = l := by
  apply List.ext_getElem?
  intro n
  rw [List.getElem?_set]
  split_ifs with e1
  · subst e1
    exact (List.getElem?_eq_getElem h).symm
  · rfl

theorem heap_playAll_eq (ms : List (Int × Coord)) :
    ∀ (h : Heap) (r : Nat) (b : Board), h[r]? = some b →
      Heap.playAll ms h r = some (h.set r (playAll ms b)) := by
  induction ms with
  | nil =>
    intro h r b hb
    obtain ⟨hlt, hget⟩ := List.getElem?_eq_some.1 hb
    show some h = some (h.set r b)
    rw [← hget, set_getElem_same h r hlt]
  | cons m ms ih =>
    intro h r b hb
    obtain ⟨hlt, _⟩ := List.getElem?_eq_some.1 hb
    have hmove : Heap.move h r m.1 m.2 = some (h.set r (b.move m.1 m.2)) := by
      unfold Heap.move
      rw [hb]
    have hnext : (h.set r (b.move m.1 m.2))[r]? = some (b.move m.1 m.2) := by
      rw [List.getElem?_set, if_pos rfl, if_pos hlt]
    show (match Heap.move h r m.1 m.2 with
      | some h1 => Heap.playAll ms h1 r
      | none => none) = _
    rw [hmove]
    show Heap.playAll ms (h.set r (b.move m.1 m.2)) r = _
    rw [ih _ r _ hnext, List.set_set, playAll_cons]

theorem heap_copy_eq (h : Heap) (r : Nat) (b : Board) (hb : h[r]? = some b) :
    Heap.copy h r = some (h ++ [b.copy], h.length) := by
  unfold Heap.copy
  rw [hb]

theorem heap_updateLoop (player : Int) (r : Nat) (board : Board) (ms : List Move) :
    ∀ (h : Heap) (mx : Int) (acc : List UpdatedMove), h[r]? = some board →
      ∃ h1, Heap.updateLoop player r ms (h, mx, acc)
          = some (h1, runningMax mx (ms.map (candidateScore player board)),
              acc ++ ms.map (fun m => { updatedScore := candidateScore player board m, move := m }))
        ∧ h.length ≤ h1.length ∧ ∀ a, a < h.length → h1[a]? = h[a]? := by
  induction ms with
  | nil =>
    intro h mx acc _
    exact ⟨h, by simp [Heap.updateLoop, runningMax], le_refl _, fun _ _ => rfl⟩
  | cons m ms ih =>
    intro h mx acc hb
    obtain ⟨hlt, _⟩ := List.getElem?_eq_some.1 hb
    have hlen : (h ++ [board.copy]).length = h.length + 1 := by simp
    have hnew : (h ++ [board.copy])[h.length]? = some board.copy :=
      List.getElem?_concat_length h board.copy
    have hmove : Heap.move (h ++ [board.copy]) h.length player m.coordinates
        = some ((h ++ [board.copy]).set h.length ((board.copy).move player m.coordinates)) := by
      unfold Heap.move
      rw [hnew]
    have hplayed : ((h ++ [board.copy]).set h.length
        ((board.copy).move player m.coordinates))[h.length]?
        = some ((board.copy).move player m.coordinates) := by
      rw [List.getElem?_set, if_pos rfl, if_pos (by omega)]
    have hkeep : ∀ a, a < h.length → ((h ++ [board.copy]).set h.length
        ((board.copy).move player m.coordinates))[a]? = h[a]? := by
      intro a ha
      rw [List.getElem?_set, if_neg (by omega), List.getElem?_append_left ha]
    obtain ⟨h1, hloop, hle, hframe⟩ := ih _
      (if candidateScore player board m > mx then candidateScore player board m else mx)
      (acc ++ [{ updatedScore := candidateScore player board m, move := m }])
      ((hkeep r hlt).trans hb)
    refine ⟨h1, ?_, ?_, ?_⟩
    · unfold Heap.updateLoop
      rw [heap_copy_eq h r board hb]
      simp only [hmove, hplayed]
      rw [show tieBreakScore m.score ((board.copy).move player m.coordinates)
        = candidateScore player board m from rfl, hloop]
      simp [runningMax]
    · rw [List.length_set, hlen] at hle
      omega
    · intro a ha
      rw [hframe a (by rw [List.length_set, hlen]; omega), hkeep a ha]

/-- The function `calculateBestMoves` called on a board behind a pointer returns what it
returns on the value of that board, and leaves every board allocated before the call, the
caller's board among them, as it was. -/
theorem heap_calculateBestMoves (player : Int) (board : Board) (moves : List Move)
    (h : Heap) (r : Nat) (hb : h[r]? = some board) :
    ∃ h1, Heap.calculateBestMoves h r player moves
        = some (calculateBestMoves player board moves, h1)
      ∧ h1[r]? = some board ∧ ∀ a, a < h.length → h1[a]? = h[a]? := by
  obtain ⟨hlt, _⟩ := List.getElem?_eq_some.1 hb
  obtain ⟨h1, hloop, _, hframe⟩ := heap_updateLoop player r board moves h (-999) [] hb
  refine ⟨h1, ?_, (hframe r hlt).trans hb, hframe⟩
  unfold Heap.calculateBestMoves
  rw [hloop]
  unfold calculateBestMoves calculateBestMovesRun
  simp only [updateLoop_eq, List.nil_append]

/-! ## The selector of `main` -/

theorem scoreOf_eq (fuel : Nat) (player : Int) (board : Board) (c : Coord) (v : Int)
    (h : calculateScore fuel player player c board 0 = .ok v) : scoreOf fuel player board c = v := by
  unfold scoreOf
  rw [h]

/-- The search value does not depend on the fuel once there is enough of it, and stays
within `100 - depth` of zero. -/
theorem calculateScore_range (fuel : Nat) (player currentPlayer : Int) (c : Coord) (b : Board)
    (depth : Int) (hcur : currentPlayer ≠ 0) (hint : isInt currentPlayer)
    (hfuel : countEmpty (b.move currentPlayer c) < fuel)
    (hd : 0 ≤ depth) (hd2 : depth ≤ 91) :
    ∃ v, calculateScore fuel player currentPlayer c b depth = .ok v
      ∧ -(100 - depth) ≤ v ∧ v ≤ 100 - depth := by
  obtain ⟨v, hv⟩ := calculateScore_total (countEmpty (b.move currentPlayer c) + 1) player
    currentPlayer c b depth hcur hint (Nat.lt_succ_self _)
  have h9 := countEmpty_le_nine (b.move currentPlayer c)
  have hb := calculateScore_bound _ _ _ _ _ _ _ hd (by push_cast; omega) hv
  exact ⟨v, calculateScore_mono_le _ _ (by omega) _ _ _ _ _ _ hv, hb⟩

theorem root_score_range (fuel : Nat) (player : Int) (c : Coord) (b : Board)
    (hp : player ≠ 0) (hint : isInt player) (hc : b.fields c.1 c.2 = 0)
    (hfuel : countEmpty b ≤ fuel) :
    ∃ v, calculateScore fuel player player c b 0 = .ok v ∧ -100 ≤ v ∧ v ≤ 100 := by
  have hlt := countEmpty_move_lt b player c hp hc
  obtain ⟨v, hv, h1, h2⟩ := calculateScore_range fuel player player c b 0 hp hint (by omega)
    (le_refl _) (by norm_num)
  exact ⟨v, hv, by omega, by omega⟩

theorem scoreLoop_eq (fuel : Nat) (player : Int) (board : Board) (cs : List Coord)
    (mx : Int) (acc : List Move)
    (h : ∀ c ∈ cs, ∃ v, calculateScore fuel player player c board 0 = .ok v) :
    scoreLoop fuel player board cs (mx, acc)
      = .ok (runningMax mx (cs.map (scoreOf fuel player board)),
          acc ++ cs.map (fun c => { score := scoreOf fuel player board c, coordinates := c })) := by
  induction cs generalizing mx acc with
  | nil => simp [scoreLoop, runningMax]
  | cons c cs ih =>
    obtain ⟨v, hv⟩ := h c (List.mem_cons_self c cs)
    have hs := scoreOf_eq _ _ _ _ _ hv
    unfold scoreLoop
    rw [hv]
    simp only []
    rw [ih _ _ (fun x hx => h x (List.mem_cons_of_mem c hx))]
    simp [runningMax, hs]

theorem potentialMovesOf_eq (maxScore : Int) (availableMoves : List Move) :
    potentialMovesOf maxScore availableMoves
      = availableMoves.filter (fun m => decide (m.score = maxScore)) := by
  unfold potentialMovesOf
  rw [foldl_append_if (fun m : Move => m.score = maxScore) (fun m => m)]
  simp

theorem calculateRandomMove_mem (moves : List Move) (rnd : Nat) (h : moves ≠ []) :
    ∃ m ∈ moves, calculateRandomMove moves rnd = .ok m := by
  unfold calculateRandomMove
  have hlen : 0 < moves.length := List.length_pos.2 h
  have hlt : rnd % moves.length < moves.length := Nat.mod_lt _ hlen
  rw [if_neg (by omega)]
  rw [List.getElem?_eq_getElem hlt]
  exact ⟨_, List.getElem_mem _, rfl⟩

theorem player_ne_zero (p : Int) (hp : p = -1 ∨ p = 1) : p ≠ 0 := by
  rcases hp with h | h <;> omega

theorem isInt_player (p : Int) (hp : p = -1 ∨ p = 1) : isInt p := by
  rcases hp with h | h <;> rw [h] <;> decide

/-- What the two filtering steps of the selector leave, for a non-zero player on a board
with an empty cell and fuel for every empty cell. -/
theorem bestMovesOf_spec (fuel : Nat) (player : Int) (board : Board)
    (hp0 : player ≠ 0) (hint : isInt player)
    (hfuel : countEmpty board ≤ fuel)
    (hne : findAvailableCoordinates board ≠ []) :
    ∃ best, bestMovesOf fuel player board = .ok best
      ∧ (sumsBounded board
          → -288230376151711744 ≤ player ∧ player ≤ 288230376151711744 → best ≠ [])
      ∧ best.Sublist ((findAvailableCoordinates board).map
          (fun c => { score := scoreOf fuel player board c, coordinates := c }))
      ∧ ∀ m ∈ best, m.coordinates ∈ findAvailableCoordinates board
          ∧ calculateScore fuel player player m.coordinates board 0 = .ok m.score
          ∧ ∀ c ∈ findAvailableCoordinates board,
              ∃ v, calculateScore fuel player player c board 0 = .ok v ∧ v ≤ m.score := by
  have hall : ∀ c ∈ findAvailableCoordinates board,
      ∃ v, calculateScore fuel player player c board 0 = .ok v ∧ -100 ≤ v ∧ v ≤ 100 :=
    fun c hc => root_score_range fuel player c board hp0 hint
      ((mem_findAvailableCoordinates _ _).1 hc) hfuel
  have hloop := scoreLoop_eq fuel player board (findAvailableCoordinates board) (-999) []
    (fun c hc => (hall c hc).imp (fun _ h => h.1))
  set scores := (findAvailableCoordinates board).map (scoreOf fuel player board) with hscores
  set avm := (findAvailableCoordinates board).map
    (fun c => ({ score := scoreOf fuel player board c, coordinates := c } : Move)) with havm
  have hlow : ∀ s ∈ scores, -999 < s := by
    intro s hs
    obtain ⟨c, hc, rfl⟩ := List.mem_map.1 hs
    obtain ⟨v, hv, h1, _⟩ := hall c hc
    rw [scoreOf_eq _ _ _ _ _ hv]
    omega
  have hmaxmem : runningMax (-999) scores ∈ scores := by
    apply runningMax_mem
    cases hav : findAvailableCoordinates board with
    | nil => exact absurd hav hne
    | cons c cs =>
      have hcm : scoreOf fuel player board c ∈ scores := by
        rw [hscores, hav]; simp
      exact ⟨_, hcm, hlow _ hcm⟩
  obtain ⟨_, hmaxge, _⟩ := runningMax_spec scores (-999)
  have hbest : bestMovesOf fuel player board
      = .ok (calculateBestMoves player board (potentialMovesOf (runningMax (-999) scores) avm)) := by
    unfold bestMovesOf
    rw [hloop]
    simp
  have hpot := potentialMovesOf_eq (runningMax (-999) scores) avm
  have hpotne : potentialMovesOf (runningMax (-999) scores) avm ≠ [] := by
    obtain ⟨c, hc, hceq⟩ := List.mem_map.1 hmaxmem
    have : ({ score := scoreOf fuel player board c, coordinates := c } : Move)
        ∈ potentialMovesOf (runningMax (-999) scores) avm := by
      rw [hpot, List.mem_filter]
      exact ⟨List.mem_map_of_mem _ hc, by simp [hceq]⟩
    exact List.ne_nil_of_mem this
  have hpotprop : ∀ m ∈ potentialMovesOf (runningMax (-999) scores) avm,
      m.coordinates ∈ findAvailableCoordinates board
        ∧ m.score = scoreOf fuel player board m.coordinates
        ∧ m.score = runningMax (-999) scores := by
    intro m hm
    rw [hpot, List.mem_filter] at hm
    obtain ⟨hm1, hm2⟩ := hm
    obtain ⟨c, hc, rfl⟩ := List.mem_map.1 hm1
    exact ⟨hc, rfl, by simpa using hm2⟩
  have hpotlow : ∀ m ∈ potentialMovesOf (runningMax (-999) scores) avm,
      -100 ≤ m.score ∧ m.score ≤ 100 := by
    intro m hm
    obtain ⟨h1, h2, _⟩ := hpotprop m hm
    obtain ⟨v, hv, hv1, hv2⟩ := hall _ h1
    rw [h2, scoreOf_eq _ _ _ _ _ hv]
    exact ⟨hv1, hv2⟩
  refine ⟨_, hbest, fun hsb hpb => calculateBestMoves_ne_nil _ _ _ hpotne hpotlow hsb hpb,
    ?_, ?_⟩
  · refine (calculateBestMoves_sublist _ _ _).trans ?_
    rw [hpot]
    exact List.filter_sublist _
  · intro m hm
    have hmp := (calculateBestMoves_sublist player board _).subset hm
    obtain ⟨h1, h2, h3⟩ := hpotprop m hmp
    refine ⟨h1, ?_, ?_⟩
    · obtain ⟨v, hv, _⟩ := hall _ h1
      rw [h2, scoreOf_eq _ _ _ _ _ hv]
      exact hv
    · intro c hc
      obtain ⟨v, hv, _⟩ := hall c hc
      refine ⟨v, hv, ?_⟩
      rw [h3]
      have := hmaxge (scoreOf fuel player board c) (List.mem_map_of_mem _ hc)
      rw [scoreOf_eq _ _ _ _ _ hv] at this
      exact this

theorem player_bounded (p : Int) (hp : p = -1 ∨ p = 1) :
    -288230376151711744 ≤ p ∧ p ≤ 288230376151711744 := by
  rcases hp with h | h <;> rw [h] <;> decide

theorem calculateRandomMove_ok_mem (moves : List Move) (rnd : Nat) (m : Move)
    (h : calculateRandomMove moves rnd = .ok m) : m ∈ moves := by
  unfold calculateRandomMove at h
  split at h
  · cases h
  · split at h
    · rename_i m' hm'
      cases h
      exact List.getElem?_mem hm'
    · cases h

theorem selectMove_ok_mem (fuel : Nat) (player : Int) (board : Board) (best : List Move)
    (hb : bestMovesOf fuel player board = .ok best) (rnd : Nat) (m : Move)
    (h : selectMove fuel player board rnd = .ok m) : m ∈ best := by
  unfold selectMove at h
  rw [hb] at h
  exact calculateRandomMove_ok_mem best rnd m h

theorem selectMove_of_nil (fuel : Nat) (player : Int) (board : Board)
    (hb : bestMovesOf fuel player board = .ok []) (rnd : Nat) :
    selectMove fuel player board rnd = .error .panic := by
  unfold selectMove
  rw [hb]
  rfl

theorem selectMove_of_best (fuel : Nat) (player : Int) (board : Board) (best : List Move)
    (hb : bestMovesOf fuel player board = .ok best) (hne : best ≠ []) (rnd : Nat) :
    ∃ m ∈ best, selectMove fuel player board rnd = .ok m := by
  unfold selectMove
  rw [hb]
  exact calculateRandomMove_mem best rnd hne

theorem findAvailableCoordinates_ne_nil (b : Board) (h : ∃ c : Coord, b.fields c.1 c.2 = 0) :
    findAvailableCoordinates b ≠ [] := by
  obtain ⟨c, hc⟩ := h
  exact List.ne_nil_of_mem ((mem_findAvailableCoordinates b c).2 hc)

theorem eq_singleton_of_nodup {α : Type} (l : List α) (a : α) (hn : l.Nodup)
    (h : ∀ x, x ∈ l ↔ x = a) : l = [a] := by
  cases l with
  | nil => exact absurd ((h a).2 rfl) (List.not_mem_nil a)
  | cons x xs =>
    have hx : x = a := (h x).1 (List.mem_cons_self x xs)
    subst hx
    cases xs with
    | nil => rfl
    | cons y ys =>
      exfalso
      have hy : y = x := (h y).1 (List.mem_cons_of_mem x (List.mem_cons_self y ys))
      subst hy
      simp at hn

/-- A non-winning root move scores below 100. -/
theorem root_score_lt (fuel : Nat) (p : Int) (c : Coord) (b : Board) (v : Int)
    (hp : p ≠ 0) (hint : isInt p) (hc : b.fields c.1 c.2 = 0) (hfuel : countEmpty b ≤ fuel)
    (hno : (b.move p c).asses p ≠ 100)
    (hv : calculateScore fuel p p c b 0 = .ok v) : v < 100 := by
  have hlt := countEmpty_move_lt b p c hp hc
  cases fuel with
  | zero => omega
  | succ n =>
    have hw0 : (b.move p c).asses p = 0 := by
      rcases asses_eq_zero_or (b.move p c) p with h | h
      · exact absurd h hno
      · exact h
    by_cases hfull : findAvailableCoordinates (b.move p c) = []
    · rw [calculateScore_full _ _ _ _ _ _ hw0 hfull] at hv
      cases hv
      norm_num
    · cases hcol : collect
          (fun c' => calculateScore n p (wrap ((-1) * p)) c' (b.move p c) (wrap (0 + 1)))
          (findAvailableCoordinates (b.move p c)) with
      | error e => rw [calculateScore_rec_error _ _ _ _ _ _ _ hw0 hfull hcol] at hv; cases hv
      | ok scores =>
        rw [calculateScore_rec_ok _ _ _ _ _ _ _ hw0 hfull hcol, if_pos rfl] at hv
        have hmem := ((min_ok_iff _ _).1 hv).1
        obtain ⟨c', hc'mem, hc'⟩ := forall₂_exists_left ((collect_ok_iff _ _ _).1 hcol) hmem
        obtain ⟨hnegi, hneg⟩ := wrap_neg_ne_zero p hint hp
        have hlt2 := countEmpty_move_lt (b.move p c) (wrap ((-1) * p)) c' hneg
          ((mem_findAvailableCoordinates _ _).1 hc'mem)
        have h01 : wrap (0 + 1) = 1 := by decide
        rw [h01] at hc'
        obtain ⟨w, hw, _, hw2⟩ := calculateScore_range n p (wrap ((-1) * p)) c' (b.move p c) 1
          hneg hnegi (by unfold countEmpty at *; omega) (by norm_num) (by norm_num)
        rw [hw] at hc'
        cases hc'
        omega

/-! ## Properties of the board, the search and the selector -/

/-- C10: in the arithmetic of `int`, `asses(player)` returns 100 exactly when some entry of
`rowSums`, `columnSums` or `diagonalSums` equals the product `player * 3` as the code
computes it, returns 0 otherwise, never returns anything else, and leaves the receiver as
it was; when `3 * player` is representable in `int` the product is the exact one. -/
theorem asses_win_assessment (b : Board) (player : Int) :
    (b.asses player = 100 ↔
        ((∃ i, b.rowSums i = wrap (player * 3)) ∨ (∃ j, b.columnSums j = wrap (player * 3))
          ∨ (∃ k, b.diagonalSums k = wrap (player * 3))))
      ∧ (¬((∃ i, b.rowSums i = wrap (player * 3)) ∨ (∃ j, b.columnSums j = wrap (player * 3))
          ∨ (∃ k, b.diagonalSums k = wrap (player * 3))) → b.asses player = 0)
      ∧ (b.asses player = 100 ∨ b.asses player = 0)
      ∧ (isInt (3 * player) →
          (b.asses player = 100 ↔
            ((∃ i, b.rowSums i = 3 * player) ∨ (∃ j, b.columnSums j = 3 * player)
              ∨ (∃ k, b.diagonalSums k = 3 * player))))
      ∧ (b.assesRun player).2 = b := by
  have hiff : b.asses player = 100 ↔
      ((∃ i, b.rowSums i = wrap (player * 3)) ∨ (∃ j, b.columnSums j = wrap (player * 3))
        ∨ (∃ k, b.diagonalSums k = wrap (player * 3))) := by
    rw [asses_eq_hundred_iff]
    rfl
  refine ⟨hiff, ?_, asses_eq_zero_or b player, ?_, rfl⟩
  · intro hn
    rcases asses_eq_zero_or b player with h | h
    · exact absurd (hiff.1 h) hn
    · exact h
  · intro hi
    rw [hiff, mul_comm player 3, wrap_of_isInt _ hi]

theorem asses_win_assessment_witness :
    isInt (3 * (-1)) ∧ (scenarioOwnRow.move (-1) (0, 2)).asses (-1) = 100
      ∧ ((∃ i, (scenarioOwnRow.move (-1) (0, 2)).rowSums i = 3 * (-1))
        ∨ (∃ j, (scenarioOwnRow.move (-1) (0, 2)).columnSums j = 3 * (-1))
        ∨ (∃ k, (scenarioOwnRow.move (-1) (0, 2)).diagonalSums k = 3 * (-1))) :=
  ⟨by decide, by decide,
    ((asses_win_assessment (scenarioOwnRow.move (-1) (0, 2)) (-1)).2.2.2.1 (by decide)).1
      (by decide)⟩

/-- C7: when placing `currentPlayer` at the coordinate on a copy of the board makes
`asses(currentPlayer)` non-zero, `calculateScore` returns `100 - depth` if
`currentPlayer == rootPlayer` and `-100 + depth` otherwise, computed in the arithmetic of
`int`; a single unit of fuel is enough, so no further move is explored.  When `100 - depth`
and `-100 + depth` are representable in `int` they are the exact values. -/
theorem calculateScore_win_scoring (fuel : Nat) (rootPlayer currentPlayer : Int)
    (coordinates : Coord) (board : Board) (depth : Int)
    (h : ((board.copy).move currentPlayer coordinates).asses currentPlayer ≠ 0) :
    calculateScore (fuel + 1) rootPlayer currentPlayer coordinates board depth
        = .ok (if currentPlayer = rootPlayer then wrap (100 - depth) else wrap (-100 + depth))
      ∧ (isInt (100 - depth) → isInt (-100 + depth) →
          calculateScore (fuel + 1) rootPlayer currentPlayer coordinates board depth
            = .ok (if currentPlayer = rootPlayer then 100 - depth else -100 + depth)) := by
  rw [Board.copy_eq] at h
  have hgo : calculateScore (fuel + 1) rootPlayer currentPlayer coordinates board depth
      = .ok (if currentPlayer = rootPlayer then wrap (100 - depth) else wrap (-100 + depth)) := by
    rw [calculateScore_win _ _ _ _ _ _ h]
    by_cases hpc : rootPlayer = currentPlayer
    · rw [if_pos hpc, if_pos hpc.symm]
    · rw [if_neg hpc, if_neg (fun h' => hpc h'.symm)]
  refine ⟨hgo, ?_⟩
  intro h1 h2
  rw [hgo, wrap_of_isInt _ h1, wrap_of_isInt _ h2]

theorem calculateScore_win_scoring_witness :
    ((scenarioOwnRow.copy).move (-1) (0, 2)).asses (-1) ≠ 0
      ∧ isInt (100 - 3) ∧ isInt (-100 + 3)
      ∧ calculateScore (0 + 1) (-1) (-1) (0, 2) scenarioOwnRow 3
          = .ok (if (-1 : Int) = -1 then 100 - 3 else -100 + 3) :=
  ⟨by decide, by decide, by decide,
    (calculateScore_win_scoring 0 (-1) (-1) (0, 2) scenarioOwnRow 3 (by decide)).2
      (by decide) (by decide)⟩

/-- C8: for every board, every player in `{-1, 1}` and every empty cell, the root score
`calculateScore(p, p, c, board, 0)` is produced (given fuel for every empty cell) and
lies in `[-100, 100]`. -/
theorem calculateScore_score_range (fuel : Nat) (board : Board) (p : Int) (c : Coord)
    (hp : p = -1 ∨ p = 1) (hc : board.fields c.1 c.2 = 0) (hfuel : countEmpty board ≤ fuel) :
    ∃ v, calculateScore fuel p p c board 0 = .ok v ∧ -100 ≤ v ∧ v ≤ 100 :=
  root_score_range fuel p c board (player_ne_zero p hp) (isInt_player p hp) hc hfuel

theorem calculateScore_score_range_witness :
    ((-1 : Int) = -1 ∨ (-1 : Int) = 1) ∧ scenarioOwnRow.fields (1, 2).1 (1, 2).2 = 0
      ∧ countEmpty scenarioOwnRow ≤ 5
      ∧ ∃ v, calculateScore 5 (-1) (-1) (1, 2) scenarioOwnRow 0 = .ok v ∧ -100 ≤ v ∧ v ≤ 100 :=
  ⟨by decide, by decide, by decide,
    calculateScore_score_range 5 scenarioOwnRow (-1) (1, 2) (by decide) (by decide) (by decide)⟩

/-- C6 as stated fails when the tie-break score wraps around: on the board
`[2^62,0,0 / 0,0,0 / 0,0,0]` with player 1 and the single move `(0, (1,2))` the sums of the
copy add up to `3 * 2^62 + 2`, the code computes `-2^62 + 2`, which is not above the
initial `maxScore` of -999, and the result is empty although the input is not. -/
theorem calculateBestMoves_overflow_counterexample :
    (∀ m ∈ [({ score := 0, coordinates := (1, 2) } : Move)], -100 ≤ m.score ∧ m.score ≤ 100)
      ∧ specCandidateScore 1 scenarioHugeCorner { score := 0, coordinates := (1, 2) }
          = 13835058055282163714
      ∧ candidateScore 1 scenarioHugeCorner { score := 0, coordinates := (1, 2) }
          = -4611686018427387902
      ∧ calculateBestMoves 1 scenarioHugeCorner [{ score := 0, coordinates := (1, 2) }] = []
      ∧ [({ score := 0, coordinates := (1, 2) } : Move)].filter (fun m => decide
          (∀ m' ∈ [({ score := 0, coordinates := (1, 2) } : Move)],
            specCandidateScore 1 scenarioHugeCorner m' ≤ specCandidateScore 1 scenarioHugeCorner m))
          ≠ [] := by
  refine ⟨by decide, by decide, by decide, by decide, by decide⟩

/-- C6: for a board whose row, column and diagonal sums lie in `[-2^58, 2^58]`, a player
value in the same interval and moves with scores in `[-100, 100]`, `calculateBestMoves`
returns exactly the input moves, in input order and unchanged, whose candidate score is
maximal over the input list, where the candidate score is the move's score plus the
positive row, column and diagonal sums of the board obtained by playing the move on a
copy; the result is non-empty when the input is; and called on the board behind a
pointer it returns the same slice and leaves that board, and every other board allocated
before the call, as it was. -/
theorem calculateBestMoves_tie_break (player : Int) (board : Board) (moves : List Move)
    (h : ∀ m ∈ moves, -100 ≤ m.score ∧ m.score ≤ 100) (hb : sumsBounded board)
    (hp : -288230376151711744 ≤ player ∧ player ≤ 288230376151711744) :
    calculateBestMoves player board moves
        = moves.filter (fun m => decide (∀ m' ∈ moves,
            specCandidateScore player board m' ≤ specCandidateScore player board m))
      ∧ (moves ≠ [] → calculateBestMoves player board moves ≠ [])
      ∧ (∀ (heap : Heap) (r : Nat), heap[r]? = some board →
          ∃ heap1, Heap.calculateBestMoves heap r player moves
              = some (calculateBestMoves player board moves, heap1)
            ∧ heap1[r]? = some board ∧ ∀ a, a < heap.length → heap1[a]? = heap[a]?) := by
  refine ⟨?_, fun hne => calculateBestMoves_ne_nil player board moves hne h hb hp,
    fun heap r hr => heap_calculateBestMoves player board moves heap r hr⟩
  rw [calculateBestMoves_maximal player board moves h hb hp]
  apply List.filter_congr
  intro m hm
  rw [candidateScore_eq_spec player board m (h m hm) (sumsWithin_move _ _ _ hb hp)]
  simp only [decide_eq_decide]
  constructor
  · intro hall m' hm'
    rw [← candidateScore_eq_spec player board m' (h m' hm') (sumsWithin_move _ _ _ hb hp)]
    exact hall m' hm'
  · intro hall m' hm'
    rw [candidateScore_eq_spec player board m' (h m' hm') (sumsWithin_move _ _ _ hb hp)]
    exact hall m' hm'

theorem calculateBestMoves_tie_break_witness :
    (∀ m ∈ [({ score := 0, coordinates := (0, 1) } : Move), { score := 0, coordinates := (1, 1) }],
        -100 ≤ m.score ∧ m.score ≤ 100)
      ∧ sumsBounded newBoard
      ∧ (-288230376151711744 ≤ (1 : Int) ∧ (1 : Int) ≤ 288230376151711744)
      ∧ calculateBestMoves 1 newBoard
          [{ score := 0, coordinates := (0, 1) }, { score := 0, coordinates := (1, 1) }]
        = [{ score := 0, coordinates := (1, 1) }]
      ∧ ∃ heap1, Heap.calculateBestMoves [newBoard] 0 1
            [{ score := 0, coordinates := (0, 1) }, { score := 0, coordinates := (1, 1) }]
          = some (calculateBestMoves 1 newBoard
            [{ score := 0, coordinates := (0, 1) }, { score := 0, coordinates := (1, 1) }], heap1)
        ∧ heap1[0]? = some newBoard := by
  have hyp : ∀ m ∈ [({ score := 0, coordinates := (0, 1) } : Move),
      { score := 0, coordinates := (1, 1) }], -100 ≤ m.score ∧ m.score ≤ 100 := by decide
  refine ⟨hyp, by decide, by decide, ?_, ?_⟩
  · rw [(calculateBestMoves_tie_break 1 newBoard _ hyp (by decide) (by decide)).1]
    decide
  · obtain ⟨heap1, e1, e2, _⟩ :=
      (calculateBestMoves_tie_break 1 newBoard _ hyp (by decide) (by decide)).2.2 [newBoard] 0 rfl
    exact ⟨heap1, e1, e2⟩

/-- C5: on a root board with an empty cell and for a root player in `{-1, 1}`, the search
scores every empty cell, and every move left for the random pick, and so every move the
selector can print, has an empty cell of the root board as coordinate and carries as score
its own search score `calculateScore(p, p, c, board, 0)`, which is the maximum of the
search scores over all empty cells.  When the sums of the board lie in `[-2^58, 2^58]`
some move is left and one of them is printed. -/
theorem selector_primary_selection (fuel : Nat) (board : Board) (p : Int) (rnd : Nat)
    (hp : p = -1 ∨ p = 1) (hfuel : countEmpty board ≤ fuel)
    (hne : ∃ c : Coord, board.fields c.1 c.2 = 0) :
    ∃ bestMoves, bestMovesOf fuel p board = .ok bestMoves
      ∧ (∀ m, selectMove fuel p board rnd = .ok m → m ∈ bestMoves)
      ∧ (sumsBounded board → ∃ m ∈ bestMoves, selectMove fuel p board rnd = .ok m)
      ∧ ∀ m ∈ bestMoves, board.fields m.coordinates.1 m.coordinates.2 = 0
          ∧ calculateScore fuel p p m.coordinates board 0 = .ok m.score
          ∧ ∀ c : Coord, board.fields c.1 c.2 = 0 →
              ∃ v, calculateScore fuel p p c board 0 = .ok v ∧ v ≤ m.score := by
  obtain ⟨best, hb, hbne, _, hprop⟩ := bestMovesOf_spec fuel p board (player_ne_zero p hp)
    (isInt_player p hp) hfuel (findAvailableCoordinates_ne_nil board hne)
  refine ⟨best, hb, fun m hm => selectMove_ok_mem fuel p board best hb rnd m hm,
    fun hsb => selectMove_of_best fuel p board best hb (hbne hsb (player_bounded p hp)) rnd, ?_⟩
  intro m hm
  obtain ⟨h1, h2, h3⟩ := hprop m hm
  exact ⟨(mem_findAvailableCoordinates _ _).1 h1, h2,
    fun c hc => h3 c ((mem_findAvailableCoordinates _ _).2 hc)⟩

theorem selector_primary_selection_witness :
    ((-1 : Int) = -1 ∨ (-1 : Int) = 1) ∧ countEmpty scenarioOwnRow ≤ 5
      ∧ (∃ c : Coord, scenarioOwnRow.fields c.1 c.2 = 0)
      ∧ sumsBounded scenarioOwnRow
      ∧ ∃ bestMoves, bestMovesOf 5 (-1) scenarioOwnRow = .ok bestMoves
        ∧ (∃ m ∈ bestMoves, selectMove 5 (-1) scenarioOwnRow 0 = .ok m)
        ∧ ∀ m ∈ bestMoves, scenarioOwnRow.fields m.coordinates.1 m.coordinates.2 = 0
            ∧ calculateScore 5 (-1) (-1) m.coordinates scenarioOwnRow 0 = .ok m.score
            ∧ ∀ c : Coord, scenarioOwnRow.fields c.1 c.2 = 0 →
                ∃ v, calculateScore 5 (-1) (-1) c scenarioOwnRow 0 = .ok v ∧ v ≤ m.score := by
  obtain ⟨best, hb, _, hex, hall⟩ := selector_primary_selection 5 scenarioOwnRow (-1) 0
    (by decide) (by decide) ⟨(0, 2), by decide⟩
  exact ⟨by decide, by decide, ⟨(0, 2), by decide⟩, by decide, best, hb, hex (by decide), hall⟩

/-- C4 as stated fails when the tie-break score wraps around: on
`[2^62,1,-1 / -1,1,1 / 1,-1,0]` with root player -1 the only empty cell `(2,2)` completes
no line and scores 0, but its tie-break score wraps to a value below the initial
`maxScore` of -999, so no candidate is left and the random pick panics. -/
theorem selector_sole_empty_cell_counterexample :
    (∀ c' : Coord, scenarioHugeLastCell.fields c'.1 c'.2 = 0 ↔ c' = (2, 2))
      ∧ ((scenarioHugeLastCell.copy).move (-1) (2, 2)).asses (-1) = 0
      ∧ calculateScore 1 (-1) (-1) (2, 2) scenarioHugeLastCell 0 = .ok 0
      ∧ candidateScore (-1) scenarioHugeLastCell { score := 0, coordinates := (2, 2) }
          = -4611686018427387901
      ∧ bestMovesOf 1 (-1) scenarioHugeLastCell = .ok []
      ∧ ∀ rnd, selectMove 1 (-1) scenarioHugeLastCell rnd = .error .panic := by
  have hb : bestMovesOf 1 (-1) scenarioHugeLastCell = .ok [] := by decide
  exact ⟨by decide, by decide, by decide, by decide, hb,
    fun rnd => selectMove_of_nil 1 (-1) scenarioHugeLastCell hb rnd⟩

/-- C4: on a board whose sums lie in `[-2^58, 2^58]` and whose only empty cell is `c`, for
a root player in `{-1, 1}` whose mark at `c` completes no line, the search scores `c` with
0, the candidates left after both filtering steps are exactly `[(0, c)]`, and the move
selected is `(0, c)` whatever the random pick. -/
theorem selector_sole_empty_cell (fuel : Nat) (board : Board) (p : Int) (c : Coord) (rnd : Nat)
    (hp : p = -1 ∨ p = 1) (hfuel : 1 ≤ fuel) (hsb : sumsBounded board)
    (hone : ∀ c' : Coord, board.fields c'.1 c'.2 = 0 ↔ c' = c)
    (hno : ((board.copy).move p c).asses p = 0) :
    calculateScore fuel p p c board 0 = .ok 0
      ∧ bestMovesOf fuel p board = .ok [{ score := 0, coordinates := c }]
      ∧ selectMove fuel p board rnd = .ok { score := 0, coordinates := c } := by
  have hp0 := player_ne_zero p hp
  rw [Board.copy_eq] at hno
  have hav : findAvailableCoordinates board = [c] :=
    eq_singleton_of_nodup _ _ (findAvailableCoordinates_nodup board)
      (fun x => (mem_findAvailableCoordinates board x).trans (hone x))
  have hfull : findAvailableCoordinates (board.move p c) = [] := by
    rw [findAvailableCoordinates_move board p c hp0, hav]
    simp
  have hscore : calculateScore fuel p p c board 0 = .ok 0 := by
    obtain ⟨n, rfl⟩ : ∃ n, fuel = n + 1 := ⟨fuel - 1, by omega⟩
    exact calculateScore_full _ _ _ _ _ _ hno hfull
  have hcount : countEmpty board ≤ fuel := by
    unfold countEmpty
    rw [hav]
    exact hfuel
  obtain ⟨best, hb, hbne, hsub, _⟩ := bestMovesOf_spec fuel p board hp0 (isInt_player p hp)
    hcount (by rw [hav]; simp)
  have hbne := hbne hsb (player_bounded p hp)
  rw [hav] at hsub
  simp only [List.map_cons, List.map_nil, scoreOf_eq _ _ _ _ _ hscore] at hsub
  have hbest : best = [{ score := 0, coordinates := c }] := by
    rcases List.sublist_singleton.1 hsub with h | h
    · exact absurd h hbne
    · exact h
  subst hbest
  refine ⟨hscore, hb, ?_⟩
  obtain ⟨m, hm, hsel⟩ := selectMove_of_best fuel p board _ hb hbne rnd
  rw [List.mem_singleton] at hm
  rw [hsel, hm]

theorem selector_sole_empty_cell_witness :
    ((-1 : Int) = -1 ∨ (-1 : Int) = 1) ∧ 1 ≤ 1 ∧ sumsBounded scenarioLastCell
      ∧ (∀ c' : Coord, scenarioLastCell.fields c'.1 c'.2 = 0 ↔ c' = (2, 2))
      ∧ ((scenarioLastCell.copy).move (-1) (2, 2)).asses (-1) = 0
      ∧ calculateScore 1 (-1) (-1) (2, 2) scenarioLastCell 0 = .ok 0
      ∧ bestMovesOf 1 (-1) scenarioLastCell = .ok [{ score := 0, coordinates := (2, 2) }]
      ∧ selectMove 1 (-1) scenarioLastCell 7 = .ok { score := 0, coordinates := (2, 2) } :=
  ⟨by decide, by decide, by decide, by decide, by decide,
    selector_sole_empty_cell 1 scenarioLastCell (-1) (2, 2) 7 (by decide) (by decide)
      (by decide) (by decide) (by decide)⟩

/-- C1 as stated fails when the tie-break score wraps around: on
`[2^62,-1,-1 / 1,1,0 / -1,0,0]` with root player 1 the empty cell `(1,2)` completes the
second row and scores 100, but its tie-break score wraps to a value below the initial
`maxScore` of -999, so no candidate is left, the random pick panics and no move is
chosen. -/
theorem selector_immediate_win_counterexample :
    (∃ c : Coord, scenarioHugeWin.fields c.1 c.2 = 0
        ∧ ((scenarioHugeWin.copy).move 1 c).asses 1 = 100)
      ∧ calculateScore 3 1 1 (1, 2) scenarioHugeWin 0 = .ok 100
      ∧ candidateScore 1 scenarioHugeWin { score := 100, coordinates := (1, 2) }
          = -4611686018427387802
      ∧ bestMovesOf 3 1 scenarioHugeWin = .ok []
      ∧ ∀ rnd, selectMove 3 1 scenarioHugeWin rnd = .error .panic := by
  have hb : bestMovesOf 3 1 scenarioHugeWin = .ok [] := by decide
  exact ⟨⟨(1, 2), by decide, by decide⟩, by decide, by decide, hb,
    fun rnd => selectMove_of_nil 3 1 scenarioHugeWin hb rnd⟩

/-- C1: when some empty cell completes a line for the root player `p` in `{-1, 1}`, every
move the selector can choose has score exactly 100 and an empty line-completing cell as
coordinate, and every empty cell that completes no line for `p` scores strictly less than
100; when the sums of the board lie in `[-2^58, 2^58]` the selector does choose a move,
whatever the random pick. -/
theorem selector_immediate_win (fuel : Nat) (board : Board) (p : Int) (rnd : Nat)
    (hp : p = -1 ∨ p = 1) (hfuel : countEmpty board ≤ fuel)
    (hwin : ∃ c : Coord, board.fields c.1 c.2 = 0 ∧ ((board.copy).move p c).asses p = 100) :
    (sumsBounded board → ∃ m, selectMove fuel p board rnd = .ok m)
      ∧ (∀ m, selectMove fuel p board rnd = .ok m → m.score = 100
          ∧ board.fields m.coordinates.1 m.coordinates.2 = 0
          ∧ ((board.copy).move p m.coordinates).asses p = 100)
      ∧ ∀ c : Coord, board.fields c.1 c.2 = 0 → ((board.copy).move p c).asses p ≠ 100 →
          ∃ v, calculateScore fuel p p c board 0 = .ok v ∧ v < 100 := by
  have hp0 := player_ne_zero p hp
  have hpi := isInt_player p hp
  simp only [Board.copy_eq] at hwin ⊢
  obtain ⟨cw, hcw, hcwin⟩ := hwin
  have hlow : ∀ c : Coord, board.fields c.1 c.2 = 0 → (board.move p c).asses p ≠ 100 →
      ∃ v, calculateScore fuel p p c board 0 = .ok v ∧ v < 100 := by
    intro c hc hno
    obtain ⟨v, hv, _, _⟩ := root_score_range fuel p c board hp0 hpi hc hfuel
    exact ⟨v, hv, root_score_lt fuel p c board v hp0 hpi hc hfuel hno hv⟩
  obtain ⟨best, hb, hbne, _, hprop⟩ := bestMovesOf_spec fuel p board hp0 hpi hfuel
    (findAvailableCoordinates_ne_nil board ⟨cw, hcw⟩)
  refine ⟨?_, ?_, hlow⟩
  · intro hsb
    obtain ⟨m, _, hsel⟩ := selectMove_of_best fuel p board best hb
      (hbne hsb (player_bounded p hp)) rnd
    exact ⟨m, hsel⟩
  intro m hsel
  have hm := selectMove_ok_mem fuel p board best hb rnd m hsel
  obtain ⟨h1, h2, h3⟩ := hprop m hm
  have hm0 := (mem_findAvailableCoordinates _ _).1 h1
  have hcw100 : calculateScore fuel p p cw board 0 = .ok 100 := by
    have hlt := countEmpty_move_lt board p cw hp0 hcw
    obtain ⟨n, rfl⟩ : ∃ n, fuel = n + 1 := ⟨fuel - 1, by omega⟩
    rw [calculateScore_win _ _ _ _ _ _ (by rw [hcwin]; norm_num), if_pos rfl]
    rfl
  obtain ⟨v, hv, hle⟩ := h3 cw ((mem_findAvailableCoordinates _ _).2 hcw)
  rw [hcw100] at hv
  cases hv
  obtain ⟨w, hw, _, hw2⟩ := root_score_range fuel p m.coordinates board hp0 hpi hm0 hfuel
  rw [h2] at hw
  cases hw
  have hscore : m.score = 100 := by omega
  refine ⟨hscore, hm0, ?_⟩
  by_contra hno
  obtain ⟨v, hv, hvlt⟩ := hlow m.coordinates hm0 hno
  rw [h2] at hv
  cases hv
  omega

theorem selector_immediate_win_witness :
    (((-1 : Int) = -1 ∨ (-1 : Int) = 1) ∧ countEmpty scenarioOwnRow ≤ 5
      ∧ (∃ c : Coord, scenarioOwnRow.fields c.1 c.2 = 0
          ∧ ((scenarioOwnRow.copy).move (-1) c).asses (-1) = 100)
      ∧ sumsBounded scenarioOwnRow ∧ sumsBounded scenarioSecondRow)
      ∧ (∀ rnd, selectMove 5 (-1) scenarioOwnRow rnd = .ok { score := 100, coordinates := (0, 2) })
      ∧ (∀ rnd,
          selectMove 5 (-1) scenarioSecondRow rnd = .ok { score := 100, coordinates := (1, 2) }) := by
  refine ⟨⟨by decide, by decide, ⟨(0, 2), by decide, by decide⟩, by decide, by decide⟩, ?_, ?_⟩
  · intro rnd
    obtain ⟨hex, hall, _⟩ := selector_immediate_win 5 scenarioOwnRow (-1) rnd
      (by decide) (by decide) ⟨(0, 2), by decide, by decide⟩
    obtain ⟨m, hsel⟩ := hex (by decide)
    obtain ⟨hs, he, hw⟩ := hall m hsel
    have honly : ∀ c : Coord, scenarioOwnRow.fields c.1 c.2 = 0 →
        ((scenarioOwnRow.copy).move (-1) c).asses (-1) = 100 → c = (0, 2) := by decide
    have hc := honly m.coordinates he hw
    rw [hsel]
    cases m
    simp_all
  · intro rnd
    obtain ⟨hex, hall, _⟩ := selector_immediate_win 5 scenarioSecondRow (-1) rnd
      (by decide) (by decide) ⟨(1, 2), by decide, by decide⟩
    obtain ⟨m, hsel⟩ := hex (by decide)
    obtain ⟨hs, he, hw⟩ := hall m hsel
    have honly : ∀ c : Coord, scenarioSecondRow.fields c.1 c.2 = 0 →
        ((scenarioSecondRow.copy).move (-1) c).asses (-1) = 100 → c = (1, 2) := by decide
    have hc := honly m.coordinates he hw
    rw [hsel]
    cases m
    simp_all

/-! ## Swapping the players -/

theorem Board.ext_fields (a b : Board) (hf : ∀ i j, a.fields i j = b.fields i j)
    (hr : ∀ i, a.rowSums i = b.rowSums i) (hc : ∀ j, a.columnSums j = b.columnSums j)
    (hd0 : a.diagonalSums 0 = b.diagonalSums 0) (hd1 : a.diagonalSums 1 = b.diagonalSums 1)
    (ht : a.turn = b.turn) : a = b := by
  cases a
  cases b
  simp only [Board.mk.injEq]
  refine ⟨?_, ?_, ?_, ?_, ht⟩
  · funext i j; exact hf i j
  · funext i; exact hr i
  · funext j; exact hc j
  · funext k
    fin_cases k
    · exact hd0
    · exact hd1

theorem mirrorSum_add (s t q : Int) (h : mirrorSum s t) :
    mirrorSum (wrap (s + q)) (wrap (t + -q)) := by
  right
  refine ⟨isInt_wrap _, isInt_wrap _, ?_⟩
  rcases h with h | ⟨_, _, h⟩
  · subst h
    unfold wrap
    omega
  · unfold wrap
    omega

theorem mirrorSum_win (s t q : Int) (h : mirrorSum s t) (hq : q = -1 ∨ q = 1) :
    t = wrap (-q * 3) ↔ s = wrap (q * 3) := by
  have h1 : wrap (q * 3) = q * 3 := wrap_player_three q hq
  have h2 : wrap (-q * 3) = -q * 3 := by
    rcases hq with rfl | rfl <;> decide
  rw [h1, h2]
  rcases h with h | ⟨hs, ht, h⟩
  · subst h
    constructor <;> intro h <;> linarith
  · unfold isInt at hs ht
    constructor <;> intro h' <;> rcases hq with rfl | rfl <;> omega

theorem mirror_negate (b : Board) : Mirror b b.negate :=
  ⟨fun _ _ => rfl, fun _ => Or.inl rfl, fun _ => Or.inl rfl, fun _ => Or.inl rfl⟩

theorem mirror_move (a b : Board) (q : Int) (c : Coord) (h : Mirror a b) :
    Mirror (a.move q c) (b.move (-q) c) := by
  obtain ⟨hf, hr, hc, hd⟩ := h
  refine ⟨?_, ?_, ?_, ?_⟩
  · intro i j
    rw [move_fields, move_fields]
    split
    · rfl
    · exact hf i j
  · intro i
    rw [move_rowSums, move_rowSums]
    split
    · exact mirrorSum_add _ _ _ (hr _)
    · exact hr i
  · intro j
    rw [move_columnSums, move_columnSums]
    split
    · exact mirrorSum_add _ _ _ (hc _)
    · exact hc j
  · intro k
    fin_cases k
    · show mirrorSum ((a.move q c).diagonalSums 0) ((b.move (-q) c).diagonalSums 0)
      rw [move_diagonalSums_zero, move_diagonalSums_zero]
      split
      · exact mirrorSum_add _ _ _ (hd 0)
      · exact hd 0
    · show mirrorSum ((a.move q c).diagonalSums 1) ((b.move (-q) c).diagonalSums 1)
      rw [move_diagonalSums_one, move_diagonalSums_one]
      split
      · exact mirrorSum_add _ _ _ (hd 1)
      · exact hd 1

theorem hasWinningSum_mirror (a b : Board) (q : Int) (h : Mirror a b) (hq : q = -1 ∨ q = 1) :
    hasWinningSum b (-q) ↔ hasWinningSum a q := by
  obtain ⟨_, hr, hc, hd⟩ := h
  unfold hasWinningSum
  simp only [mirrorSum_win _ _ q (hr _) hq, mirrorSum_win _ _ q (hc _) hq,
    mirrorSum_win _ _ q (hd _) hq]

theorem asses_mirror (a b : Board) (q : Int) (h : Mirror a b) (hq : q = -1 ∨ q = 1) :
    b.asses (-q) = a.asses q := by
  rcases asses_eq_zero_or a q with h1 | h1
  · rw [h1, asses_eq_hundred_iff, hasWinningSum_mirror a b q h hq, ← asses_eq_hundred_iff]
    exact h1
  · rw [h1]
    rcases asses_eq_zero_or b (-q) with h2 | h2
    · rw [asses_eq_hundred_iff, hasWinningSum_mirror a b q h hq, ← asses_eq_hundred_iff, h1]
        at h2
      norm_num at h2
    · exact h2

theorem findAvailableCoordinates_mirror (a b : Board) (h : Mirror a b) :
    findAvailableCoordinates b = findAvailableCoordinates a := by
  rw [findAvailableCoordinates_eq, findAvailableCoordinates_eq]
  apply List.filter_congr
  intro c _
  simp [h.1 c.1 c.2]

/-- Swapping the two players' marks and roles leaves every search result as it is. -/
theorem calculateScore_mirror (fuel : Nat) :
    ∀ (player currentPlayer : Int) (c : Coord) (a b : Board) (depth : Int),
      currentPlayer = -1 ∨ currentPlayer = 1 → Mirror a b →
      calculateScore fuel (-player) (-currentPlayer) c b depth
        = calculateScore fuel player currentPlayer c a depth := by
  induction fuel with
  | zero => intro _ _ _ _ _ _ _ _; rfl
  | succ n ih =>
    intro player currentPlayer c a b depth hq hm
    have hmove : Mirror (a.move currentPlayer c) (b.move (-currentPlayer) c) :=
      mirror_move a b currentPlayer c hm
    have hass : (b.move (-currentPlayer) c).asses (-currentPlayer)
        = (a.move currentPlayer c).asses currentPlayer :=
      asses_mirror _ _ _ hmove hq
    have hav : findAvailableCoordinates (b.move (-currentPlayer) c)
        = findAvailableCoordinates (a.move currentPlayer c) :=
      findAvailableCoordinates_mirror _ _ hmove
    have hpc : (-player = -currentPlayer) ↔ (player = currentPlayer) := neg_inj
    have hchild : wrap ((-1) * -currentPlayer) = -(wrap ((-1) * currentPlayer)) := by
      rcases hq with rfl | rfl <;> decide
    have hchild2 : wrap ((-1) * currentPlayer) = -1 ∨ wrap ((-1) * currentPlayer) = 1 := by
      rcases hq with rfl | rfl <;> decide
    have hcol : collect
        (fun c' => calculateScore n (-player) (wrap ((-1) * -currentPlayer)) c'
          (b.move (-currentPlayer) c) (wrap (depth + 1)))
        (findAvailableCoordinates (b.move (-currentPlayer) c))
        = collect
        (fun c' => calculateScore n player (wrap ((-1) * currentPlayer)) c'
          (a.move currentPlayer c) (wrap (depth + 1)))
        (findAvailableCoordinates (a.move currentPlayer c)) := by
      rw [hav]
      apply collect_congr
      intro c' _
      rw [hchild]
      exact ih _ _ _ _ _ _ hchild2 hmove
    rw [calculateScore_succ, calculateScore_succ, hass, hcol, hav]
    simp only [hpc]

/-- C9 (as the code has it): for every board `b`, player `p` in `{-1, 1}`, empty cell `c`
and depth `d`, with fuel for every empty cell, `calculateScore(p, p, c, b, d)` and
`calculateScore(-p, -p, c, b', d)` yield the same value, where `b'` is `b` with every
cell and sum negated; the score is relative to the root player, so it is not negated. -/
theorem calculateScore_swap_symmetry (fuel : Nat) (b : Board) (p : Int) (c : Coord) (d : Int)
    (hp : p = -1 ∨ p = 1) (hc : b.fields c.1 c.2 = 0) (hfuel : countEmpty b ≤ fuel) :
    ∃ v, calculateScore fuel p p c b d = .ok v
      ∧ calculateScore fuel (-p) (-p) c b.negate d = .ok v := by
  have hp0 := player_ne_zero p hp
  have hlt := countEmpty_move_lt b p c hp0 hc
  obtain ⟨v, hv⟩ := calculateScore_total fuel p p c b d hp0 (isInt_player p hp) (by omega)
  exact ⟨v, hv, by rw [calculateScore_mirror fuel p p c b b.negate d hp (mirror_negate b)]; exact hv⟩

theorem calculateScore_swap_symmetry_witness :
    ((-1 : Int) = -1 ∨ (-1 : Int) = 1) ∧ scenarioOwnRow.fields (0, 2).1 (0, 2).2 = 0
      ∧ countEmpty scenarioOwnRow ≤ 5
      ∧ ∃ v, calculateScore 5 (-1) (-1) (0, 2) scenarioOwnRow 0 = .ok v
          ∧ calculateScore 5 (-(-1)) (-(-1)) (0, 2) scenarioOwnRow.negate 0 = .ok v :=
  ⟨by decide, by decide, by decide,
    calculateScore_swap_symmetry 5 scenarioOwnRow (-1) (0, 2) 0 (by decide) (by decide)
      (by decide)⟩

/-- C9 (as stated) fails: on `[-1,-1,0 / 1,1,0 / 0,0,0]` with `p = -1`, `c = (0,2)`,
`d = 0` both sides of the claimed equation score 100, and `100` is not `-100`. -/
theorem calculateScore_swap_symmetry_counterexample :
    scenarioOwnRow.fields 0 2 = 0
      ∧ calculateScore 5 (-1) (-1) (0, 2) scenarioOwnRow 0 = .ok 100
      ∧ calculateScore 5 (-(-1)) (-(-1)) (0, 2) scenarioOwnRow.negate 0 = .ok 100
      ∧ ¬ ∃ v, calculateScore 5 (-1) (-1) (0, 2) scenarioOwnRow 0 = .ok v
          ∧ calculateScore 5 (-(-1)) (-(-1)) (0, 2) scenarioOwnRow.negate 0 = .ok (-v) := by
  have h1 : calculateScore 5 (-1) (-1) (0, 2) scenarioOwnRow 0 = .ok 100 := by decide
  have h2 : calculateScore 5 (-(-1)) (-(-1)) (0, 2) scenarioOwnRow.negate 0 = .ok 100 := by
    decide
  refine ⟨by decide, h1, h2, ?_⟩
  rintro ⟨v, hv1, hv2⟩
  rw [h1] at hv1
  rw [h2] at hv2
  cases hv1
  cases hv2

/-! ## Positions in play and forced wins -/

theorem move_fields_eq_place (b : Board) (q : Int) (c : Coord) :
    (b.move q c).fields = place b.fields q c := rfl

theorem forcesWin_true_iff (q : Int) (f : Grid) :
    ForcesWin q true f ↔
      ∃ c : Coord, f c.1 c.2 = 0 ∧ (hasLine (place f q c) q ∨ ForcesWin q false (place f q c)) := by
  constructor
  · intro h
    cases h with
    | win _ c h0 hl => exact ⟨c, h0, Or.inl hl⟩
    | step _ c h0 hf => exact ⟨c, h0, Or.inr hf⟩
  · rintro ⟨c, h0, hl | hf⟩
    · exact ForcesWin.win f c h0 hl
    · exact ForcesWin.step f c h0 hf

theorem forcesWin_false_iff (q : Int) (f : Grid) :
    ForcesWin q false f ↔
      (∃ c : Coord, f c.1 c.2 = 0)
        ∧ ∀ c : Coord, f c.1 c.2 = 0 →
            ¬ hasLine (place f (-q) c) (-q) ∧ ForcesWin q true (place f (-q) c) := by
  constructor
  · intro h
    cases h with
    | reply _ he hn hf => exact ⟨he, fun c hc => ⟨hn c hc, hf c hc⟩⟩
  · rintro ⟨he, h⟩
    exact ForcesWin.reply f he (fun c hc => (h c hc).1) (fun c hc => (h c hc).2)

theorem forcesWin_exists_empty (q : Int) (t : Bool) (f : Grid) (h : ForcesWin q t f) :
    ∃ c : Coord, f c.1 c.2 = 0 := by
  cases h with
  | win _ c h0 _ => exact ⟨c, h0⟩
  | step _ c h0 _ => exact ⟨c, h0⟩
  | reply _ he _ _ => exact he

theorem three_cells_sum (x y z q : Int) (hx : x = -1 ∨ x = 0 ∨ x = 1) (hy : y = -1 ∨ y = 0 ∨ y = 1)
    (hz : z = -1 ∨ z = 0 ∨ z = 1) (hq : q = -1 ∨ q = 1) :
    x + y + z = q * 3 ↔ x = q ∧ y = q ∧ z = q := by
  rcases hq with rfl | rfl <;> constructor <;> intro h <;> omega

theorem hasWinningSum_iff_hasLine (b : Board) (q : Int) (hr : cellsInRange b)
    (hs : sumsConsistent b) (hq : q = -1 ∨ q = 1) :
    hasWinningSum b q ↔ hasLine b.fields q := by
  obtain ⟨h1, h2, h3, h4⟩ := hs
  unfold hasWinningSum hasLine
  rw [wrap_player_three q hq]
  simp only [Fin.exists_fin_two, h1, h2, h3, h4, Fin.isValue,
    three_cells_sum _ _ _ q (hr _ _) (hr _ _) (hr _ _) hq]

theorem asses_eq_hundred_iff_hasLine (b : Board) (q : Int) (hr : cellsInRange b)
    (hs : sumsConsistent b) (hq : q = -1 ∨ q = 1) :
    b.asses q = 100 ↔ hasLine b.fields q := by
  rw [asses_eq_hundred_iff, hasWinningSum_iff_hasLine b q hr hs hq]

theorem cellsInRange_move (b : Board) (q : Int) (c : Coord) (hr : cellsInRange b)
    (hq : q = -1 ∨ q = 1) : cellsInRange (b.move q c) := by
  intro i j
  simp only [move_fields]
  split
  · rcases hq with h | h
    · exact Or.inl h
    · exact Or.inr (Or.inr h)
  · exact hr i j

theorem sum3_eq (x y z : Int) : sum3 x y z = wrap (x + y + z) := by
  unfold sum3
  rw [wrap_wrap_add]

theorem sumsMatch_move (b : Board) (q : Int) (c : Coord) (hs : sumsMatch b)
    (hc : b.fields c.1 c.2 = 0) : sumsMatch (b.move q c) := by
  unfold sumsMatch at hs ⊢
  simp only [sum3_eq] at hs ⊢
  obtain ⟨h1, h2, h3, h4⟩ := hs
  rcases c with ⟨r, k⟩
  have r0 := h1 0
  have r1 := h1 1
  have r2 := h1 2
  have c0 := h2 0
  have c1 := h2 1
  have c2 := h2 2
  refine ⟨?_, ?_, ?_, ?_⟩
  · intro i
    rw [move_rowSums]
    simp only [move_fields]
    fin_cases r <;> fin_cases k <;> fin_cases i <;> simp at hc ⊢ <;>
      (unfold wrap at *; omega)
  · intro j
    rw [move_columnSums]
    simp only [move_fields]
    fin_cases r <;> fin_cases k <;> fin_cases j <;> simp at hc ⊢ <;>
      (unfold wrap at *; omega)
  · rw [move_diagonalSums_zero]
    simp only [move_fields]
    fin_cases r <;> fin_cases k <;> simp at hc ⊢ <;> (unfold wrap at *; omega)
  · rw [move_diagonalSums_one]
    simp only [move_fields]
    fin_cases r <;> fin_cases k <;> simp at hc ⊢ <;> (unfold wrap at *; omega)

theorem sum3_small (x y z : Int)
    (hx : -2305843009213693952 ≤ x ∧ x ≤ 2305843009213693952)
    (hy : -2305843009213693952 ≤ y ∧ y ≤ 2305843009213693952)
    (hz : -2305843009213693952 ≤ z ∧ z ≤ 2305843009213693952) :
    sum3 x y z = x + y + z := by
  unfold sum3
  rw [wrap_small (x + y) (by omega) (by omega), wrap_small _ (by omega) (by omega)]

theorem sumsConsistent_of_sumsMatch (b : Board) (hs : sumsMatch b)
    (hb : ∀ i j, -2305843009213693952 ≤ b.fields i j ∧ b.fields i j ≤ 2305843009213693952) :
    sumsConsistent b := by
  obtain ⟨h1, h2, h3, h4⟩ := hs
  refine ⟨?_, ?_, ?_, ?_⟩
  · intro i
    rw [h1, sum3_small _ _ _ (hb _ _) (hb _ _) (hb _ _)]
  · intro j
    rw [h2, sum3_small _ _ _ (hb _ _) (hb _ _) (hb _ _)]
  · rw [h3, sum3_small _ _ _ (hb _ _) (hb _ _) (hb _ _)]
  · rw [h4, sum3_small _ _ _ (hb _ _) (hb _ _) (hb _ _)]

theorem sumsMatch_of_sumsConsistent (b : Board) (hs : sumsConsistent b)
    (hb : ∀ i j, -2305843009213693952 ≤ b.fields i j ∧ b.fields i j ≤ 2305843009213693952) :
    sumsMatch b := by
  obtain ⟨h1, h2, h3, h4⟩ := hs
  refine ⟨?_, ?_, ?_, ?_⟩
  · intro i
    rw [h1, sum3_small _ _ _ (hb _ _) (hb _ _) (hb _ _)]
  · intro j
    rw [h2, sum3_small _ _ _ (hb _ _) (hb _ _) (hb _ _)]
  · rw [h3, sum3_small _ _ _ (hb _ _) (hb _ _) (hb _ _)]
  · rw [h4, sum3_small _ _ _ (hb _ _) (hb _ _) (hb _ _)]

theorem cellsInRange_bounded (b : Board) (hr : cellsInRange b) :
    ∀ i j, -2305843009213693952 ≤ b.fields i j ∧ b.fields i j ≤ 2305843009213693952 := by
  intro i j
  rcases hr i j with h | h | h <;> rw [h] <;> decide

theorem sumsConsistent_move (b : Board) (q : Int) (c : Coord) (hr : cellsInRange b)
    (hq : q = -1 ∨ q = 1) (hs : sumsConsistent b)
    (hc : b.fields c.1 c.2 = 0) : sumsConsistent (b.move q c) :=
  sumsConsistent_of_sumsMatch _
    (sumsMatch_move b q c (sumsMatch_of_sumsConsistent b hs (cellsInRange_bounded b hr)) hc)
    (cellsInRange_bounded _ (cellsInRange_move b q c hr hq))

theorem sumsBounded_of_inRange (b : Board) (hr : cellsInRange b) (hs : sumsConsistent b) :
    sumsBounded b := by
  obtain ⟨h1, h2, h3, h4⟩ := hs
  refine ⟨?_, ?_, ?_⟩
  · intro i
    rw [h1]
    rcases hr i 0 with a | a | a <;> rcases hr i 1 with b | b | b <;>
      rcases hr i 2 with c | c | c <;> rw [a, b, c] <;> decide
  · intro j
    rw [h2]
    rcases hr 0 j with a | a | a <;> rcases hr 1 j with b | b | b <;>
      rcases hr 2 j with c | c | c <;> rw [a, b, c] <;> decide
  · intro k
    have a0 := hr 0 0
    have a1 := hr 1 1
    have a2 := hr 2 2
    have a3 := hr 2 0
    have a4 := hr 0 2
    fin_cases k
    · show _ ≤ b.diagonalSums 0 ∧ b.diagonalSums 0 ≤ _
      rw [h3]
      omega
    · show _ ≤ b.diagonalSums 1 ∧ b.diagonalSums 1 ≤ _
      rw [h4]
      omega
theorem place_eq_of_ne (f : Grid) (q q' : Int) (c : Coord) (i j : Fin 3) (hne : q ≠ q')
    (h : place f q c i j = q') : f i j = q' := by
  unfold place at h
  split at h
  · exact absurd h hne
  · exact h

theorem hasLine_of_place (f : Grid) (q q' : Int) (c : Coord) (hne : q ≠ q')
    (h : hasLine (place f q c) q') : hasLine f q' := by
  unfold hasLine at h ⊢
  rcases h with ⟨i, a, b, d⟩ | ⟨j, a, b, d⟩ | ⟨a, b, d⟩ | ⟨a, b, d⟩
  · exact Or.inl ⟨i, place_eq_of_ne _ _ _ _ _ _ hne a, place_eq_of_ne _ _ _ _ _ _ hne b,
      place_eq_of_ne _ _ _ _ _ _ hne d⟩
  · exact Or.inr (Or.inl ⟨j, place_eq_of_ne _ _ _ _ _ _ hne a, place_eq_of_ne _ _ _ _ _ _ hne b,
      place_eq_of_ne _ _ _ _ _ _ hne d⟩)
  · exact Or.inr (Or.inr (Or.inl ⟨place_eq_of_ne _ _ _ _ _ _ hne a,
      place_eq_of_ne _ _ _ _ _ _ hne b, place_eq_of_ne _ _ _ _ _ _ hne d⟩))
  · exact Or.inr (Or.inr (Or.inr ⟨place_eq_of_ne _ _ _ _ _ _ hne a,
      place_eq_of_ne _ _ _ _ _ _ hne b, place_eq_of_ne _ _ _ _ _ _ hne d⟩))

theorem neg_player (p : Int) (hp : p = -1 ∨ p = 1) : -p = -1 ∨ -p = 1 := by
  rcases hp with h | h <;> omega

theorem player_ne_neg (p : Int) (hp : p = -1 ∨ p = 1) : p ≠ -p := by
  rcases hp with h | h <;> omega

theorem no_empty_of_nil (b : Board) (h : findAvailableCoordinates b = []) :
    ¬ ∃ c : Coord, b.fields c.1 c.2 = 0 := by
  rintro ⟨c, hc⟩
  have := (mem_findAvailableCoordinates b c).2 hc
  rw [h] at this
  cases this

theorem countEmpty_pos (b : Board) (c : Coord) (hc : b.fields c.1 c.2 = 0) : 0 < countEmpty b := by
  unfold countEmpty
  exact List.length_pos_of_mem ((mem_findAvailableCoordinates b c).2 hc)

theorem inPlay_noLine (b : Board) (h : inPlay b) (q : Int) (hq : q = -1 ∨ q = 1) :
    ¬ hasLine b.fields q := by
  rcases hq with rfl | rfl
  · exact h.2.2.2
  · exact h.2.2.1

theorem inPlay_move (b : Board) (q : Int) (c : Coord) (h : inPlay b) (hq : q = -1 ∨ q = 1)
    (hc : b.fields c.1 c.2 = 0) (hl : ¬ hasLine (place b.fields q c) q) :
    inPlay (b.move q c) := by
  have hother : ¬ hasLine (place b.fields q c) (-q) := fun hh =>
    inPlay_noLine b h (-q) (neg_player q hq) (hasLine_of_place _ _ _ _ (player_ne_neg q hq) hh)
  refine ⟨cellsInRange_move b q c h.1 hq, sumsConsistent_move b q c h.1 hq h.2.1 hc, ?_, ?_⟩
  · rw [move_fields_eq_place]
    rcases hq with rfl | rfl
    · exact hother
    · exact hl
  · rw [move_fields_eq_place]
    rcases hq with rfl | rfl
    · exact hl
    · exact hother

theorem exists_empty_of_ne_nil (b : Board) (h : findAvailableCoordinates b ≠ []) :
    ∃ c : Coord, b.fields c.1 c.2 = 0 := by
  obtain ⟨c, hc⟩ := List.exists_mem_of_ne_nil _ h
  exact ⟨c, (mem_findAvailableCoordinates _ _).1 hc⟩

/-- The sign of every search value is the game-theoretic one. -/
theorem score_sign (fuel : Nat) :
    ∀ (p cur : Int) (c : Coord) (b : Board) (d v : Int),
      (p = -1 ∨ p = 1) → (cur = p ∨ cur = -p) → inPlay b → b.fields c.1 c.2 = 0 →
      0 ≤ d → d + countEmpty b ≤ 100 →
      calculateScore fuel p cur c b d = .ok v →
      signSpec p cur (place b.fields cur c) v := by
  induction fuel with
  | zero => intro _ _ _ _ _ _ _ _ _ _ _ _ h; cases h
  | succ n ih =>
    intro p cur c b d v hp hcur hin hc hd hdn hv
    have hcurpm : cur = -1 ∨ cur = 1 := by
      rcases hcur with h | h
      · rw [h]; exact hp
      · rw [h]; exact neg_player p hp
    have hcur0 := player_ne_zero cur hcurpm
    have hpos := countEmpty_pos b c hc
    have hr' := cellsInRange_move b cur c hin.1 hcurpm
    have hs' := sumsConsistent_move b cur c hin.1 hcurpm hin.2.1 hc
    have hass := asses_eq_hundred_iff_hasLine (b.move cur c) cur hr' hs' hcurpm
    rw [move_fields_eq_place] at hass
    have hpne := player_ne_neg p hp
    by_cases hline : hasLine (place b.fields cur c) cur
    · have hw : (b.move cur c).asses cur ≠ 0 := by rw [hass.2 hline]; norm_num
      rw [calculateScore_win_play _ _ _ _ _ _ hcurpm hd (by omega) hw] at hv
      refine ⟨fun hcp => ?_, fun hcp => ?_⟩
      · subst hcp
        rw [if_pos rfl] at hv
        cases hv
        exact ⟨⟨fun _ => Or.inl hline, fun _ => by omega⟩,
          ⟨fun h => by omega, fun h => absurd hline h.1⟩⟩
      · subst hcp
        rw [if_neg hpne] at hv
        cases hv
        exact ⟨⟨fun h => by omega, fun h => absurd hline h.1⟩,
          ⟨fun _ => Or.inl hline, fun _ => by omega⟩⟩
    · have hw0 : (b.move cur c).asses cur = 0 := by
        rcases asses_eq_zero_or (b.move cur c) cur with h | h
        · exact absurd (hass.1 h) hline
        · exact h
      by_cases hfull : findAvailableCoordinates (b.move cur c) = []
      · rw [calculateScore_full _ _ _ _ _ _ hw0 hfull] at hv
        cases hv
        have hnone := no_empty_of_nil _ hfull
        have hnf : ∀ (q : Int) (t : Bool), ¬ ForcesWin q t (place b.fields cur c) :=
          fun q t h => hnone (forcesWin_exists_empty q t _ h)
        refine ⟨fun hcp => ?_, fun hcp => ?_⟩
        · subst hcp
          exact ⟨⟨fun h => by omega, fun h => h.elim (fun h1 => absurd h1 hline)
            (fun h2 => absurd h2 (hnf _ _))⟩,
            ⟨fun h => by omega, fun h => absurd h.2 (hnf _ _)⟩⟩
        · subst hcp
          exact ⟨⟨fun h => by omega, fun h => absurd h.2 (hnf _ _)⟩,
            ⟨fun h => by omega, fun h => h.elim (fun h1 => absurd h1 hline)
              (fun h2 => absurd h2 (hnf _ _))⟩⟩
      · have hin' : inPlay (b.move cur c) := inPlay_move b cur c hin hcurpm hc hline
        have hex : ∃ c' : Coord, (place b.fields cur c) c'.1 c'.2 = 0 :=
          exists_empty_of_ne_nil _ hfull
        have hlt := countEmpty_move_lt b cur c hcur0 hc
        have hcur' : (-1) * cur = p ∨ (-1) * cur = -p := by
          rcases hcur with h | h
          · right; rw [h]; ring
          · left; rw [h]; ring
        cases hcol : collect
            (fun c' => calculateScore n p ((-1) * cur) c' (b.move cur c) (d + 1))
            (findAvailableCoordinates (b.move cur c)) with
        | error e =>
          rw [calculateScore_rec_error_play _ _ _ _ _ _ _ hcurpm hd (by omega) hw0 hfull hcol] at hv
          cases hv
        | ok scores =>
          rw [calculateScore_rec_ok_play _ _ _ _ _ _ _ hcurpm hd (by omega) hw0 hfull hcol] at hv
          have hf2 := (collect_ok_iff _ _ _).1 hcol
          have hchild : ∀ c' : Coord, (place b.fields cur c) c'.1 c'.2 = 0 →
              ∃ s ∈ scores,
                signSpec p ((-1) * cur) (place (place b.fields cur c) ((-1) * cur) c') s := by
            intro c' hc'
            have hmem := (mem_findAvailableCoordinates (b.move cur c) c').2 hc'
            obtain ⟨s, hs, hcs⟩ := forall₂_exists_right hf2 hmem
            exact ⟨s, hs, ih p ((-1) * cur) c' (b.move cur c) (d + 1) s hp hcur' hin' hc'
              (by omega) (by omega) hcs⟩
          have hscore : ∀ s ∈ scores, ∃ c' : Coord, (place b.fields cur c) c'.1 c'.2 = 0
              ∧ signSpec p ((-1) * cur) (place (place b.fields cur c) ((-1) * cur) c') s := by
            intro s hs
            obtain ⟨c', hmem, hcs⟩ := forall₂_exists_left hf2 hs
            have hc' := (mem_findAvailableCoordinates (b.move cur c) c').1 hmem
            exact ⟨c', hc', ih p ((-1) * cur) c' (b.move cur c) (d + 1) s hp hcur' hin' hc'
              (by omega) (by omega) hcs⟩
          refine ⟨fun hcp => ?_, fun hcp => ?_⟩
          · subst hcp
            rw [if_pos rfl] at hv
            obtain ⟨hvmem, hvle⟩ := (min_ok_iff _ _).1 hv
            have hneg : (-1) * cur = -cur := by ring
            simp only [hneg] at hchild hscore
            refine ⟨⟨fun hv0 => Or.inr ?_, ?_⟩, ⟨fun hv0 => ?_, ?_⟩⟩
            · rw [forcesWin_false_iff]
              refine ⟨hex, fun c' hc' => ?_⟩
              obtain ⟨s, hs, hspec⟩ := hchild c' hc'
              exact (hspec.2 rfl).1.1 (lt_of_lt_of_le hv0 (hvle s hs))
            · rintro (h | h)
              · exact absurd h hline
              · obtain ⟨c', hc', hspec⟩ := hscore v hvmem
                rw [forcesWin_false_iff] at h
                exact (hspec.2 rfl).1.2 (h.2 c' hc')
            · obtain ⟨c', hc', hspec⟩ := hscore v hvmem
              refine ⟨hline, ?_⟩
              rw [forcesWin_true_iff]
              exact ⟨c', hc', (hspec.2 rfl).2.1 hv0⟩
            · rintro ⟨_, h⟩
              rw [forcesWin_true_iff] at h
              obtain ⟨c', hc', hw⟩ := h
              obtain ⟨s, hs, hspec⟩ := hchild c' hc'
              have h1 := (hspec.2 rfl).2.2 hw
              have h2 := hvle s hs
              omega
          · subst hcp
            rw [if_neg hpne] at hv
            obtain ⟨hvmem, hvle⟩ := (max_ok_iff _ _).1 hv
            have hneg : (-1) * -p = p := by ring
            simp only [hneg] at hchild hscore
            refine ⟨⟨fun hv0 => ?_, ?_⟩, ⟨fun hv0 => Or.inr ?_, ?_⟩⟩
            · obtain ⟨c', hc', hspec⟩ := hscore v hvmem
              refine ⟨hline, ?_⟩
              rw [forcesWin_true_iff]
              exact ⟨c', hc', (hspec.1 rfl).1.1 hv0⟩
            · rintro ⟨_, h⟩
              rw [forcesWin_true_iff] at h
              obtain ⟨c', hc', hw⟩ := h
              obtain ⟨s, hs, hspec⟩ := hchild c' hc'
              have h1 := (hspec.1 rfl).1.2 hw
              have h2 := hvle s hs
              omega
            · rw [forcesWin_false_iff]
              refine ⟨hex, fun c' hc' => ?_⟩
              obtain ⟨s, hs, hspec⟩ := hchild c' hc'
              rw [neg_neg]
              exact (hspec.1 rfl).2.1 (lt_of_le_of_lt (hvle s hs) hv0)
            · rintro (h | h)
              · exact absurd h hline
              · obtain ⟨c', hc', hspec⟩ := hscore v hvmem
                rw [forcesWin_false_iff] at h
                have h2 := h.2 c' hc'
                rw [neg_neg] at h2
                exact (hspec.1 rfl).2.2 h2

/-- C2: on a position with cells in `{-1, 0, 1}`, consistent sums, no completed line and
an empty cell, for the root player `p` in `{-1, 1}` about to move, the printed score is the
maximum `M` of `calculateScore(p, p, c, board, 0)` over the empty cells, and `M` is
positive exactly when `p` can force a win, negative exactly when the opponent `-p` can
force a win, and zero exactly when neither can. -/
theorem selector_score_sign (fuel : Nat) (board : Board) (p : Int)
    (hp : p = -1 ∨ p = 1) (hr : cellsInRange board) (hs : sumsConsistent board)
    (hl1 : ¬ hasLine board.fields 1) (hl2 : ¬ hasLine board.fields (-1))
    (hne : ∃ c : Coord, board.fields c.1 c.2 = 0) (hfuel : countEmpty board ≤ fuel) :
    ∃ M : Int,
      (∃ c : Coord, board.fields c.1 c.2 = 0 ∧ calculateScore fuel p p c board 0 = .ok M)
        ∧ (∀ c : Coord, board.fields c.1 c.2 = 0 →
            ∃ v, calculateScore fuel p p c board 0 = .ok v ∧ v ≤ M)
        ∧ (∀ rnd, ∃ m, selectMove fuel p board rnd = .ok m ∧ m.score = M)
        ∧ (0 < M ↔ ForcesWin p true board.fields)
        ∧ (M < 0 ↔ ForcesWin (-p) false board.fields)
        ∧ (M = 0 ↔ (¬ ForcesWin p true board.fields ∧ ¬ ForcesWin (-p) false board.fields)) := by
  have hp0 := player_ne_zero p hp
  have hin : inPlay board := ⟨hr, hs, hl1, hl2⟩
  obtain ⟨best, hb, hbne, _, hprop⟩ := bestMovesOf_spec fuel p board hp0 (isInt_player p hp)
    hfuel (findAvailableCoordinates_ne_nil board hne)
  have hbne := hbne (sumsBounded_of_inRange board hr hs) (player_bounded p hp)
  obtain ⟨m, hm, _⟩ := selectMove_of_best fuel p board best hb hbne 0
  obtain ⟨hm1, hm2, hm3⟩ := hprop m hm
  have hm0 := (mem_findAvailableCoordinates _ _).1 hm1
  have hmax : ∀ c : Coord, board.fields c.1 c.2 = 0 →
      ∃ v, calculateScore fuel p p c board 0 = .ok v ∧ v ≤ m.score :=
    fun c hc => hm3 c ((mem_findAvailableCoordinates _ _).2 hc)
  have h9 := countEmpty_le_nine board
  have hsign : ∀ (c : Coord) (v : Int), board.fields c.1 c.2 = 0 →
      calculateScore fuel p p c board 0 = .ok v →
      (0 < v ↔ (hasLine (place board.fields p c) p ∨ ForcesWin p false (place board.fields p c)))
        ∧ (v < 0 ↔ (¬ hasLine (place board.fields p c) p
            ∧ ForcesWin (-p) true (place board.fields p c))) :=
    fun c v hc hv => (score_sign fuel p p c board 0 v hp (Or.inl rfl) hin hc (le_refl _)
      (by omega) hv).1 rfl
  have hpos : 0 < m.score ↔ ForcesWin p true board.fields := by
    rw [forcesWin_true_iff]
    constructor
    · intro h
      exact ⟨m.coordinates, hm0, (hsign _ _ hm0 hm2).1.1 h⟩
    · rintro ⟨c, hc, hw⟩
      obtain ⟨v, hv, hle⟩ := hmax c hc
      have := (hsign c v hc hv).1.2 hw
      omega
  have hneg : m.score < 0 ↔ ForcesWin (-p) false board.fields := by
    rw [forcesWin_false_iff]
    simp only [neg_neg]
    constructor
    · intro h
      refine ⟨hne, fun c hc => ?_⟩
      obtain ⟨v, hv, hle⟩ := hmax c hc
      exact (hsign c v hc hv).2.1 (by omega)
    · rintro ⟨_, h⟩
      exact (hsign _ _ hm0 hm2).2.2 (h m.coordinates hm0)
  refine ⟨m.score, ⟨m.coordinates, hm0, hm2⟩, hmax, ?_, hpos, hneg, ?_⟩
  · intro rnd
    obtain ⟨m', hm', hsel⟩ := selectMove_of_best fuel p board best hb hbne rnd
    refine ⟨m', hsel, ?_⟩
    obtain ⟨hm1', hm2', hm3'⟩ := hprop m' hm'
    obtain ⟨v, hv, hle⟩ := hm3' m.coordinates hm1
    obtain ⟨v', hv', hle'⟩ := hm3 m'.coordinates hm1'
    rw [hm2] at hv
    rw [hm2'] at hv'
    cases hv
    cases hv'
    omega
  · rw [← hpos, ← hneg]
    omega

theorem selector_score_sign_witness :
    ((-1 : Int) = -1 ∨ (-1 : Int) = 1) ∧ cellsInRange scenarioOwnRow
      ∧ sumsConsistent scenarioOwnRow ∧ ¬ hasLine scenarioOwnRow.fields 1
      ∧ ¬ hasLine scenarioOwnRow.fields (-1)
      ∧ (∃ c : Coord, scenarioOwnRow.fields c.1 c.2 = 0) ∧ countEmpty scenarioOwnRow ≤ 5
      ∧ ∃ M : Int,
        (∃ c : Coord, scenarioOwnRow.fields c.1 c.2 = 0
            ∧ calculateScore 5 (-1) (-1) c scenarioOwnRow 0 = .ok M)
          ∧ (∀ c : Coord, scenarioOwnRow.fields c.1 c.2 = 0 →
              ∃ v, calculateScore 5 (-1) (-1) c scenarioOwnRow 0 = .ok v ∧ v ≤ M)
          ∧ (∀ rnd, ∃ m, selectMove 5 (-1) scenarioOwnRow rnd = .ok m ∧ m.score = M)
          ∧ (0 < M ↔ ForcesWin (-1) true scenarioOwnRow.fields)
          ∧ (M < 0 ↔ ForcesWin (-(-1)) false scenarioOwnRow.fields)
          ∧ (M = 0 ↔ (¬ ForcesWin (-1) true scenarioOwnRow.fields
              ∧ ¬ ForcesWin (-(-1)) false scenarioOwnRow.fields)) :=
  ⟨by decide, by decide, by decide, by decide, by decide, ⟨(0, 2), by decide⟩, by decide,
    selector_score_sign 5 scenarioOwnRow (-1) (by decide) (by decide) (by decide) (by decide)
      (by decide) ⟨(0, 2), by decide⟩ (by decide)⟩

/-! ## Soundness of the certificate checker and the empty board -/

theorem forceNat_eq {α : Type} (t : Nat) (f : Nat → α) : forceNat t f = f t := by
  cases t <;> rfl

theorem forceBool_eq {α : Type} (t : Bool) (f : Bool → α) : forceBool t f = f t := by
  cases t <;> rfl

theorem cellIndex_mem_cellOrder (c : Coord) : cellIndex c ∈ cellOrder := by
  revert c
  decide

theorem exists_coord_of_mem_cellOrder (k : Nat) (h : k ∈ cellOrder) :
    ∃ c : Coord, cellIndex c = k := by
  simp only [cellOrder, List.mem_cons, List.mem_singleton, List.not_mem_nil, or_false] at h
  rcases h with rfl | rfl | rfl | rfl | rfl | rfl | rfl | rfl | rfl
  · exact ⟨(1, 1), rfl⟩
  · exact ⟨(0, 0), rfl⟩
  · exact ⟨(0, 2), rfl⟩
  · exact ⟨(2, 0), rfl⟩
  · exact ⟨(2, 2), rfl⟩
  · exact ⟨(0, 1), rfl⟩
  · exact ⟨(1, 0), rfl⟩
  · exact ⟨(1, 2), rfl⟩
  · exact ⟨(2, 1), rfl⟩

theorem cellIndex_injective (c c' : Coord) (h : cellIndex c = cellIndex c') : c = c' := by
  revert c c'
  decide

theorem testBit_or_two_pow (x k j : Nat) :
    (x ||| 2 ^ k).testBit j = (x.testBit j || decide (k = j)) := by
  rw [Nat.testBit_or, Nat.testBit_two_pow]

theorem and_mask_eq_iff (marks a b c : Nat) :
    marks &&& (2 ^ a ||| 2 ^ b ||| 2 ^ c) = (2 ^ a ||| 2 ^ b ||| 2 ^ c)
      ↔ (marks.testBit a = true ∧ marks.testBit b = true ∧ marks.testBit c = true) := by
  constructor
  · intro h
    have ha := congrArg (fun n => n.testBit a) h
    have hb := congrArg (fun n => n.testBit b) h
    have hc := congrArg (fun n => n.testBit c) h
    simp only [Nat.testBit_and, Nat.testBit_or, Nat.testBit_two_pow] at ha hb hc
    simp at ha hb hc
    exact ⟨ha, hb, hc⟩
  · rintro ⟨ha, hb, hc⟩
    apply Nat.eq_of_testBit_eq
    intro i
    simp only [Nat.testBit_and, Nat.testBit_or, Nat.testBit_two_pow]
    by_cases h1 : a = i <;> by_cases h2 : b = i <;> by_cases h3 : c = i <;> simp_all

theorem hasLineBits_iff (marks : Nat) :
    hasLineBits marks = true ↔
      ((marks.testBit 0 = true ∧ marks.testBit 1 = true ∧ marks.testBit 2 = true)
        ∨ (marks.testBit 3 = true ∧ marks.testBit 4 = true ∧ marks.testBit 5 = true)
        ∨ (marks.testBit 6 = true ∧ marks.testBit 7 = true ∧ marks.testBit 8 = true)
        ∨ (marks.testBit 0 = true ∧ marks.testBit 3 = true ∧ marks.testBit 6 = true)
        ∨ (marks.testBit 1 = true ∧ marks.testBit 4 = true ∧ marks.testBit 7 = true)
        ∨ (marks.testBit 2 = true ∧ marks.testBit 5 = true ∧ marks.testBit 8 = true)
        ∨ (marks.testBit 0 = true ∧ marks.testBit 4 = true ∧ marks.testBit 8 = true)
        ∨ (marks.testBit 2 = true ∧ marks.testBit 4 = true ∧ marks.testBit 6 = true)) := by
  have h1 : marks &&& 7 = 7
      ↔ (marks.testBit 0 = true ∧ marks.testBit 1 = true ∧ marks.testBit 2 = true) := by
    have e : (7 : Nat) = 2 ^ 0 ||| 2 ^ 1 ||| 2 ^ 2 := by decide
    rw [e]
    exact and_mask_eq_iff marks 0 1 2
  have h2 : marks &&& 56 = 56
      ↔ (marks.testBit 3 = true ∧ marks.testBit 4 = true ∧ marks.testBit 5 = true) := by
    have e : (56 : Nat) = 2 ^ 3 ||| 2 ^ 4 ||| 2 ^ 5 := by decide
    rw [e]
    exact and_mask_eq_iff marks 3 4 5
  have h3 : marks &&& 448 = 448
      ↔ (marks.testBit 6 = true ∧ marks.testBit 7 = true ∧ marks.testBit 8 = true) := by
    have e : (448 : Nat) = 2 ^ 6 ||| 2 ^ 7 ||| 2 ^ 8 := by decide
    rw [e]
    exact and_mask_eq_iff marks 6 7 8
  have h4 : marks &&& 73 = 73
      ↔ (marks.testBit 0 = true ∧ marks.testBit 3 = true ∧ marks.testBit 6 = true) := by
    have e : (73 : Nat) = 2 ^ 0 ||| 2 ^ 3 ||| 2 ^ 6 := by decide
    rw [e]
    exact and_mask_eq_iff marks 0 3 6
  have h5 : marks &&& 146 = 146
      ↔ (marks.testBit 1 = true ∧ marks.testBit 4 = true ∧ marks.testBit 7 = true) := by
    have e : (146 : Nat) = 2 ^ 1 ||| 2 ^ 4 ||| 2 ^ 7 := by decide
    rw [e]
    exact and_mask_eq_iff marks 1 4 7
  have h6 : marks &&& 292 = 292
      ↔ (marks.testBit 2 = true ∧ marks.testBit 5 = true ∧ marks.testBit 8 = true) := by
    have e : (292 : Nat) = 2 ^ 2 ||| 2 ^ 5 ||| 2 ^ 8 := by decide
    rw [e]
    exact and_mask_eq_iff marks 2 5 8
  have h7 : marks &&& 273 = 273
      ↔ (marks.testBit 0 = true ∧ marks.testBit 4 = true ∧ marks.testBit 8 = true) := by
    have e : (273 : Nat) = 2 ^ 0 ||| 2 ^ 4 ||| 2 ^ 8 := by decide
    rw [e]
    exact and_mask_eq_iff marks 0 4 8
  have h8 : marks &&& 84 = 84
      ↔ (marks.testBit 2 = true ∧ marks.testBit 4 = true ∧ marks.testBit 6 = true) := by
    have e : (84 : Nat) = 2 ^ 2 ||| 2 ^ 4 ||| 2 ^ 6 := by decide
    rw [e]
    exact and_mask_eq_iff marks 2 4 6
  unfold hasLineBits lineMasks
  simp only [List.any_cons, List.any_nil, Bool.or_false, Bool.or_eq_true, beq_iff_eq,
    h1, h2, h3, h4, h5, h6, h7, h8]

theorem hasLine_iff_bits (f : Grid) (q : Int) (marks : Nat)
    (h : ∀ c : Coord, marks.testBit (cellIndex c) = true ↔ f c.1 c.2 = q) :
    hasLineBits marks = true ↔ hasLine f q := by
  rw [hasLineBits_iff]
  unfold hasLine
  have e00 := h (0, 0)
  have e01 := h (0, 1)
  have e02 := h (0, 2)
  have e10 := h (1, 0)
  have e11 := h (1, 1)
  have e12 := h (1, 2)
  have e20 := h (2, 0)
  have e21 := h (2, 1)
  have e22 := h (2, 2)
  simp only [cellIndex, Fin.val_zero, Fin.val_one, Fin.val_two, Nat.mul_zero, Nat.mul_one,
    Nat.zero_add, Nat.add_zero, Nat.reduceMul, Nat.reduceAdd, Fin.isValue] at e00 e01 e02 e10 e11 e12 e20 e21 e22
  rw [e00, e01, e02, e10, e11, e12, e20, e21, e22]
  constructor
  · rintro (h | h | h | h | h | h | h | h)
    · exact Or.inl ⟨0, h⟩
    · exact Or.inl ⟨1, h⟩
    · exact Or.inl ⟨2, h⟩
    · exact Or.inr (Or.inl ⟨0, h⟩)
    · exact Or.inr (Or.inl ⟨1, h⟩)
    · exact Or.inr (Or.inl ⟨2, h⟩)
    · exact Or.inr (Or.inr (Or.inl h))
    · exact Or.inr (Or.inr (Or.inr ⟨h.2.2, h.2.1, h.1⟩))
  · rintro (⟨i, h⟩ | ⟨j, h⟩ | h | h)
    · fin_cases i
      · exact Or.inl h
      · exact Or.inr (Or.inl h)
      · exact Or.inr (Or.inr (Or.inl h))
    · fin_cases j
      · exact Or.inr (Or.inr (Or.inr (Or.inl h)))
      · exact Or.inr (Or.inr (Or.inr (Or.inr (Or.inl h))))
      · exact Or.inr (Or.inr (Or.inr (Or.inr (Or.inr (Or.inl h)))))
    · exact Or.inr (Or.inr (Or.inr (Or.inr (Or.inr (Or.inr (Or.inl h))))))
    · exact Or.inr (Or.inr (Or.inr (Or.inr (Or.inr (Or.inr (Or.inr ⟨h.2.2, h.2.1, h.1⟩))))))

theorem rep_newBoard : Rep newBoard 0 0 := by
  refine ⟨by decide, by decide, ?_, ?_⟩ <;> intro c <;> simp [newBoard]

theorem rep_empty_iff (b : Board) (x o : Nat) (h : Rep b x o) (c : Coord) :
    (x ||| o).testBit (cellIndex c) = false ↔ b.fields c.1 c.2 = 0 := by
  obtain ⟨hr, _, hx, ho⟩ := h
  rw [Nat.testBit_or]
  have h1 := hx c
  have h2 := ho c
  have h3 := hr c.1 c.2
  cases hxb : x.testBit (cellIndex c) <;> cases hob : o.testBit (cellIndex c) <;>
    simp only [hxb, hob, Bool.or_false, Bool.or_true, Bool.false_eq_true, false_iff, true_iff,
      Bool.true_eq_false, Bool.or_self] at h1 h2 ⊢ <;> omega

theorem rep_move (b : Board) (x o : Nat) (h : Rep b x o) (cur : Int) (c : Coord) (xMoves : Bool)
    (hcur : cur = -1 ∨ cur = 1) (hx : xMoves = true ↔ cur = -1) (hc : b.fields c.1 c.2 = 0) :
    Rep (b.move cur c) (if xMoves then x ||| 2 ^ cellIndex c else x)
      (if xMoves then o else o ||| 2 ^ cellIndex c) := by
  obtain ⟨hr, hs, hxb, hob⟩ := h
  refine ⟨cellsInRange_move b cur c hr hcur, sumsConsistent_move b cur c hr hcur hs hc, ?_, ?_⟩
  · intro c'
    have hinj : cellIndex c = cellIndex c' ↔ c' = c :=
      ⟨fun e => (cellIndex_injective _ _ e).symm, fun e => by rw [e]⟩
    have hcc : (c'.1 = c.1 ∧ c'.2 = c.2) ↔ c' = c := by
      rcases c with ⟨a, b⟩; rcases c' with ⟨a', b'⟩; simp
    simp only [move_fields, hcc]
    by_cases hcase : c' = c
    · subst hcase
      rcases hcur with rfl | rfl
      · have : xMoves = true := hx.2 rfl
        simp [this, testBit_or_two_pow]
      · have : xMoves = false := by
          cases xMoves
          · rfl
          · have := hx.1 rfl; omega
        have hb := hxb c'
        rw [hc] at hb
        simp only [this, Bool.false_eq_true, if_false, if_true]
        simpa using hb
    · simp only [if_neg hcase]
      cases xMoves
      · simpa using hxb c'
      · simp only [if_true, testBit_or_two_pow, hinj, hcase, decide_False, Bool.or_false]
        exact hxb c'
  · intro c'
    have hinj : cellIndex c = cellIndex c' ↔ c' = c :=
      ⟨fun e => (cellIndex_injective _ _ e).symm, fun e => by rw [e]⟩
    have hcc : (c'.1 = c.1 ∧ c'.2 = c.2) ↔ c' = c := by
      rcases c with ⟨a, b⟩; rcases c' with ⟨a', b'⟩; simp
    simp only [move_fields, hcc]
    by_cases hcase : c' = c
    · subst hcase
      rcases hcur with rfl | rfl
      · have : xMoves = true := hx.2 rfl
        have hb := hob c'
        rw [hc] at hb
        simp only [this, if_true]
        simpa using hb
      · have : xMoves = false := by
          cases xMoves
          · rfl
          · have := hx.1 rfl; omega
        simp [this, testBit_or_two_pow]
    · simp only [if_neg hcase]
      cases xMoves
      · simp only [Bool.false_eq_true, if_false, testBit_or_two_pow, hinj, hcase, decide_False,
          Bool.or_false]
        exact hob c'
      · simpa using hob c'

theorem rep_asses (b : Board) (x o : Nat) (h : Rep b x o) (cur : Int) (xMoves : Bool)
    (hcur : cur = -1 ∨ cur = 1) (hx : xMoves = true ↔ cur = -1) :
    hasLineBits (if xMoves then x else o) = true ↔ b.asses cur ≠ 0 := by
  obtain ⟨hr, hs, hxb, hob⟩ := h
  rw [asses_ne_zero_iff, asses_eq_hundred_iff_hasLine b cur hr hs hcur]
  rcases hcur with rfl | rfl
  · rw [hx.2 rfl, if_pos rfl]
    exact hasLine_iff_bits b.fields (-1) x hxb
  · have : xMoves = false := by
      cases xMoves
      · rfl
      · have := hx.1 rfl; omega
    rw [this]
    exact hasLine_iff_bits b.fields 1 o hob

theorem rep_full_iff (b : Board) (x o : Nat) (h : Rep b x o) :
    cellOrder.all (fun k => (x ||| o).testBit k) = true ↔ findAvailableCoordinates b = [] := by
  rw [List.all_eq_true, List.eq_nil_iff_forall_not_mem]
  constructor
  · intro hall c hc
    have h1 := hall _ (cellIndex_mem_cellOrder c)
    have h2 := (rep_empty_iff b x o h c).2 ((mem_findAvailableCoordinates b c).1 hc)
    rw [h1] at h2
    cases h2
  · intro hnone k hk
    obtain ⟨c, rfl⟩ := exists_coord_of_mem_cellOrder k hk
    cases hb : (x ||| o).testBit (cellIndex c)
    · exact absurd ((mem_findAvailableCoordinates b c).2 ((rep_empty_iff b x o h c).1 hb)) (hnone c)
    · rfl

theorem flags_next (p cur : Int) (rootMoves xMoves : Bool) (hcur : cur = -1 ∨ cur = 1)
    (hp : p = cur ∨ p = -cur) (hroot : rootMoves = true ↔ p = cur)
    (hx : xMoves = true ↔ cur = -1) :
    ((-1) * cur = -1 ∨ (-1) * cur = 1) ∧ (p = (-1) * cur ∨ p = -((-1) * cur))
      ∧ ((!rootMoves) = true ↔ p = (-1) * cur) ∧ ((!xMoves) = true ↔ (-1) * cur = -1) := by
  refine ⟨by omega, by omega, ?_, ?_⟩
  · cases rootMoves
    · simp only [Bool.not_false, true_iff]
      have : ¬ p = cur := fun h => by simpa using hroot.2 h
      omega
    · simp only [Bool.not_true, Bool.false_eq_true, false_iff]
      have := hroot.1 rfl
      omega
  · cases xMoves
    · simp only [Bool.not_false, true_iff]
      have : ¬ cur = -1 := fun h => by simpa using hx.2 h
      omega
    · simp only [Bool.not_true, Bool.false_eq_true, false_iff]
      have := hx.1 rfl
      omega

theorem fastGe_succ (n : Nat) (rootMoves xMoves : Bool) (k x o : Nat) :
    fastGe (n + 1) rootMoves xMoves k x o
      = if hasLineBits (if xMoves then (if xMoves then x ||| 2 ^ k else x)
            else (if xMoves then o else o ||| 2 ^ k)) = true then rootMoves
        else if cellOrder.all (fun k' => ((if xMoves then x ||| 2 ^ k else x)
            ||| (if xMoves then o else o ||| 2 ^ k)).testBit k') = true then true
        else if rootMoves = true then
          cellOrder.all (fun k' => ((if xMoves then x ||| 2 ^ k else x)
              ||| (if xMoves then o else o ||| 2 ^ k)).testBit k'
            || fastGe n (!rootMoves) (!xMoves) k' (if xMoves then x ||| 2 ^ k else x)
                (if xMoves then o else o ||| 2 ^ k))
        else
          cellOrder.any (fun k' => !((if xMoves then x ||| 2 ^ k else x)
              ||| (if xMoves then o else o ||| 2 ^ k)).testBit k'
            && fastGe n (!rootMoves) (!xMoves) k' (if xMoves then x ||| 2 ^ k else x)
                (if xMoves then o else o ||| 2 ^ k)) := by
  simp only [fastGe, forceNat_eq, forceBool_eq]

theorem fastLe_succ (n : Nat) (rootMoves xMoves : Bool) (k x o : Nat) :
    fastLe (n + 1) rootMoves xMoves k x o
      = if hasLineBits (if xMoves then (if xMoves then x ||| 2 ^ k else x)
            else (if xMoves then o else o ||| 2 ^ k)) = true then !rootMoves
        else if cellOrder.all (fun k' => ((if xMoves then x ||| 2 ^ k else x)
            ||| (if xMoves then o else o ||| 2 ^ k)).testBit k') = true then true
        else if rootMoves = true then
          cellOrder.any (fun k' => !((if xMoves then x ||| 2 ^ k else x)
              ||| (if xMoves then o else o ||| 2 ^ k)).testBit k'
            && fastLe n (!rootMoves) (!xMoves) k' (if xMoves then x ||| 2 ^ k else x)
                (if xMoves then o else o ||| 2 ^ k))
        else
          cellOrder.all (fun k' => ((if xMoves then x ||| 2 ^ k else x)
              ||| (if xMoves then o else o ||| 2 ^ k)).testBit k'
            || fastLe n (!rootMoves) (!xMoves) k' (if xMoves then x ||| 2 ^ k else x)
                (if xMoves then o else o ||| 2 ^ k)) := by
  simp only [fastLe, forceNat_eq, forceBool_eq]

/-- A successful `fastGe` check bounds the search value from below by `0`. -/
theorem fastGe_sound (fuel : Nat) :
    ∀ (p cur : Int) (c : Coord) (b : Board) (d v : Int) (rootMoves xMoves : Bool) (x o : Nat),
      Rep b x o → (cur = -1 ∨ cur = 1) → (p = cur ∨ p = -cur) →
      (rootMoves = true ↔ p = cur) → (xMoves = true ↔ cur = -1) →
      b.fields c.1 c.2 = 0 → 0 ≤ d → d + fuel ≤ 101 →
      fastGe fuel rootMoves xMoves (cellIndex c) x o = true →
      calculateScore fuel p cur c b d = .ok v → 0 ≤ v := by
  induction fuel with
  | zero => intro _ _ _ _ _ _ _ _ _ _ _ _ _ _ _ _ _ _ _ h; cases h
  | succ n ih =>
    intro p cur c b d v rootMoves xMoves x o hrep hcur hp hroot hx hc hd hdf hfast hv
    have hrep' := rep_move b x o hrep cur c xMoves hcur hx hc
    have hass := rep_asses _ _ _ hrep' cur xMoves hcur hx
    have hfullb := rep_full_iff _ _ _ hrep'
    obtain ⟨hcur', hp', hroot', hx'⟩ := flags_next p cur rootMoves xMoves hcur hp hroot hx
    rw [fastGe_succ] at hfast
    by_cases hw : (b.move cur c).asses cur ≠ 0
    · rw [if_pos (hass.2 hw)] at hfast
      rw [calculateScore_win_play _ _ _ _ _ _ hcur hd (by omega) hw, if_pos (hroot.1 hfast)] at hv
      cases hv
      push_cast at hdf
      omega
    · rw [if_neg (fun h => hw (hass.1 h))] at hfast
      have hw0 : (b.move cur c).asses cur = 0 := by
        by_contra hh; exact hw hh
      by_cases hfull : findAvailableCoordinates (b.move cur c) = []
      · rw [calculateScore_full _ _ _ _ _ _ hw0 hfull] at hv
        cases hv
        exact le_refl _
      · rw [if_neg (fun h => hfull (hfullb.1 h))] at hfast
        cases hcol : collect
            (fun c' => calculateScore n p ((-1) * cur) c' (b.move cur c) (d + 1))
            (findAvailableCoordinates (b.move cur c)) with
        | error e =>
          rw [calculateScore_rec_error_play _ _ _ _ _ _ _ hcur hd (by omega) hw0 hfull hcol] at hv
          cases hv
        | ok scores =>
          rw [calculateScore_rec_ok_play _ _ _ _ _ _ _ hcur hd (by omega) hw0 hfull hcol] at hv
          have hf2 := (collect_ok_iff _ _ _).1 hcol
          by_cases hr : rootMoves = true
          · rw [if_pos hr, List.all_eq_true] at hfast
            rw [if_pos (hroot.1 hr)] at hv
            obtain ⟨hvmem, _⟩ := (min_ok_iff _ _).1 hv
            obtain ⟨c', hmem, hcs⟩ := forall₂_exists_left hf2 hvmem
            have hc' := (mem_findAvailableCoordinates _ _).1 hmem
            have hbit := (rep_empty_iff _ _ _ hrep' c').2 hc'
            have hchk := hfast _ (cellIndex_mem_cellOrder c')
            rw [hbit, Bool.false_or] at hchk
            exact ih p ((-1) * cur) c' (b.move cur c) (d + 1) v (!rootMoves) (!xMoves) _ _ hrep'
              hcur' hp' hroot' hx' hc' (by omega) (by push_cast at hdf ⊢; omega) hchk hcs
          · rw [if_neg hr, List.any_eq_true] at hfast
            rw [if_neg (fun h => hr (hroot.2 h))] at hv
            obtain ⟨_, hvge⟩ := (max_ok_iff _ _).1 hv
            obtain ⟨k, hk, hchk⟩ := hfast
            obtain ⟨c', rfl⟩ := exists_coord_of_mem_cellOrder k hk
            rw [Bool.and_eq_true, Bool.not_eq_true'] at hchk
            have hc' := (rep_empty_iff _ _ _ hrep' c').1 hchk.1
            have hmem := (mem_findAvailableCoordinates (b.move cur c) c').2 hc'
            obtain ⟨s, hs, hcs⟩ := forall₂_exists_right hf2 hmem
            have h0 := ih p ((-1) * cur) c' (b.move cur c) (d + 1) s (!rootMoves) (!xMoves) _ _
              hrep' hcur' hp' hroot' hx' hc' (by omega) (by push_cast at hdf ⊢; omega) hchk.2 hcs
            exact le_trans h0 (hvge s hs)

/-- A successful `fastLe` check bounds the search value from above by `0`. -/
theorem fastLe_sound (fuel : Nat) :
    ∀ (p cur : Int) (c : Coord) (b : Board) (d v : Int) (rootMoves xMoves : Bool) (x o : Nat),
      Rep b x o → (cur = -1 ∨ cur = 1) → (p = cur ∨ p = -cur) →
      (rootMoves = true ↔ p = cur) → (xMoves = true ↔ cur = -1) →
      b.fields c.1 c.2 = 0 → 0 ≤ d → d + fuel ≤ 101 →
      fastLe fuel rootMoves xMoves (cellIndex c) x o = true →
      calculateScore fuel p cur c b d = .ok v → v ≤ 0 := by
  induction fuel with
  | zero => intro _ _ _ _ _ _ _ _ _ _ _ _ _ _ _ _ _ _ _ h; cases h
  | succ n ih =>
    intro p cur c b d v rootMoves xMoves x o hrep hcur hp hroot hx hc hd hdf hfast hv
    have hrep' := rep_move b x o hrep cur c xMoves hcur hx hc
    have hass := rep_asses _ _ _ hrep' cur xMoves hcur hx
    have hfullb := rep_full_iff _ _ _ hrep'
    obtain ⟨hcur', hp', hroot', hx'⟩ := flags_next p cur rootMoves xMoves hcur hp hroot hx
    rw [fastLe_succ] at hfast
    by_cases hw : (b.move cur c).asses cur ≠ 0
    · rw [if_pos (hass.2 hw)] at hfast
      have hnr : ¬ p = cur := fun h => by
        rw [hroot.2 h] at hfast
        cases hfast
      rw [calculateScore_win_play _ _ _ _ _ _ hcur hd (by omega) hw, if_neg hnr] at hv
      cases hv
      push_cast at hdf
      omega
    · rw [if_neg (fun h => hw (hass.1 h))] at hfast
      have hw0 : (b.move cur c).asses cur = 0 := by
        by_contra hh; exact hw hh
      by_cases hfull : findAvailableCoordinates (b.move cur c) = []
      · rw [calculateScore_full _ _ _ _ _ _ hw0 hfull] at hv
        cases hv
        exact le_refl _
      · rw [if_neg (fun h => hfull (hfullb.1 h))] at hfast
        cases hcol : collect
            (fun c' => calculateScore n p ((-1) * cur) c' (b.move cur c) (d + 1))
            (findAvailableCoordinates (b.move cur c)) with
        | error e =>
          rw [calculateScore_rec_error_play _ _ _ _ _ _ _ hcur hd (by omega) hw0 hfull hcol] at hv
          cases hv
        | ok scores =>
          rw [calculateScore_rec_ok_play _ _ _ _ _ _ _ hcur hd (by omega) hw0 hfull hcol] at hv
          have hf2 := (collect_ok_iff _ _ _).1 hcol
          by_cases hr : rootMoves = true
          · rw [if_pos hr, List.any_eq_true] at hfast
            rw [if_pos (hroot.1 hr)] at hv
            obtain ⟨_, hvle⟩ := (min_ok_iff _ _).1 hv
            obtain ⟨k, hk, hchk⟩ := hfast
            obtain ⟨c', rfl⟩ := exists_coord_of_mem_cellOrder k hk
            rw [Bool.and_eq_true, Bool.not_eq_true'] at hchk
            have hc' := (rep_empty_iff _ _ _ hrep' c').1 hchk.1
            have hmem := (mem_findAvailableCoordinates (b.move cur c) c').2 hc'
            obtain ⟨s, hs, hcs⟩ := forall₂_exists_right hf2 hmem
            have h0 := ih p ((-1) * cur) c' (b.move cur c) (d + 1) s (!rootMoves) (!xMoves) _ _
              hrep' hcur' hp' hroot' hx' hc' (by omega) (by push_cast at hdf ⊢; omega) hchk.2 hcs
            exact le_trans (hvle s hs) h0
          · rw [if_neg hr, List.all_eq_true] at hfast
            rw [if_neg (fun h => hr (hroot.2 h))] at hv
            obtain ⟨hvmem, _⟩ := (max_ok_iff _ _).1 hv
            obtain ⟨c', hmem, hcs⟩ := forall₂_exists_left hf2 hvmem
            have hc' := (mem_findAvailableCoordinates _ _).1 hmem
            have hbit := (rep_empty_iff _ _ _ hrep' c').2 hc'
            have hchk := hfast _ (cellIndex_mem_cellOrder c')
            rw [hbit, Bool.false_or] at hchk
            exact ih p ((-1) * cur) c' (b.move cur c) (d + 1) v (!rootMoves) (!xMoves) _ _ hrep'
              hcur' hp' hroot' hx' hc' (by omega) (by push_cast at hdf ⊢; omega) hchk hcs

set_option maxRecDepth 1000000 in
/-- The certificate for the empty board: for each of the nine opening cells both bounds
check. -/
theorem empty_board_certificate :
    cellOrder.all (fun k => fastGe 9 true true k 0 0 && fastLe 9 true true k 0 0) = true := by
  decide!

/-- C3: on the empty board with root player `-1` the search scores each of the nine cells
with `0` (given fuel for the nine empty cells), so the selector returns score 0 together
with one of the nine cells, all of them legal. -/
theorem empty_board_scores_zero (fuel : Nat) (c : Coord) (rnd : Nat) (hfuel : 9 ≤ fuel) :
    calculateScore fuel (-1) (-1) c newBoard 0 = .ok 0
      ∧ newBoard.fields c.1 c.2 = 0
      ∧ ∃ m, selectMove fuel (-1) newBoard rnd = .ok m ∧ m.score = 0
          ∧ newBoard.fields m.coordinates.1 m.coordinates.2 = 0 := by
  have hcount : countEmpty newBoard = 9 := by decide
  have hzero : ∀ c' : Coord, calculateScore fuel (-1) (-1) c' newBoard 0 = .ok 0 := by
    intro c'
    have hlt := countEmpty_move_lt newBoard (-1) c' (by norm_num) rfl
    obtain ⟨v, hv⟩ := calculateScore_total 9 (-1) (-1) c' newBoard 0 (by norm_num) (by decide)
      (by omega)
    have hcert := List.all_eq_true.1 empty_board_certificate _ (cellIndex_mem_cellOrder c')
    rw [Bool.and_eq_true] at hcert
    have hge := fastGe_sound 9 (-1) (-1) c' newBoard 0 v true true 0 0 rep_newBoard
      (Or.inl rfl) (Or.inl rfl) (by simp) (by simp) rfl (le_refl _) (by norm_num) hcert.1 hv
    have hle := fastLe_sound 9 (-1) (-1) c' newBoard 0 v true true 0 0 rep_newBoard
      (Or.inl rfl) (Or.inl rfl) (by simp) (by simp) rfl (le_refl _) (by norm_num) hcert.2 hv
    have hv0 : v = 0 := by omega
    rw [hv0] at hv
    exact calculateScore_mono_le 9 fuel hfuel _ _ _ _ _ _ hv
  refine ⟨hzero c, rfl, ?_⟩
  obtain ⟨best, hb, hbne, _, hprop⟩ := bestMovesOf_spec fuel (-1) newBoard (by norm_num)
    (by decide) (by omega) (findAvailableCoordinates_ne_nil newBoard ⟨c, rfl⟩)
  have hbne := hbne (by decide) (by decide)
  obtain ⟨m, hm, hsel⟩ := selectMove_of_best fuel (-1) newBoard best hb hbne rnd
  obtain ⟨_, h2, _⟩ := hprop m hm
  rw [hzero m.coordinates] at h2
  have hs : m.score = 0 := (Except.ok.inj h2).symm
  exact ⟨m, hsel, hs, rfl⟩

theorem empty_board_scores_zero_witness :
    9 ≤ 9 ∧ calculateScore 9 (-1) (-1) (1, 1) newBoard 0 = .ok 0
      ∧ newBoard.fields (1, 1).1 (1, 1).2 = 0
      ∧ ∃ m, selectMove 9 (-1) newBoard 4 = .ok m ∧ m.score = 0
          ∧ newBoard.fields m.coordinates.1 m.coordinates.2 = 0 :=
  ⟨le_refl 9, empty_board_scores_zero 9 (1, 1) 4 (le_refl 9)⟩

/-! ## Boards reached by sequences of moves -/

theorem sumsConsistent_newBoard : sumsConsistent newBoard := by decide

theorem sumsMatch_newBoard : sumsMatch newBoard := by decide

theorem cellsInRange_newBoard : cellsInRange newBoard := by decide

theorem sumsMatch_playAll (ms : List (Int × Coord)) :
    ∀ b : Board, sumsMatch b → targetsEmpty ms b → sumsMatch (playAll ms b) := by
  induction ms with
  | nil => intro b hs _; exact hs
  | cons m ms ih =>
    intro b hs ht
    rw [playAll_cons]
    exact ih _ (sumsMatch_move b m.1 m.2 hs ht.1) ht.2

theorem fields_bounded_playAll (ms : List (Int × Coord)) :
    ∀ b : Board,
      (∀ i j, -2305843009213693952 ≤ b.fields i j ∧ b.fields i j ≤ 2305843009213693952) →
      (∀ m ∈ ms, -2305843009213693952 ≤ m.1 ∧ m.1 ≤ 2305843009213693952) →
      ∀ i j, -2305843009213693952 ≤ (playAll ms b).fields i j
        ∧ (playAll ms b).fields i j ≤ 2305843009213693952 := by
  induction ms with
  | nil => intro b hb _; exact hb
  | cons m ms ih =>
    intro b hb hm
    rw [playAll_cons]
    apply ih
    · intro i j
      rw [move_fields]
      split
      · exact hm m (List.mem_cons_self m ms)
      · exact hb i j
    · intro m' hm'
      exact hm m' (List.mem_cons_of_mem m hm')

theorem oneWinnerAtMost_playAll (ms : List (Int × Coord)) :
    ∀ b : Board, oneWinnerAtMost b → stopsAtWin ms b → oneWinnerAtMost (playAll ms b) := by
  induction ms with
  | nil => intro b hb _; exact hb
  | cons m ms ih =>
    intro b hb ht
    obtain ⟨hq, hc, hn1, hn2, hrest⟩ := ht
    obtain ⟨hr, hs, _⟩ := hb
    rw [playAll_cons]
    apply ih _ _ hrest
    have hl1 : ¬ hasLine b.fields (-1) := fun h =>
      hn1 ((asses_eq_hundred_iff_hasLine b (-1) hr hs (Or.inl rfl)).2 h)
    have hl2 : ¬ hasLine b.fields 1 := fun h =>
      hn2 ((asses_eq_hundred_iff_hasLine b 1 hr hs (Or.inr rfl)).2 h)
    refine ⟨cellsInRange_move b m.1 m.2 hr hq, sumsConsistent_move b m.1 m.2 hr hq hs hc, ?_⟩
    rw [move_fields_eq_place]
    rintro ⟨h1, h2⟩
    rcases hq with hq | hq
    · rw [hq] at h2
      exact hl2 (hasLine_of_place _ _ _ _ (by norm_num) h2)
    · rw [hq] at h1
      exact hl1 (hasLine_of_place _ _ _ _ (by norm_num) h1)

/-- C11: on a board reached from `newBoard()` by `move` calls that each place `-1` or `1`
on a then-empty cell, none of them made after a board on which `asses(-1)` or `asses(1)`
returned 100, `asses(-1)` and `asses(1)` are never both 100. -/
theorem asses_no_double_win (ms : List (Int × Coord)) (h : stopsAtWin ms newBoard) :
    ¬ ((playAll ms newBoard).asses (-1) = 100 ∧ (playAll ms newBoard).asses 1 = 100) := by
  have hnew : oneWinnerAtMost newBoard :=
    ⟨cellsInRange_newBoard, sumsConsistent_newBoard, by decide⟩
  obtain ⟨hr, hs, hn⟩ := oneWinnerAtMost_playAll ms newBoard hnew h
  rintro ⟨h1, h2⟩
  exact hn ⟨(asses_eq_hundred_iff_hasLine _ (-1) hr hs (Or.inl rfl)).1 h1,
    (asses_eq_hundred_iff_hasLine _ 1 hr hs (Or.inr rfl)).1 h2⟩

theorem asses_no_double_win_witness :
    stopsAtWin [(-1, (0, 0)), (1, (1, 0)), (-1, (0, 1)), (1, (1, 1)), (-1, (0, 2))] newBoard
      ∧ (playAll [(-1, (0, 0)), (1, (1, 0)), (-1, (0, 1)), (1, (1, 1)), (-1, (0, 2))]
          newBoard).asses (-1) = 100
      ∧ ¬ ((playAll [(-1, (0, 0)), (1, (1, 0)), (-1, (0, 1)), (1, (1, 1)), (-1, (0, 2))]
            newBoard).asses (-1) = 100
          ∧ (playAll [(-1, (0, 0)), (1, (1, 0)), (-1, (0, 1)), (1, (1, 1)), (-1, (0, 2))]
            newBoard).asses 1 = 100) :=
  ⟨by decide, by decide, asses_no_double_win _ (by decide)⟩

/-- C12: on a board reached from `newBoard()` by `move` calls that each target a cell
empty at that moment, every row, column and diagonal sum equals the sum of its cells as
Go computes it, each addition wrapping in `int`; when every mark placed lies in
`[-2^61, 2^61]` no addition wraps, and every sum equals the exact sum of its cells. -/
theorem move_sum_invariant (ms : List (Int × Coord)) (h : targetsEmpty ms newBoard) :
    ((∀ i, (playAll ms newBoard).rowSums i
        = wrap (wrap ((playAll ms newBoard).fields i 0 + (playAll ms newBoard).fields i 1)
            + (playAll ms newBoard).fields i 2))
      ∧ (∀ j, (playAll ms newBoard).columnSums j
        = wrap (wrap ((playAll ms newBoard).fields 0 j + (playAll ms newBoard).fields 1 j)
            + (playAll ms newBoard).fields 2 j))
      ∧ (playAll ms newBoard).diagonalSums 0
        = wrap (wrap ((playAll ms newBoard).fields 0 0 + (playAll ms newBoard).fields 1 1)
            + (playAll ms newBoard).fields 2 2)
      ∧ (playAll ms newBoard).diagonalSums 1
        = wrap (wrap ((playAll ms newBoard).fields 2 0 + (playAll ms newBoard).fields 1 1)
            + (playAll ms newBoard).fields 0 2))
    ∧ ((∀ m ∈ ms, -2305843009213693952 ≤ m.1 ∧ m.1 ≤ 2305843009213693952) →
      (∀ i, (playAll ms newBoard).rowSums i
          = (playAll ms newBoard).fields i 0 + (playAll ms newBoard).fields i 1
            + (playAll ms newBoard).fields i 2)
        ∧ (∀ j, (playAll ms newBoard).columnSums j
          = (playAll ms newBoard).fields 0 j + (playAll ms newBoard).fields 1 j
            + (playAll ms newBoard).fields 2 j)
        ∧ (playAll ms newBoard).diagonalSums 0
          = (playAll ms newBoard).fields 0 0 + (playAll ms newBoard).fields 1 1
            + (playAll ms newBoard).fields 2 2
        ∧ (playAll ms newBoard).diagonalSums 1
          = (playAll ms newBoard).fields 2 0 + (playAll ms newBoard).fields 1 1
            + (playAll ms newBoard).fields 0 2) := by
  have hm := sumsMatch_playAll ms newBoard sumsMatch_newBoard h
  refine ⟨hm, fun hb => ?_⟩
  have h0 : ∀ i j, -2305843009213693952 ≤ newBoard.fields i j
      ∧ newBoard.fields i j ≤ 2305843009213693952 := by
    intro i j
    show -2305843009213693952 ≤ (0 : Int) ∧ (0 : Int) ≤ 2305843009213693952
    decide
  exact sumsConsistent_of_sumsMatch _ hm (fields_bounded_playAll ms newBoard h0 hb)

theorem move_sum_invariant_witness :
    targetsEmpty [(-1, (0, 0)), (1, (1, 1)), (-1, (2, 0))] newBoard
      ∧ (∀ m ∈ [((-1 : Int), ((0, 0) : Coord)), (1, (1, 1)), (-1, (2, 0))],
          -2305843009213693952 ≤ m.1 ∧ m.1 ≤ 2305843009213693952)
      ∧ sumsMatch (playAll [(-1, (0, 0)), (1, (1, 1)), (-1, (2, 0))] newBoard)
      ∧ sumsConsistent (playAll [(-1, (0, 0)), (1, (1, 1)), (-1, (2, 0))] newBoard) :=
  ⟨by decide, by decide,
    (move_sum_invariant [(-1, (0, 0)), (1, (1, 1)), (-1, (2, 0))] (by decide)).1,
    (move_sum_invariant [(-1, (0, 0)), (1, (1, 1)), (-1, (2, 0))] (by decide)).2 (by decide)⟩

/-! ## Effect of `move`, `copy`, enumeration of the empty cells, three in a row -/

/-- C13: `move(player, (r, c))` sets `fields[r][c]` to `player`, increases `turn` by one,
adds `player` to `rowSums[r]` and `columnSums[c]`, to `diagonalSums[0]` exactly when
`r == c` and to `diagonalSums[1]` exactly when `r + c == 2`, each addition in the
arithmetic of `int`, and leaves every other cell and every other row, column and diagonal
sum unchanged; whenever the exact result of an addition is representable in `int`, it is
the value stored. -/
theorem move_effect_and_frame (b : Board) (player : Int) (r c : Fin 3) :
    (b.move player (r, c)).fields r c = player
      ∧ (b.move player (r, c)).turn = wrap (b.turn + 1)
      ∧ (b.move player (r, c)).rowSums r = wrap (b.rowSums r + player)
      ∧ (b.move player (r, c)).columnSums c = wrap (b.columnSums c + player)
      ∧ (b.move player (r, c)).diagonalSums 0
          = (if r = c then wrap (b.diagonalSums 0 + player) else b.diagonalSums 0)
      ∧ (b.move player (r, c)).diagonalSums 1
          = (if r.val + c.val = 2 then wrap (b.diagonalSums 1 + player) else b.diagonalSums 1)
      ∧ (∀ i j, ¬ (i = r ∧ j = c) → (b.move player (r, c)).fields i j = b.fields i j)
      ∧ (∀ i, i ≠ r → (b.move player (r, c)).rowSums i = b.rowSums i)
      ∧ (∀ j, j ≠ c → (b.move player (r, c)).columnSums j = b.columnSums j)
      ∧ (isInt (b.turn + 1) → (b.move player (r, c)).turn = b.turn + 1)
      ∧ (isInt (b.rowSums r + player) →
          (b.move player (r, c)).rowSums r = b.rowSums r + player)
      ∧ (isInt (b.columnSums c + player) →
          (b.move player (r, c)).columnSums c = b.columnSums c + player)
      ∧ (isInt (b.diagonalSums 0 + player) → (b.move player (r, c)).diagonalSums 0
          = (if r = c then b.diagonalSums 0 + player else b.diagonalSums 0))
      ∧ (isInt (b.diagonalSums 1 + player) → (b.move player (r, c)).diagonalSums 1
          = (if r.val + c.val = 2 then b.diagonalSums 1 + player else b.diagonalSums 1)) := by
  refine ⟨by simp, rfl, by simp, by simp, move_diagonalSums_zero b player (r, c),
    move_diagonalSums_one b player (r, c), ?_, ?_, ?_, ?_, ?_, ?_, ?_, ?_⟩
  · intro i j h
    simp [h]
  · intro i h
    simp [h]
  · intro j h
    simp [h]
  · intro h
    rw [move_turn, wrap_of_isInt _ h]
  · intro h
    rw [move_rowSums, if_pos rfl, wrap_of_isInt _ h]
  · intro h
    rw [move_columnSums, if_pos rfl, wrap_of_isInt _ h]
  · intro h
    rw [move_diagonalSums_zero, wrap_of_isInt _ h]
  · intro h
    rw [move_diagonalSums_one, wrap_of_isInt _ h]

theorem move_effect_and_frame_witness :
    isInt (scenarioCorner.turn + 1) ∧ isInt (scenarioCorner.diagonalSums 0 + 1)
      ∧ (scenarioCorner.move 1 (1, 1)).turn = scenarioCorner.turn + 1
      ∧ (scenarioCorner.move 1 (1, 1)).diagonalSums 0
          = (if (1 : Fin 3) = 1 then scenarioCorner.diagonalSums 0 + 1
              else scenarioCorner.diagonalSums 0) :=
  ⟨by decide, by decide,
    (move_effect_and_frame scenarioCorner 1 1 1).2.2.2.2.2.2.2.2.2.1 (by decide),
    (move_effect_and_frame scenarioCorner 1 1 1).2.2.2.2.2.2.2.2.2.2.2.2.1 (by decide)⟩

/-- C14: in a heap of boards, `copy()` called on the board at `r` allocates a new board at
an address that was not in use, with the same fields, sums and turn, and changes no
existing board; the same sequence of moves applied to the original and then to the copy
leaves the two boards identical; and moves applied to the copy alone leave the original,
and every other board, as they were. -/
theorem copy_round_trip (h : Heap) (r : Nat) (b : Board) (ms : List (Int × Coord))
    (hb : h[r]? = some b) :
    ∃ h1 r1, Heap.copy h r = some (h1, r1)
      ∧ r1 ≠ r ∧ h[r1]? = none
      ∧ (∀ a, a ≠ r1 → h1[a]? = h[a]?)
      ∧ (∃ b1, h1[r1]? = some b1 ∧ b1.fields = b.fields ∧ b1.rowSums = b.rowSums
          ∧ b1.columnSums = b.columnSums ∧ b1.diagonalSums = b.diagonalSums
          ∧ b1.turn = b.turn)
      ∧ (∃ h2 h3, Heap.playAll ms h1 r = some h2 ∧ Heap.playAll ms h2 r1 = some h3
          ∧ h3[r]? = some (playAll ms b) ∧ h3[r1]? = some (playAll ms b))
      ∧ (∃ h4, Heap.playAll ms h1 r1 = some h4 ∧ h4[r1]? = some (playAll ms b)
          ∧ h4[r]? = some b ∧ ∀ a, a ≠ r1 → h4[a]? = h[a]?) := by
  obtain ⟨hlt, hget⟩ := List.getElem?_eq_some.1 hb
  have hne : h.length ≠ r := by omega
  have hold : ∀ a, a ≠ h.length → (h ++ [b.copy])[a]? = h[a]? := by
    intro a ha
    by_cases hal : a < h.length
    · exact List.getElem?_append_left hal
    · have hlen : (h ++ [b.copy]).length = h.length + 1 := by simp
      have e1 : (h ++ [b.copy])[a]? = none := List.getElem?_eq_none (by omega)
      have e2 : h[a]? = none := List.getElem?_eq_none (by omega)
      rw [e1, e2]
  have hnew : (h ++ [b.copy])[h.length]? = some b.copy := List.getElem?_concat_length h b.copy
  have h1r : (h ++ [b.copy])[r]? = some b := by rw [hold r (fun e => hne e.symm), hb]
  refine ⟨h ++ [b.copy], h.length, heap_copy_eq h r b hb, hne,
    List.getElem?_eq_none (le_refl _), hold, ⟨b.copy, hnew, rfl, rfl, rfl, rfl, rfl⟩, ?_, ?_⟩
  · have hlen : r < (h ++ [b.copy]).length := by
      simp only [List.length_append, List.length_singleton]
      omega
    have h2new : ((h ++ [b.copy]).set r (playAll ms b))[h.length]? = some b.copy := by
      rw [List.getElem?_set, if_neg (fun e => hne e.symm), hnew]
    refine ⟨_, _, heap_playAll_eq ms _ r b h1r, heap_playAll_eq ms _ h.length b.copy h2new, ?_, ?_⟩
    · rw [List.getElem?_set, if_neg hne, List.getElem?_set, if_pos rfl, if_pos hlen]
    · rw [List.getElem?_set, if_pos rfl, if_pos (by
        rw [List.length_set]
        simp only [List.length_append, List.length_singleton]
        omega)]
      rfl
  · refine ⟨_, heap_playAll_eq ms _ h.length b.copy hnew, ?_, ?_, ?_⟩
    · rw [List.getElem?_set, if_pos rfl, if_pos (by
        simp only [List.length_append, List.length_singleton]
        omega)]
      rfl
    · rw [List.getElem?_set, if_neg hne, h1r]
    · intro a ha
      rw [List.getElem?_set, if_neg (fun e => ha e.symm), hold a ha]

theorem copy_round_trip_witness :
    ([scenarioCorner] : Heap)[0]? = some scenarioCorner
      ∧ ∃ h1 r1, Heap.copy [scenarioCorner] 0 = some (h1, r1) ∧ r1 ≠ 0
        ∧ ∃ h4, Heap.playAll [(1, (1, 1)), (-1, (2, 2))] h1 r1 = some h4
          ∧ h4[r1]? = some (playAll [(1, (1, 1)), (-1, (2, 2))] scenarioCorner)
          ∧ h4[0]? = some scenarioCorner := by
  obtain ⟨h1, r1, e1, e2, _, _, _, _, h4, e4, e5, e6, _⟩ :=
    copy_round_trip [scenarioCorner] 0 scenarioCorner [(1, (1, 1)), (-1, (2, 2))] rfl
  exact ⟨rfl, h1, r1, e1, e2, h4, e4, e5, e6⟩

theorem allCoords_increasing :
    allCoords.Pairwise (fun a b => cellIndex a < cellIndex b) := by
  decide

/-- C15: `findAvailableCoordinates` lists exactly the coordinates whose cell is 0, none
twice, in row-major order (strictly increasing in `3 * i + j`); its length is the number
of empty cells and at most 9. -/
theorem findAvailableCoordinates_enumeration (b : Board) :
    (∀ c : Coord, c ∈ findAvailableCoordinates b ↔ b.fields c.1 c.2 = 0)
      ∧ (findAvailableCoordinates b).Nodup
      ∧ (findAvailableCoordinates b).Pairwise
          (fun a c => 3 * a.1.val + a.2.val < 3 * c.1.val + c.2.val)
      ∧ (findAvailableCoordinates b).length
          = (Finset.univ.filter (fun c : Coord => b.fields c.1 c.2 = 0)).card
      ∧ (findAvailableCoordinates b).length ≤ 9 := by
  refine ⟨mem_findAvailableCoordinates b, findAvailableCoordinates_nodup b, ?_, ?_,
    countEmpty_le_nine b⟩
  · rw [findAvailableCoordinates_eq]
    exact allCoords_increasing.filter _
  · rw [← List.toFinset_card_of_nodup (findAvailableCoordinates_nodup b)]
    congr 1
    ext c
    simp [mem_findAvailableCoordinates]

/-- C18: on a board with cells in `{-1, 0, 1}` and sums equal to the sums of their cells,
for a player `p` in `{-1, 1}`, `asses(p)` returns 100 exactly when some row, column or
diagonal of the grid holds `p` in all three cells. -/
theorem asses_three_in_a_row (b : Board) (p : Int) (hr : cellsInRange b)
    (hs : sumsConsistent b) (hp : p = -1 ∨ p = 1) :
    b.asses p = 100 ↔
      ((∃ i, b.fields i 0 = p ∧ b.fields i 1 = p ∧ b.fields i 2 = p)
        ∨ (∃ j, b.fields 0 j = p ∧ b.fields 1 j = p ∧ b.fields 2 j = p)
        ∨ (b.fields 0 0 = p ∧ b.fields 1 1 = p ∧ b.fields 2 2 = p)
        ∨ (b.fields 2 0 = p ∧ b.fields 1 1 = p ∧ b.fields 0 2 = p)) :=
  asses_eq_hundred_iff_hasLine b p hr hs hp

theorem asses_three_in_a_row_witness :
    cellsInRange scenarioOwnRow ∧ sumsConsistent scenarioOwnRow
      ∧ ((1 : Int) = -1 ∨ (1 : Int) = 1)
      ∧ (scenarioOwnRow.asses 1 = 100 ↔
        ((∃ i, scenarioOwnRow.fields i 0 = 1 ∧ scenarioOwnRow.fields i 1 = 1
            ∧ scenarioOwnRow.fields i 2 = 1)
          ∨ (∃ j, scenarioOwnRow.fields 0 j = 1 ∧ scenarioOwnRow.fields 1 j = 1
            ∧ scenarioOwnRow.fields 2 j = 1)
          ∨ (scenarioOwnRow.fields 0 0 = 1 ∧ scenarioOwnRow.fields 1 1 = 1
            ∧ scenarioOwnRow.fields 2 2 = 1)
          ∨ (scenarioOwnRow.fields 2 0 = 1 ∧ scenarioOwnRow.fields 1 1 = 1
            ∧ scenarioOwnRow.fields 0 2 = 1))) :=
  ⟨by decide, by decide, by decide,
    asses_three_in_a_row scenarioOwnRow 1 (by decide) (by decide) (by decide)⟩

/-! ## Termination of the search -/

theorem toIndex_val (i : Fin 3) : toIndex (i.val : Int) = some i := by
  unfold toIndex
  have h : 0 ≤ (i.val : Int) ∧ (i.val : Int) < 3 := by omega
  rw [dif_pos h]
  simp

theorem moveRaw_of_coord (b : Board) (player : Int) (c : Coord) :
    b.moveRaw player ((c.1.val : Int), (c.2.val : Int)) = .ok (b.move player c) := by
  unfold Board.moveRaw
  simp only [toIndex_val]

theorem move_sums_overwrite (b : Board) (player : Int) (c : Coord) (hs : sumsMatch b) :
    (b.move player c).rowSums c.1
        = wrap (sum3 ((b.move player c).fields c.1 0) ((b.move player c).fields c.1 1)
            ((b.move player c).fields c.1 2) + b.fields c.1 c.2)
      ∧ (b.move player c).columnSums c.2
        = wrap (sum3 ((b.move player c).fields 0 c.2) ((b.move player c).fields 1 c.2)
            ((b.move player c).fields 2 c.2) + b.fields c.1 c.2) := by
  unfold sumsMatch at hs
  simp only [sum3_eq] at hs ⊢
  obtain ⟨h1, h2, _, _⟩ := hs
  rcases c with ⟨r, k⟩
  have r0 := h1 r
  have c0 := h2 k
  constructor
  · rw [move_rowSums, if_pos rfl]
    simp only [move_fields]
    clear c0 h1 h2
    fin_cases r <;> fin_cases k <;> simp at r0 ⊢ <;> (unfold wrap at *; omega)
  · rw [move_columnSums, if_pos rfl]
    simp only [move_fields]
    clear r0 h1 h2
    fin_cases r <;> fin_cases k <;> simp at c0 ⊢ <;> (unfold wrap at *; omega)

/-- C16 (as the code has it): `move` has no occupancy check.  On a board whose sums equal
the sums of their cells, a call on a non-empty cell is not rejected: it overwrites the
cell with `player`, leaves the other cells as they were, and adds `player` to the row sum,
the column sum and the diagonal sums through the cell as on an empty cell; afterwards the
row sum and the column sum of the cell exceed the sums of their cells by the overwritten
value (all in the arithmetic of `int`), so the sums no longer equal the sums of their
cells. -/
theorem move_overwrites_occupied (b : Board) (player : Int) (c : Coord)
    (hs : sumsMatch b) (hint : isInt (b.fields c.1 c.2)) (hocc : b.fields c.1 c.2 ≠ 0) :
    b.moveRaw player ((c.1.val : Int), (c.2.val : Int)) = .ok (b.move player c)
      ∧ (b.move player c).fields c.1 c.2 = player
      ∧ (∀ i j, ¬ (i = c.1 ∧ j = c.2) → (b.move player c).fields i j = b.fields i j)
      ∧ (b.move player c).rowSums c.1 = wrap (b.rowSums c.1 + player)
      ∧ (b.move player c).columnSums c.2 = wrap (b.columnSums c.2 + player)
      ∧ (b.move player c).diagonalSums 0
          = (if c.1 = c.2 then wrap (b.diagonalSums 0 + player) else b.diagonalSums 0)
      ∧ (b.move player c).diagonalSums 1
          = (if c.1.val + c.2.val = 2 then wrap (b.diagonalSums 1 + player)
              else b.diagonalSums 1)
      ∧ (b.move player c).rowSums c.1
          = wrap (sum3 ((b.move player c).fields c.1 0) ((b.move player c).fields c.1 1)
              ((b.move player c).fields c.1 2) + b.fields c.1 c.2)
      ∧ (b.move player c).columnSums c.2
          = wrap (sum3 ((b.move player c).fields 0 c.2) ((b.move player c).fields 1 c.2)
              ((b.move player c).fields 2 c.2) + b.fields c.1 c.2)
      ∧ ¬ sumsMatch (b.move player c)
      ∧ ¬ sumsConsistent (b.move player c) := by
  obtain ⟨hrow, hcol⟩ := move_sums_overwrite b player c hs
  have hnm : ¬ sumsMatch (b.move player c) := by
    intro hcons
    have h1 := hcons.1 c.1
    rw [hrow] at h1
    generalize sum3 ((b.move player c).fields c.1 0) ((b.move player c).fields c.1 1)
      ((b.move player c).fields c.1 2) = s at h1
    have hs3 : isInt s := by
      rw [← h1]
      exact isInt_wrap _
    unfold isInt at hint hs3
    unfold wrap at h1
    omega
  refine ⟨moveRaw_of_coord b player c, by simp, ?_, by simp, by simp,
    move_diagonalSums_zero b player c, move_diagonalSums_one b player c, hrow, hcol, hnm, ?_⟩
  · intro i j h
    simp [h]
  · intro hcons
    have h1 := hcons.1 c.1
    have hw : isInt ((b.move player c).rowSums c.1) := by
      rw [move_rowSums, if_pos rfl]
      exact isInt_wrap _
    rw [h1] at hw
    have hcons' := hcons.1 c.1
    rw [hrow, sum3_eq, wrap_of_isInt _ hw] at hcons'
    unfold isInt at hint
    unfold wrap at hcons'
    generalize (b.move player c).fields c.1 0 + (b.move player c).fields c.1 1
      + (b.move player c).fields c.1 2 = s at hcons' hw
    unfold isInt at hw
    omega

theorem move_overwrites_occupied_witness :
    (sumsMatch scenarioCorner ∧ isInt (scenarioCorner.fields (0, 0).1 (0, 0).2)
        ∧ scenarioCorner.fields (0, 0).1 (0, 0).2 ≠ 0)
      ∧ (scenarioCorner.move 1 (0, 0)).fields 0 0 = 1
      ∧ ¬ sumsMatch (scenarioCorner.move 1 (0, 0)) :=
  ⟨⟨by decide, by decide, by decide⟩,
    (move_overwrites_occupied scenarioCorner 1 (0, 0) (by decide) (by decide) (by decide)).2.1,
    (move_overwrites_occupied scenarioCorner 1 (0, 0) (by decide) (by decide)
      (by decide)).2.2.2.2.2.2.2.2.2.1⟩

/-- C16 (as stated) fails: on `[-1,0,0 / 0,0,0 / 0,0,0]` the call `move(1, (0,0))` on the
occupied corner is not rejected; it yields a board whose corner holds `1` instead of `-1`
and whose first row sum is `0` while the cells of the row add up to `1`. -/
theorem move_occupied_counterexample :
    scenarioCorner.fields 0 0 = -1
      ∧ (∃ b', scenarioCorner.moveRaw 1 (0, 0) = .ok b' ∧ b'.fields 0 0 = 1
          ∧ b'.rowSums 0 = 0 ∧ b'.fields 0 0 + b'.fields 0 1 + b'.fields 0 2 = 1
          ∧ ¬ sumsConsistent b') :=
  ⟨by decide, scenarioCorner.move 1 (0, 0), rfl, by decide, by decide, by decide, by decide⟩

theorem bestMovesOf_full (fuel : Nat) (p : Int) (board : Board)
    (h : ∀ c : Coord, board.fields c.1 c.2 ≠ 0) : bestMovesOf fuel p board = .ok [] := by
  have hnil : findAvailableCoordinates board = [] := by
    rw [List.eq_nil_iff_forall_not_mem]
    intro c hc
    exact h c ((mem_findAvailableCoordinates board c).1 hc)
  unfold bestMovesOf
  rw [hnil]
  rfl

/-- C17 (as the code has it): the code has no `NoMovesAvailable` error.  On a root position
with an empty cell whose sums lie in `[-2^58, 2^58]`, for a root player in `{-1, 1}`, the
selector reaches the random pick with a non-empty candidate list and returns one of the
candidates.  On a root position with no empty cell the candidate list that reaches the
random pick is empty, and the pick panics. -/
theorem selector_candidates_nonempty (fuel : Nat) (board : Board) (p : Int) (rnd : Nat) :
    (p = -1 ∨ p = 1 → sumsBounded board → (∃ c : Coord, board.fields c.1 c.2 = 0) →
      countEmpty board ≤ fuel →
        ∃ bestMoves, bestMovesOf fuel p board = .ok bestMoves ∧ bestMoves ≠ []
          ∧ ∃ m ∈ bestMoves, calculateRandomMove bestMoves rnd = .ok m
              ∧ selectMove fuel p board rnd = .ok m)
      ∧ ((∀ c : Coord, board.fields c.1 c.2 ≠ 0) →
          bestMovesOf fuel p board = .ok []
            ∧ calculateRandomMove [] rnd = .error .panic
            ∧ selectMove fuel p board rnd = .error .panic) := by
  constructor
  · intro hp hsb hne hfuel
    obtain ⟨best, hb, hbne, _, _⟩ := bestMovesOf_spec fuel p board (player_ne_zero p hp)
      (isInt_player p hp) hfuel (findAvailableCoordinates_ne_nil board hne)
    have hbne := hbne hsb (player_bounded p hp)
    obtain ⟨m, hm, hsel⟩ := selectMove_of_best fuel p board best hb hbne rnd
    refine ⟨best, hb, hbne, m, hm, ?_, hsel⟩
    unfold selectMove at hsel
    rw [hb] at hsel
    exact hsel
  · intro hfull
    have hb := bestMovesOf_full fuel p board hfull
    exact ⟨hb, rfl, selectMove_of_nil fuel p board hb rnd⟩

theorem selector_candidates_nonempty_witness :
    (((-1 : Int) = -1 ∨ (-1 : Int) = 1) ∧ sumsBounded scenarioLastCell
        ∧ (∃ c : Coord, scenarioLastCell.fields c.1 c.2 = 0)
        ∧ countEmpty scenarioLastCell ≤ 1)
      ∧ (∃ bestMoves, bestMovesOf 1 (-1) scenarioLastCell = .ok bestMoves ∧ bestMoves ≠ []
        ∧ ∃ m ∈ bestMoves, calculateRandomMove bestMoves 3 = .ok m
            ∧ selectMove 1 (-1) scenarioLastCell 3 = .ok m)
      ∧ (∀ c : Coord, scenarioFull.fields c.1 c.2 ≠ 0)
      ∧ selectMove 9 (-1) scenarioFull 3 = .error .panic :=
  ⟨⟨by decide, by decide, ⟨(2, 2), by decide⟩, by decide⟩,
    (selector_candidates_nonempty 1 scenarioLastCell (-1) 3).1 (by decide) (by decide)
      ⟨(2, 2), by decide⟩ (by decide),
    by decide,
    ((selector_candidates_nonempty 9 scenarioFull (-1) 3).2 (by decide)).2.2⟩

/-- C17 (as stated) fails: on the full position `[-1,1,-1 / -1,1,1 / 1,-1,-1]` the
candidate list that reaches the random pick is empty and the pick panics; no
`NoMovesAvailable` error is reported. -/
theorem selector_no_moves_counterexample :
    (∀ c : Coord, scenarioFull.fields c.1 c.2 ≠ 0)
      ∧ bestMovesOf 9 (-1) scenarioFull = .ok []
      ∧ calculateRandomMove [] 0 = .error .panic
      ∧ selectMove 9 (-1) scenarioFull 0 = .error .panic :=
  ⟨by decide, by decide, by decide, by decide⟩

/-! ## Snapshot replay -/

theorem parseMoves_eq (arguments : List Int) :
    parseMoves arguments = parsedPrefix arguments arguments.length := by
  unfold parseMoves parsedPrefix
  exact foldl_append_if (fun i => arguments.getD i 0 ≠ 0)
    (fun i => (ParsedMove.mk (arguments.getD i 0) ((i : Int) / 3, (i : Int) % 3))) _ []

theorem replay_append (l1 l2 : List ParsedMove) (b b1 : Board) (h : replay l1 b = .ok b1) :
    replay (l1 ++ l2) b = replay l2 b1 := by
  induction l1 generalizing b with
  | nil =>
    cases h
    rfl
  | cons m ms ih =>
    cases hm : b.moveRaw m.player m.coordinates with
    | error e =>
      simp only [replay, hm] at h
      cases h
    | ok b' =>
      simp only [List.cons_append, replay, hm] at h ⊢
      exact ih b' h

theorem parsedPrefix_succ_zero (arguments : List Int) (n : Nat)
    (h : arguments.getD n 0 = 0) : parsedPrefix arguments (n + 1) = parsedPrefix arguments n := by
  unfold parsedPrefix
  rw [List.range_succ, List.filter_append]
  have h' : decide (arguments.getD n 0 ≠ 0) = false := decide_eq_false (not_not.2 h)
  have hf : List.filter (fun i => decide (arguments.getD i 0 ≠ 0)) [n] = [] :=
    List.filter_cons_of_neg (by rw [h']; exact Bool.false_ne_true)
  rw [hf, List.append_nil]

theorem parsedPrefix_succ_ne (arguments : List Int) (n : Nat)
    (h : arguments.getD n 0 ≠ 0) :
    parsedPrefix arguments (n + 1) = parsedPrefix arguments n
      ++ [{ player := arguments.getD n 0, coordinates := ((n : Int) / 3, (n : Int) % 3) }] := by
  unfold parsedPrefix
  rw [List.range_succ, List.filter_append, List.map_append]
  have h' : decide (arguments.getD n 0 ≠ 0) = true := decide_eq_true h
  have hf : List.filter (fun i => decide (arguments.getD i 0 ≠ 0)) [n] = [n] :=
    List.filter_cons_of_pos h'
  rw [hf]
  rfl

theorem toIndex_div (n : Nat) (h : n < 9) :
    toIndex ((n : Int) / 3) = some ⟨n / 3, by omega⟩ := by
  unfold toIndex
  have hh : 0 ≤ (n : Int) / 3 ∧ (n : Int) / 3 < 3 := by omega
  rw [dif_pos hh]
  simp only [Option.some.injEq, Fin.mk.injEq]
  omega

theorem toIndex_mod (n : Nat) :
    toIndex ((n : Int) % 3) = some ⟨n % 3, Nat.mod_lt _ (by norm_num)⟩ := by
  unfold toIndex
  have hh : 0 ≤ (n : Int) % 3 ∧ (n : Int) % 3 < 3 := by omega
  rw [dif_pos hh]
  simp only [Option.some.injEq, Fin.mk.injEq]
  omega

theorem moveRaw_index (n : Nat) (h : n < 9) :
    ∃ c : Coord, cellIndex c = n ∧ ∀ (b : Board) (player : Int),
      b.moveRaw player ((n : Int) / 3, (n : Int) % 3) = .ok (b.move player c) := by
  refine ⟨(⟨n / 3, by omega⟩, ⟨n % 3, Nat.mod_lt _ (by norm_num)⟩), ?_, ?_⟩
  · unfold cellIndex
    simp only []
    omega
  · intro b player
    unfold Board.moveRaw
    simp only [toIndex_div n h, toIndex_mod n]

theorem take_succ_countP (vs : List Int) (n : Nat) (h : n < vs.length) :
    (vs.take (n + 1)).countP (fun v => decide (v ≠ 0))
      = (vs.take n).countP (fun v => decide (v ≠ 0))
        + (if vs.getD n 0 ≠ 0 then 1 else 0) := by
  rw [List.take_succ, List.countP_append]
  have hget : vs[n]? = some vs[n] := List.getElem?_eq_getElem h
  have hd : vs.getD n 0 = vs[n] := by
    rw [List.getD_eq_getElem?_getD, hget]
    rfl
  rw [hget, hd]
  by_cases hz : vs[n] = 0 <;> simp [hz, List.countP_cons]

/-- Replaying the moves parsed from the first `n` arguments. -/
theorem replay_prefix (vs : List Int) (hlen : vs.length ≤ 9) (n : Nat) (hn : n ≤ vs.length) :
    ∃ b, replay (parsedPrefix vs n) newBoard = .ok b
      ∧ (∀ c : Coord, b.fields c.1 c.2 = if cellIndex c < n then vs.getD (cellIndex c) 0 else 0)
      ∧ sumsMatch b
      ∧ b.turn = ((vs.take n).countP (fun v => decide (v ≠ 0)) : Nat) := by
  induction n with
  | zero =>
    refine ⟨newBoard, rfl, ?_, sumsMatch_newBoard, ?_⟩
    · intro c
      simp [newBoard]
    · simp [newBoard]
  | succ n ih =>
    obtain ⟨b, hb, hf, hs, ht⟩ := ih (by omega)
    have hn9 : n < 9 := by omega
    by_cases hz : vs.getD n 0 = 0
    · refine ⟨b, by rw [parsedPrefix_succ_zero vs n hz]; exact hb, ?_, hs, ?_⟩
      · intro c
        rw [hf c]
        by_cases h1 : cellIndex c < n
        · rw [if_pos h1, if_pos (by omega)]
        · rw [if_neg h1]
          by_cases h2 : cellIndex c < n + 1
          · have : cellIndex c = n := by omega
            rw [if_pos h2, this, hz]
          · rw [if_neg h2]
      · rw [ht, take_succ_countP vs n (by omega), if_neg (by simpa using hz)]
        simp
    · obtain ⟨cn, hcell, hraw⟩ := moveRaw_index n hn9
      have hempty : b.fields cn.1 cn.2 = 0 := by
        have := hf cn
        rw [hcell, if_neg (by omega)] at this
        exact this
      refine ⟨b.move (vs.getD n 0) cn, ?_, ?_, sumsMatch_move b _ _ hs hempty, ?_⟩
      · rw [parsedPrefix_succ_ne vs n hz, replay_append _ _ _ _ hb]
        simp only [replay, hraw]
      · intro c
        have hcc : (c.1 = cn.1 ∧ c.2 = cn.2) ↔ cellIndex c = n := by
          constructor
          · rintro ⟨h1, h2⟩
            have : c = cn := Prod.ext h1 h2
            rw [this]
            exact hcell
          · intro h
            have := cellIndex_injective c cn (h.trans hcell.symm)
            rw [this]
            exact ⟨rfl, rfl⟩
        simp only [move_fields, hcc, hf c]
        by_cases h1 : cellIndex c = n
        · rw [if_pos h1, if_pos (by omega), h1]
        · rw [if_neg h1]
          by_cases h2 : cellIndex c < n
          · rw [if_pos h2, if_pos (by omega)]
          · rw [if_neg h2, if_neg (by omega)]
      · have hcnt : (vs.take n).countP (fun v => decide (v ≠ 0)) ≤ n := by
          have h1 := List.countP_le_length (fun v : Int => decide (v ≠ 0)) (l := vs.take n)
          have h2 := List.length_take_le n vs
          omega
        rw [move_turn, ht, take_succ_countP vs n (by omega), if_pos hz,
          wrap_small _ (by omega) (by omega)]
        push_cast
        ring

/-- C20: for at most nine parsed cell values `v_0 .. v_k` in row-major order, replaying the
moves produced by `parseMoves` on `newBoard()` succeeds and yields a board whose cell at
row `i / 3`, column `i % 3` is `v_i` for `i <= k` and `0` for every other cell, whose sums
equal the sums of their cells as Go computes them (exactly so when every value lies in
`[-2^61, 2^61]`), and whose turn counter is the number of non-zero `v_i`. -/
theorem replay_snapshot (vs : List Int) (hlen : vs.length ≤ 9) :
    ∃ b, replay (parseMoves vs) newBoard = .ok b
      ∧ (∀ i, i < 9 → ∀ (hr : i / 3 < 3) (hc : i % 3 < 3),
          b.fields ⟨i / 3, hr⟩ ⟨i % 3, hc⟩ = vs.getD i 0)
      ∧ sumsMatch b
      ∧ ((∀ v ∈ vs, -2305843009213693952 ≤ v ∧ v ≤ 2305843009213693952) → sumsConsistent b)
      ∧ b.turn = (vs.countP (fun v => decide (v ≠ 0)) : Nat) := by
  obtain ⟨b, hb, hf, hs, ht⟩ := replay_prefix vs hlen vs.length (le_refl _)
  refine ⟨b, by rw [parseMoves_eq]; exact hb, ?_, hs, ?_, ?_⟩
  · intro i hi hr hc
    have hcell : cellIndex ((⟨i / 3, hr⟩, ⟨i % 3, hc⟩) : Coord) = i := by
      unfold cellIndex
      simp only []
      omega
    have := hf (⟨i / 3, hr⟩, ⟨i % 3, hc⟩)
    rw [hcell] at this
    rw [this]
    by_cases h : i < vs.length
    · rw [if_pos h]
    · rw [if_neg h, List.getD_eq_default _ _ (by omega)]
  · intro hbound
    apply sumsConsistent_of_sumsMatch b hs
    intro i j
    rw [hf (i, j)]
    split
    · rename_i hlt
      rw [List.getD_eq_getElem _ _ hlt]
      exact hbound _ (List.getElem_mem _)
    · decide
  · rw [ht, List.take_length]

theorem replay_snapshot_witness :
    [(-1 : Int), -1, 0, 1, 1].length ≤ 9
      ∧ (∀ v ∈ [(-1 : Int), -1, 0, 1, 1],
          -2305843009213693952 ≤ v ∧ v ≤ 2305843009213693952)
      ∧ ∃ b, replay (parseMoves [-1, -1, 0, 1, 1]) newBoard = .ok b
        ∧ (∀ i, i < 9 → ∀ (hr : i / 3 < 3) (hc : i % 3 < 3),
            b.fields ⟨i / 3, hr⟩ ⟨i % 3, hc⟩ = [(-1 : Int), -1, 0, 1, 1].getD i 0)
        ∧ sumsMatch b
        ∧ sumsConsistent b
        ∧ b.turn = ([(-1 : Int), -1, 0, 1, 1].countP (fun v => decide (v ≠ 0)) : Nat) := by
  obtain ⟨b, h1, h2, h3, h4, h5⟩ := replay_snapshot [-1, -1, 0, 1, 1] (by decide)
  exact ⟨by decide, by decide, b, h1, h2, h3, h4 (by decide), h5⟩

end TicTacToe
